import Mathlib

/-!
Verification development for the BK-tree repository
(`src/BKTree/bk_tree_pkg`): a shallow embedding of the weighted
Levenshtein distance (`functions.py`), the BK-tree index
(`bk_tree.py` / `node.py`) and the keyboard weight provider
(`keyboard.py`), together with theorems settling the specification
claims.

Python strings are modelled as `List Char`; Python `dict`s are
modelled as insertion-ordered association lists; raised exceptions are
modelled by an error type distinguishing the Python exception class.
-/

set_option maxHeartbeats 1600000

namespace BK

/-- Python exception classes that the package raises. -/
inductive PyErr where
  | keyError (msg : String)
  | valueError (msg : String)
  deriving DecidableEq, Repr

/-! ### `functions.py`: `levenshtein_distance`

The substitution cost of the DP cell: `fn_weights(val_s1, val_s2)` when a
weight function is supplied, else `1`. -/

/-- Substitution cost: `fn_weights(a, b) if fn_weights is not None else 1`. -/
def substW (fnw : Option (Char → Char → Nat)) (a b : Char) : Nat :=
  match fnw with
  | some f => f a b
  | none => 1

/-- The inner `for idx_s2, val_s2 in enumerate(s2)` loop of
`levenshtein_distance`: given the still-unprocessed part of `s2`, the
corresponding tail of `previous_distances` (starting at index `idx_s2`),
and the cell most recently appended to `current_distances`, produce the
cells appended by the remaining iterations.  Cell formula (lines 64-76 of
`functions.py`): `previous_distances[idx_s2]` when the characters agree,
otherwise `min(previous_distances[idx_s2] + subst,
previous_distances[1 + idx_s2] + 1, current_distances[idx_s2] + 1)`. -/
def levRowAux (fnw : Option (Char → Char → Nat)) (c : Char) :
    List Char → List Nat → Nat → List Nat
  | [], _, _ => []
  | _ :: _, [], _ => []
  | _ :: _, [_], _ => []
  | b :: bs, p0 :: p1 :: ps, last =>
    let cell := if c = b then p0
      else min (p0 + substW fnw c b) (min (p1 + 1) (last + 1))
    cell :: levRowAux fnw c bs (p1 :: ps) cell

/-- The outer `for idx_s1, val_s1 in enumerate(s1)` loop of
`levenshtein_distance` (lines 56-83): builds each row as
`[idx_s1 + 1] ++ inner-loop cells`, tracks `min_row_distance` as the
running minimum over the row, applies the early exit
`if max_distance is not None and min_row_distance >= max_distance` after
each row, and finally returns `current_distances[-1]`. -/
def levLoop (fnw : Option (Char → Char → Nat)) (maxd : Option Nat)
    (s2 : List Char) : List Char → List Nat → Nat → Nat
  | [], prev, _ => prev.getLastD 0
  | c :: cs, prev, i =>
    let cells := levRowAux fnw c s2 prev (i + 1)
    let m := cells.foldl min (i + 1)
    match maxd with
    | some M => if M ≤ m then m else levLoop fnw maxd s2 cs ((i + 1) :: cells) (i + 1)
    | none => levLoop fnw maxd s2 cs ((i + 1) :: cells) (i + 1)

/-- `levenshtein_distance(s1, s2, max_distance, fn_weights, case_sensitive)`
from `functions.py` (the `TypeError` guard is typed away; Python's
`str.casefold` is modelled per-character as `Char.toLower`).  Guards:
either string empty returns `max(len(s1), len(s2))`; identical strings
return `0`; otherwise the shorter string is swapped into `s2` and the
rolling-row DP runs with `current_distances = list(range(len(s2) + 1))`. -/
def levenshtein_distance (s1 s2 : List Char) (max_distance : Option Nat)
    (fn_weights : Option (Char → Char → Nat)) (case_sensitive : Bool) : Nat :=
  let t1 := if case_sensitive then s1 else s1.map Char.toLower
  let t2 := if case_sensitive then s2 else s2.map Char.toLower
  if t1 = [] ∨ t2 = [] then max t1.length t2.length
  else if t1 = t2 then 0
  else
    let p := if t1.length < t2.length then (t2, t1) else (t1, t2)
    levLoop fn_weights max_distance p.2 p.1 (List.range (p.2.length + 1)) 0

/-! ### Reference recursive form of the DP

`levFuel` is a fuel-indexed, hence structurally recursive and
kernel-computable, version of the textbook recursion satisfied by the
DP of `levenshtein_distance`; `levF` supplies sufficient fuel.  The DP
rows of the source compute `levF` on reversed prefixes (proved below),
so `levF` consumes characters from the front. -/

/-- Fuel-indexed recursive edit distance with substitution weight `w` and
unit insertion/deletion costs.  Fuel at least `|xs| + |ys| + 1` is enough
(`levFuel_congr`). -/
def levFuel (w : Char → Char → Nat) : Nat → List Char → List Char → Nat
  | 0, _, _ => 0
  | _ + 1, [], ys => ys.length
  | _ + 1, _ :: xs, [] => xs.length + 1
  | f + 1, x :: xs, y :: ys =>
    if x = y then levFuel w f xs ys
    else min (levFuel w f xs ys + w x y)
      (min (levFuel w f xs (y :: ys) + 1) (levFuel w f (x :: xs) ys + 1))

/-- Recursive edit distance (reference form of the DP). -/
def levF (w : Char → Char → Nat) (xs ys : List Char) : Nat :=
  levFuel w (xs.length + ys.length + 1) xs ys

/-- Unit substitution weight: the `fn_weights is None` case. -/
def unitW : Char → Char → Nat := fun _ _ => 1

/-- Reference value of a DP row suffix: cell `j` holds
`levF w p (reversal of the first j columns consumed so far)`. -/
def rowFrom (w : Char → Char → Nat) (p : List Char) :
    List Char → List Char → List Nat
  | r2, [] => [levF w p r2]
  | r2, b :: bs => levF w p r2 :: rowFrom w p (b :: r2) bs

/-- A single edit: delete, insert or substitute a character, anywhere in
the string (`skip` pushes the edit past a common head character). -/
inductive EStep : List Char → List Char → Prop where
  | del (x : Char) (a : List Char) : EStep (x :: a) a
  | ins (x : Char) (a : List Char) : EStep a (x :: a)
  | sub (x y : Char) (a : List Char) : EStep (x :: a) (y :: a)
  | skip (x : Char) {a b : List Char} : EStep a b → EStep (x :: a) (x :: b)

/-- An edit script of a given length. -/
inductive EPath : List Char → List Char → Nat → Prop where
  | refl (a : List Char) : EPath a a 0
  | step {a b c : List Char} {n : Nat} : EStep a b → EPath b c n → EPath a c (n + 1)

/-- Canonical unweighted Levenshtein distance; by the bridge theorems this
is the value `levenshtein_distance` computes with no bound and no weight
function. -/
def lev1 (a b : List Char) : Nat := levF unitW a.reverse b.reverse

/-- Minimum of a list of naturals (`0` on the empty list); `min(row)` in
the early-exit policy of `levenshtein_distance`. -/
def natListMin : List Nat → Nat
  | [] => 0
  | a :: l => l.foldl min a

/-- The pair `(s1, s2)` after the `len(s1) < len(s2)` swap of
`levenshtein_distance`. -/
def swapPair (s1 s2 : List Char) : List Char × List Char :=
  if s1.length < s2.length then (s2, s1) else (s1, s2)

/-- Minimum of the DP row of `levenshtein_distance` completed after
consuming the first `k` characters of the (post-swap) first string `a`,
against the (post-swap) second string `b`. -/
def dpRowMin (fnw : Option (Char → Char → Nat)) (a b : List Char) (k : Nat) : Nat :=
  natListMin (rowFrom (substW fnw) ((a.take k).reverse) [] b)

/-- An asymmetric substitution weight function (a legal `fn_weights`
argument in the source, which accepts any callable). -/
def asymW : Char → Char → Nat := fun a b => if a = 'x' ∧ b = 'y' then 0 else 2

/-! ### `node.py`: `Node`, and `bk_tree.py`: `BKTree`

A `Node` holds a string value, an `is_active` flag and the `_links`
dictionary from integer distance to exactly one child node; dictionaries
are modelled as insertion-ordered association lists. -/

/-- `Node` from `node.py`. -/
inductive BKNode where
  | mk (value : List Char) (active : Bool) (links : List (Nat × BKNode))

/-- `Node.get_value`. -/
def BKNode.get_value : BKNode → List Char
  | .mk v _ _ => v

/-- `Node.is_active`. -/
def BKNode.is_active : BKNode → Bool
  | .mk _ a _ => a

/-- `Node.get_links` (the copy it returns is identity here). -/
def BKNode.get_links : BKNode → List (Nat × BKNode)
  | .mk _ _ l => l

/-- `Node.has_distance`: `distance in self._links`. -/
def BKNode.has_distance (n : BKNode) (d : Nat) : Bool :=
  (n.get_links.lookup d).isSome

mutual
/-- Number of nodes of a subtree (not in the source; used as loop fuel and
as an induction measure). -/
def BKNode.size : BKNode → Nat
  | .mk _ _ l => 1 + sizeLinks l
def sizeLinks : List (Nat × BKNode) → Nat
  | [] => 0
  | (_, c) :: r => BKNode.size c + sizeLinks r
end

mutual
/-- All values stored in a subtree, in preorder. -/
def BKNode.subVals : BKNode → List (List Char)
  | .mk v _ l => v :: subValsLinks l
def subValsLinks : List (Nat × BKNode) → List (List Char)
  | [] => []
  | (_, c) :: r => BKNode.subVals c ++ subValsLinks r
end

mutual
/-- Values of the active nodes of a subtree. -/
def BKNode.activeVals : BKNode → List (List Char)
  | .mk v a l => (if a then [v] else []) ++ activeValsLinks l
def activeValsLinks : List (Nat × BKNode) → List (List Char)
  | [] => []
  | (_, c) :: r => BKNode.activeVals c ++ activeValsLinks r
end

mutual
/-- Dictionary lookup `self._bk_nodes_dict[s]`, modelled as the first
preorder node with the given value (in every tree the builders produce,
the dictionary maps each value to its unique reachable node). -/
def findNode (s : List Char) : BKNode → Option BKNode
  | .mk v a l => if v = s then some (.mk v a l) else findLinks s l
def findLinks (s : List Char) : List (Nat × BKNode) → Option BKNode
  | [] => none
  | (_, c) :: r =>
    match findNode s c with
    | some n => some n
    | none => findLinks s r
end

mutual
/-- The descent loop of `BKTree.add_node` (lines 218-230 of `bk_tree.py`):
at the current node compute
`levenshtein_distance(current.value, new.value, fn_weights=...)`; if the
node has no link at that distance, attach the new node there
(`add_link` appends to the dictionary), otherwise descend into that
link's child. -/
def insertNode (fnw : Option (Char → Char → Nat)) (s : List Char) : BKNode → BKNode
  | .mk v a l =>
    let d := levenshtein_distance v s none fnw true
    if (l.lookup d).isSome then .mk v a (insertLinks fnw s d l)
    else .mk v a (l ++ [(d, .mk s true [])])
def insertLinks (fnw : Option (Char → Char → Nat)) (s : List Char) (d : Nat) :
    List (Nat × BKNode) → List (Nat × BKNode)
  | [] => []
  | (e, c) :: r =>
    if e = d then (e, insertNode fnw s c) :: r else (e, c) :: insertLinks fnw s d r
end

/-- `BKTree` from `bk_tree.py`: the root node, the keys of
`_bk_nodes_dict` in insertion order, and `_fn_weights`. -/
structure BKTree where
  root : BKNode
  values : List (List Char)
  fnw : Option (Char → Char → Nat)

/-- `BKTree.has_node`: `string in self._bk_nodes_dict`. -/
def BKTree.has_node (t : BKTree) (s : List Char) : Bool :=
  t.values.contains s

/-- `BKTree.get_num_nodes`: `len(self._bk_nodes_dict)`. -/
def BKTree.get_num_nodes (t : BKTree) : Nat :=
  t.values.length

/-- `self[string].is_active()` after a successful `has_node` check. -/
def BKTree.node_active (t : BKTree) (s : List Char) : Bool :=
  match findNode s t.root with
  | some n => n.is_active
  | none => false

/-- `BKTree.add_node`, keeping the (unchanged) tree on failure to express
the imperative no-mutation-on-failure behaviour: the duplicate check
happens before any mutation. -/
def BKTree.add_node_state (t : BKTree) (s : List Char) : Except PyErr Unit × BKTree :=
  if t.has_node s then
    (Except.error (PyErr.valueError
      ("The string " ++ String.mk s ++ " already exists in the tree")), t)
  else
    (Except.ok (), ⟨insertNode t.fnw s t.root, t.values ++ [s], t.fnw⟩)

/-- `BKTree.add_node` as a fallible tree transformer. -/
def BKTree.add_node (t : BKTree) (s : List Char) : Except PyErr BKTree :=
  match t.add_node_state s with
  | (Except.error e, _) => Except.error e
  | (Except.ok _, t') => Except.ok t'

/-- `neighbors.setdefault(lev_dist, set()).add(value)` from
`BKTree.get_neighbors`: buckets are an insertion-ordered association list
from distance to a duplicate-free list of values. -/
def addBucket (acc : List (Nat × List (List Char))) (d : Nat) (v : List Char) :
    List (Nat × List (List Char)) :=
  match acc with
  | [] => [(d, [v])]
  | (e, s) :: r =>
    if e = d then (e, if s.contains v then s else s ++ [v]) :: r
    else (e, s) :: addBucket r d v

/-- The child-pushing filter of `BKTree.get_neighbors` (lines 168-174):
descend into a child exactly when
`lev_dist - max_distance <= node_distance <= lev_dist + max_distance`
(truncated `Nat` subtraction agrees with the Python `int` comparison
since `lev - k ≤ e` over `ℤ` is `lev ≤ e + k`, same as over `ℕ`). -/
def keepChildren (lev maxd : Nat) (links : List (Nat × BKNode)) : List BKNode :=
  (links.filter fun p => decide (lev - maxd ≤ p.1) && decide (p.1 ≤ lev + maxd)).map
    Prod.snd

/-- The stack loop of `BKTree.get_neighbors`: pop a node, record its value
under its distance when within range and active, and push the children
whose edge distance is within the pruning band (Python pushes to the end
of the list and pops from the end; with the head as the top of the stack
the pushed children are prepended in reverse order).  The fuel argument
dominates the total size of the stack, which strictly decreases. -/
def getNeighborsLoop (fnw : Option (Char → Char → Nat)) (s : List Char) (maxd : Nat) :
    Nat → List BKNode → List (Nat × List (List Char)) → List (Nat × List (List Char))
  | 0, _, acc => acc
  | _ + 1, [], acc => acc
  | f + 1, n :: stack, acc =>
    let lev := levenshtein_distance s n.get_value none fnw true
    let acc' := if lev ≤ maxd ∧ n.is_active then addBucket acc lev n.get_value else acc
    getNeighborsLoop fnw s maxd f ((keepChildren lev maxd n.get_links).reverse ++ stack)
      acc'

/-- `BKTree.get_neighbors`. -/
def BKTree.get_neighbors (t : BKTree) (s : List Char) (maxd : Nat) :
    List (Nat × List (List Char)) :=
  getNeighborsLoop t.fnw s maxd (t.root.size + 1) [t.root] []

/-- Bucket membership: the value `u` is recorded under distance `d`. -/
def inBucket (acc : List (Nat × List (List Char))) (d : Nat) (u : List Char) : Prop :=
  ∃ p ∈ acc, p.1 = d ∧ u ∈ p.2

/-- Boolean bucket subsumption: every recorded entry of `A` is recorded
in `B`. -/
def bucketsSub (A B : List (Nat × List (List Char))) : Bool :=
  A.all fun p => p.2.all fun u => B.any fun q => q.1 == p.1 && q.2.contains u

/-- `min(suggestions.keys())` from `BKTree.suggest_correction`. -/
def minKeys : List (Nat × List (List Char)) → Nat
  | [] => 0
  | (d, _) :: r => r.foldl (fun m p => min m p.1) d

/-- Python string `<` (lexicographic by code point), as a `≤` test. -/
def strLeB : List Char → List Char → Bool
  | [], _ => true
  | _ :: _, [] => false
  | x :: xs, y :: ys => if x = y then strLeB xs ys else decide (x < y)

/-- `BKTree.suggest_correction`.  The adaptive radius
`max(round(len(string) / 5) + 1, 2)` is modelled as
`max ((len + 2) / 5 + 1) 2`: for integer `len`, `len / 5` has fractional
part in `{0, .2, .4, .6, .8}`, so Python's `round` (ties-to-even is never
exercised, and the float quotient is far closer to the exact value than
to any tie) is rounding half-up, i.e. `⌊(len + 2) / 5⌋`.
`sorted(...)[0]` is modelled as the head of a merge sort by `strLeB`. -/
def BKTree.suggest_correction (t : BKTree) (s : List Char) : Option (List Char) :=
  if t.has_node s ∧ t.node_active s then none
  else
    let suggestions := t.get_neighbors s (max ((s.length + 2) / 5 + 1) 2)
    if suggestions.isEmpty then none
    else
      let dmin := minKeys suggestions
      let bucket := (suggestions.lookup dmin).getD []
      some ((bucket.mergeSort strLeB).headD [])

/-- The `for string in strings_set: bk_tree.add_node(string)` loop of
`bk_tree_builder_from_set`; a raised exception propagates. -/
def addAll (t : BKTree) : List (List Char) → Except PyErr BKTree
  | [] => Except.ok t
  | s :: rest =>
    match t.add_node s with
    | Except.error e => Except.error e
    | Except.ok t' => addAll t' rest

/-- `bk_tree_builder_from_set` from `bk_tree.py`: an empty set is a
`ValueError`; otherwise one popped element seeds the root and the rest
are inserted.  The Python `set` is modelled as a list in iteration order
(`set.pop()` takes its first element). -/
def bk_tree_builder_from_set (l : List (List Char))
    (fnw : Option (Char → Char → Nat)) : Except PyErr BKTree :=
  match l with
  | [] => Except.error (PyErr.valueError
      "Argument `strings_set` expected to have at least 1 element, got 0 elements")
  | r :: rest => addAll ⟨.mk r true [], [r], fnw⟩ rest

/-- `set(...)` over a list of strings: deduplication keeping first
occurrences, in order. -/
def setOf (l : List (List Char)) : List (List Char) :=
  l.foldl (fun acc s => if acc.contains s then acc else acc ++ [s]) []

/-- Python `str.split(sep)` for a non-empty separator: scan left to right
for non-overlapping occurrences of `sep`; in particular
`"".split(",") == [""]`.  The fuel (first argument of the auxiliary)
dominates the remaining length, so `content.length + 1` always
suffices. -/
def splitFuel (sep : List Char) : Nat → List Char → List Char → List (List Char)
  | 0, s, cur => [cur.reverse ++ s]
  | _ + 1, [], cur => [cur.reverse]
  | f + 1, c :: rest, cur =>
    if sep.isPrefixOf (c :: rest) then
      cur.reverse :: splitFuel sep f (List.drop (sep.length - 1) rest) []
    else splitFuel sep f rest (c :: cur)

/-- `content.split(delimiter)`. -/
def splitOnL (content sep : List Char) : List (List Char) :=
  splitFuel sep (content.length + 1) content []

/-- `bk_tree_builder_from_file`:
`BKTree.build("from_set", set(ptr_file.read().split(delimiter)), ...)`,
with the file's whole content as a string. -/
def bk_tree_builder_from_file (content delimiter : List Char)
    (fnw : Option (Char → Char → Nat)) : Except PyErr BKTree :=
  bk_tree_builder_from_set (setOf (splitOnL content delimiter)) fnw

/-- One record of the `nodes` list of the persisted tree dictionary. -/
structure NodeDict where
  value : List Char
  active : Bool
  links : List (Nat × List Char)

/-- The persisted tree dictionary (`{"root": ..., "nodes": [...]}`).  The
`if not bk_tree_dict` guard of the source (a dictionary with no keys) has
no counterpart in this typed record. -/
structure TreeDict where
  root : List Char
  nodes : List NodeDict

/-- Keys of the `{node["value"]: BKNode(...) for node in nodes}`
comprehension: first-occurrence order. -/
def dictKeys (nodes : List NodeDict) : List (List Char) :=
  nodes.foldl (fun acc n => if acc.contains n.value then acc else acc ++ [n.value]) []

/-- Active flag of the dictionary node for `v`: a dict comprehension keeps
the last record of a duplicated key. -/
def flagOf (nodes : List NodeDict) (v : List Char) : Bool :=
  match (nodes.filter fun n => n.value = v).getLast? with
  | some n => n.active
  | none => true

/-- `bk_nodes_dict[node_value].add_link(int(distance), bk_nodes_dict[node])`:
raises `KeyError` on a duplicate distance, else appends. -/
def accAdd (acc : List (List Char × List (Nat × List Char))) (v : List Char)
    (d : Nat) (c : List Char) :
    Except PyErr (List (List Char × List (Nat × List Char))) :=
  match acc with
  | [] => Except.ok [(v, [(d, c)])]
  | (v', ls) :: r =>
    if v' = v then
      if (ls.lookup d).isSome then
        Except.error (PyErr.keyError
          ("The same node cannot have multiple links with the same distance, distance "
            ++ toString d ++ " already exists"))
      else Except.ok ((v', ls ++ [(d, c)]) :: r)
    else
      match accAdd r v d c with
      | Except.error e => Except.error e
      | Except.ok r' => Except.ok ((v', ls) :: r')

/-- The inner `for distance, node in node_dict["links"].items()` loop of
`bk_tree_builder_from_dict`: a child value absent from the node set is a
`KeyError`, then the link is added. -/
def linkLoopNode (vals : List (List Char)) (v : List Char) :
    List (Nat × List Char) → List (List Char × List (Nat × List Char)) →
    Except PyErr (List (List Char × List (Nat × List Char)))
  | [], acc => Except.ok acc
  | (d, c) :: r, acc =>
    if vals.contains c then
      match accAdd acc v d c with
      | Except.error e => Except.error e
      | Except.ok acc' => linkLoopNode vals v r acc'
    else Except.error (PyErr.keyError ("Subnode `" ++ String.mk c ++ "` not defined as node"))

/-- The outer `for node_dict in bk_tree_dict["nodes"]` loop. -/
def linkLoop (vals : List (List Char)) :
    List NodeDict → List (List Char × List (Nat × List Char)) →
    Except PyErr (List (List Char × List (Nat × List Char)))
  | [], acc => Except.ok acc
  | nd :: r, acc =>
    match linkLoopNode vals nd.value nd.links acc with
    | Except.error e => Except.error e
    | Except.ok acc' => linkLoop vals r acc'

/-- Materialisation of the validated flat link map into nodes, with fuel
bounding the depth (the number of records suffices for the acyclic
single-parent inputs the format describes; the source builds an object
graph by reference instead). -/
def buildNodeF (nodes : List NodeDict) (acc : List (List Char × List (Nat × List Char))) :
    Nat → List Char → BKNode
  | 0, v => .mk v (flagOf nodes v) []
  | f + 1, v => .mk v (flagOf nodes v)
      (((acc.lookup v).getD []).map fun p => (p.1, buildNodeF nodes acc f p.2))

/-- `bk_tree_builder_from_dict` from `bk_tree.py`: build the value → node
dictionary, look up the root (a `KeyError` when absent), then run the link
loop (a `KeyError` on an undefined child value, before the corresponding
`add_link`), finally assemble the tree. -/
def bk_tree_builder_from_dict (td : TreeDict)
    (fnw : Option (Char → Char → Nat)) : Except PyErr BKTree :=
  let vals := dictKeys td.nodes
  if vals.contains td.root then
    match linkLoop vals td.nodes [] with
    | Except.error e => Except.error e
    | Except.ok acc =>
      Except.ok ⟨buildNodeF td.nodes acc td.nodes.length td.root, vals, fnw⟩
  else Except.error (PyErr.keyError (String.mk td.root))

/-- Tree well-formedness: each link's edge distance is the distance,
as the insertion call computes it, from the node's value to every value
in the child's subtree. -/
inductive NodeWF (fnw : Option (Char → Char → Nat)) : BKNode → Prop where
  | intro (v : List Char) (a : Bool) (l : List (Nat × BKNode))
      (hd : ∀ d c, (d, c) ∈ l →
        ∀ u, u ∈ c.subVals → levenshtein_distance v u none fnw true = d)
      (hc : ∀ d c, (d, c) ∈ l → NodeWF fnw c) :
      NodeWF fnw (.mk v a l)

/-- Total size of a traversal stack. -/
def stackSizes : List BKNode → Nat
  | [] => 0
  | n :: r => n.size + stackSizes r

/-- Invariant of every tree the builders produce: a well-formed root, the
value dictionary holding exactly the reachable values, and (for trees
built purely by insertion) every node active. -/
def TreeOK (t : BKTree) : Prop :=
  NodeWF t.fnw t.root ∧
    (∀ u, u ∈ t.values ↔ u ∈ t.root.subVals) ∧
    (∀ u, u ∈ t.root.subVals ↔ u ∈ t.root.activeVals)

/-! ### `keyboard.py`: `Keyboard`

Coordinates are modelled as rationals. `euclidean_distance` from
`functions.py` returns `sqrt(dx^2 + dy^2)`, and `keyboard.py` only ever
uses `int(round(euclidean_distance(...)))`; that composite is modelled
exactly on the squared distance.  Python dictionaries are
insertion-ordered association lists; `d[k] = v` replaces in place or
appends, `d.setdefault(k, v)` appends only when absent, `del d[k]`
removes the entry. -/

/-- Squared Euclidean distance (exact, rational). -/
def euclidSq (p1 p2 : ℚ × ℚ) : ℚ :=
  (p1.1 - p2.1) ^ 2 + (p1.2 - p2.2) ^ 2

/-- `int(round(sqrt q))` for `q ≥ 0`: `⌊√q + 1/2⌋`, computed as
`(⌊√(4q)⌋ + 1) / 2` (Python's round-half-to-even differs only on exact
`.5` ties of the true square root, which its float also perturbs). -/
def roundSqrt (q : ℚ) : ℕ :=
  (Nat.sqrt (4 * q).floor.toNat + 1) / 2

/-- `int(round(euclidean_distance(p1, p2)))`. -/
def ecost (p1 p2 : ℚ × ℚ) : ℕ :=
  roundSqrt (euclidSq p1 p2)

/-- `d[k] = v`: replace the first entry in place, or append. -/
def dInsert {α β : Type} [BEq α] : List (α × β) → α → β → List (α × β)
  | [], k, v => [(k, v)]
  | (k', v') :: r, k, v =>
    if k' == k then (k, v) :: r else (k', v') :: dInsert r k v

/-- `d.setdefault(k, v)`: append only when the key is absent. -/
def dSetdefault {α β : Type} [BEq α] (l : List (α × β)) (k : α) (v : β) :
    List (α × β) :=
  if (l.lookup k).isSome then l else l ++ [(k, v)]

/-- `del d[k]`: drop the first entry with the key. -/
def dDel {α β : Type} [BEq α] : List (α × β) → α → List (α × β)
  | [], _ => []
  | (k', v') :: r, k => if k' == k then r else (k', v') :: dDel r k

/-- The nested weight table `_keys_weight`. -/
def WTable : Type := List (Char × List (Char × Nat))

/-- `self._keys_weight[k1][k2] = x` (the outer key must exist, as it does
at every call site). -/
def wSet : WTable → Char → Char → Nat → WTable
  | [], _, _, _ => []
  | (k, inner) :: r, k1, k2, x =>
    if k == k1 then (k, dInsert inner k2 x) :: r else (k, inner) :: wSet r k1 k2 x

/-- `self._keys_weight[k1].setdefault(k2, x)`. -/
def wSetdefault : WTable → Char → Char → Nat → WTable
  | [], _, _, _ => []
  | (k, inner) :: r, k1, k2, x =>
    if k == k1 then (k, dSetdefault inner k2 x) :: r
    else (k, inner) :: wSetdefault r k1 k2 x

/-- `del self._keys_weight[k][key]` (inner deletion only). -/
def wDelInner : WTable → Char → Char → WTable
  | [], _, _ => []
  | (k', inner) :: r, k, key =>
    if k' == k then (k', dDel inner key) :: r else (k', inner) :: wDelInner r k key

/-- The resolved optional weight `self._keys_weight[a].get(b)`. -/
def wGet (w : WTable) (a b : Char) : Option Nat :=
  (w.lookup a).bind fun i => i.lookup b

/-- The inner `for ii in range(i + 1, len(keys_list))` loop of
`Keyboard.__init__` (lines 28-37): for each later key at rounded distance
at most 1, store the weight in both directions. -/
def initPairs (ki : Char) (ci : ℚ × ℚ) : List (Char × (ℚ × ℚ)) → WTable → WTable
  | [], w => w
  | (kii, cii) :: rest, w =>
    let weight := ecost ci cii
    if weight > 1 then initPairs ki ci rest w
    else initPairs ki ci rest
      (wSet (dSetdefault (wSet w ki kii weight) kii [(kii, 0)]) kii ki weight)

/-- The outer `for i, (key_i, coordinate_i) in enumerate(keys_list)` loop
of `Keyboard.__init__`: `setdefault(key_i, {key_i: 0})`, then the inner
loop over the later keys. -/
def initLoop : List (Char × (ℚ × ℚ)) → WTable → WTable
  | [], w => w
  | (ki, ci) :: rest, w => initLoop rest (initPairs ki ci rest (dSetdefault w ki [(ki, 0)]))

/-- `Keyboard` from `keyboard.py`: `_keys` and `_keys_weight`. -/
structure Keyboard where
  keys : List (Char × (ℚ × ℚ))
  keysWeight : WTable

/-- `Keyboard.__init__`. -/
def Keyboard.init (keys : List (Char × (ℚ × ℚ))) : Keyboard :=
  ⟨keys, initLoop keys []⟩

/-- `Keyboard.has_key`. -/
def Keyboard.has_key (kb : Keyboard) (k : Char) : Bool :=
  (kb.keys.lookup k).isSome

/-- `Keyboard.get_weight`: `self._keys_weight[k1].get(k2, default_weight)
if self.has_key(k1) else default_weight` (the outer lookup cannot miss
when `has_key` holds; `getD []` renders the impossible miss). -/
def Keyboard.get_weight (kb : Keyboard) (k1 k2 : Char) (default_weight : Nat) : Nat :=
  if kb.has_key k1 then
    (((kb.keysWeight.lookup k1).getD []).lookup k2).getD default_weight
  else default_weight

/-- The `for k in self._keys` loop of `Keyboard.add_key` (lines 161-167),
run after `self._keys[key] = coordinate` and
`self._keys_weight[key] = {key: 0}`, hence over a key list that includes
the new key. -/
def addLoop (key : Char) (c : ℚ × ℚ) : List (Char × (ℚ × ℚ)) → WTable → WTable
  | [], w => w
  | (k, ck) :: rest, w =>
    let weight := ecost ck c
    if weight > 1 then addLoop key c rest w
    else addLoop key c rest
      (wSetdefault (dSetdefault (wSetdefault w k key weight) key [(key, 0)]) key k weight)

/-- `Keyboard.add_key`. -/
def Keyboard.add_key (kb : Keyboard) (key : Char) (c : ℚ × ℚ) :
    Except PyErr Keyboard :=
  if (kb.keys.lookup key).isSome then
    Except.error (PyErr.valueError ("Key `" ++ String.mk [key] ++ "` exists"))
  else
    let keys' := dInsert kb.keys key c
    Except.ok ⟨keys', addLoop key c keys' (dInsert kb.keysWeight key [(key, 0)])⟩

/-- The `for k in list(self._keys_weight[key].keys())` loop of
`Keyboard.del_key`: remove `key` from each of its neighbours' rows. -/
def delInner (key : Char) : List Char → WTable → WTable
  | [], w => w
  | k :: rest, w => delInner key rest (wDelInner w k key)

/-- `Keyboard.del_key`. -/
def Keyboard.del_key (kb : Keyboard) (key : Char) : Except PyErr Keyboard :=
  if (kb.keys.lookup key).isSome then
    Except.ok ⟨dDel kb.keys key,
      dDel (delInner key (((kb.keysWeight.lookup key).getD []).map Prod.fst)
        kb.keysWeight) key⟩
  else
    Except.error (PyErr.valueError ("Key `" ++ String.mk [key] ++ "` not exists"))

/-- `Keyboard.update_key`: `del_key` then `add_key`. -/
def Keyboard.update_key (kb : Keyboard) (key : Char) (c : ℚ × ℚ) :
    Except PyErr Keyboard :=
  if (kb.keys.lookup key).isSome then
    match kb.del_key key with
    | Except.error e => Except.error e
    | Except.ok kb' => kb'.add_key key c
  else
    Except.error (PyErr.valueError ("Key `" ++ String.mk [key] ++ "` not exists"))

/-- A runtime mutation of the keyboard. -/
inductive KOp where
  | add (k : Char) (c : ℚ × ℚ)
  | upd (k : Char) (c : ℚ × ℚ)
  | del (k : Char)

/-- Apply one mutation; a raised `ValueError` leaves the keyboard
unchanged. -/
def applyOp (kb : Keyboard) : KOp → Keyboard
  | .add k c =>
    match kb.add_key k c with
    | Except.ok kb' => kb'
    | Except.error _ => kb
  | .upd k c =>
    match kb.update_key k c with
    | Except.ok kb' => kb'
    | Except.error _ => kb
  | .del k =>
    match kb.del_key k with
    | Except.ok kb' => kb'
    | Except.error _ => kb

/-- Apply a sequence of mutations. -/
def applyOps (kb : Keyboard) : List KOp → Keyboard
  | [] => kb
  | op :: rest => applyOps (applyOp kb op) rest

/-- Invariant of every reachable keyboard state: duplicate-free keys, a
symmetric weight table with zero diagonal on its domain, entries
referring only to present keys, and a row for every key. -/
def KInv (kb : Keyboard) : Prop :=
  (kb.keys.map Prod.fst).Nodup ∧
  (kb.keysWeight.map Prod.fst).Nodup ∧
  (∀ k i, kb.keysWeight.lookup k = some i → (i.map Prod.fst).Nodup) ∧
  (∀ a b, wGet kb.keysWeight a b = wGet kb.keysWeight b a) ∧
  (∀ k, (kb.keysWeight.lookup k).isSome = true → wGet kb.keysWeight k k = some 0) ∧
  (∀ a b, (wGet kb.keysWeight a b).isSome = true →
    (kb.keys.lookup a).isSome = true ∧ (kb.keys.lookup b).isSome = true) ∧
  (∀ k, (kb.keys.lookup k).isSome = true → (kb.keysWeight.lookup k).isSome = true)

/-- The weight-table part of `KInv`, relative to a key dictionary:
duplicate-free outer and inner key lists, symmetry, zero diagonal on the
row domain, and entries only between present keys. -/
def WState (keys : List (Char × (ℚ × ℚ))) (w : WTable) : Prop :=
  (w.map Prod.fst).Nodup ∧
  (∀ k i, w.lookup k = some i → (i.map Prod.fst).Nodup) ∧
  (∀ a b, wGet w a b = wGet w b a) ∧
  (∀ k, (w.lookup k).isSome = true → wGet w k k = some 0) ∧
  (∀ a b, (wGet w a b).isSome = true →
    (keys.lookup a).isSome = true ∧ (keys.lookup b).isSome = true)

theorem levFuel_congr (w : Char → Char → Nat) :
    ∀ f g xs ys, xs.length + ys.length < f → xs.length + ys.length < g →
      levFuel w f xs ys = levFuel w g xs ys := by
  intro f
  induction f with
  | zero => intro g xs ys h; omega
  | succ f ih =>
    intro g xs ys hf hg
    match g, hg with
    | g + 1, hg =>
      match xs, ys with
      | [], ys => rfl
      | x :: xs, [] => rfl
      | x :: xs, y :: ys =>
        simp only [List.length_cons] at hf hg
        simp only [levFuel]
        rw [ih g xs ys (by omega) (by omega),
          ih g xs (y :: ys) (by simp; omega) (by simp; omega),
          ih g (x :: xs) ys (by simp; omega) (by simp; omega)]

theorem levF_nil_left (w : Char → Char → Nat) (ys : List Char) :
    levF w [] ys = ys.length := rfl

theorem levF_cons_nil (w : Char → Char → Nat) (x : Char) (xs : List Char) :
    levF w (x :: xs) [] = xs.length + 1 := rfl

theorem levF_cons_cons (w : Char → Char → Nat) (x y : Char) (xs ys : List Char) :
    levF w (x :: xs) (y :: ys) =
      if x = y then levF w xs ys
      else min (levF w xs ys + w x y)
        (min (levF w xs (y :: ys) + 1) (levF w (x :: xs) ys + 1)) := by
  show levFuel w ((x :: xs).length + (y :: ys).length + 1) (x :: xs) (y :: ys) = _
  have h : (x :: xs).length + (y :: ys).length + 1 =
      (xs.length + (y :: ys).length + 1) + 1 := by simp; omega
  rw [h]
  simp only [levFuel, levF]
  have e1 : levFuel w (xs.length + (y :: ys).length + 1) xs ys =
      levFuel w (xs.length + ys.length + 1) xs ys :=
    levFuel_congr w _ _ _ _ (by simp only [List.length_cons]; omega)
      (by omega)
  have e3 : levFuel w (xs.length + (y :: ys).length + 1) (x :: xs) ys =
      levFuel w ((x :: xs).length + ys.length + 1) (x :: xs) ys :=
    levFuel_congr w _ _ _ _ (by simp only [List.length_cons]; omega)
      (by simp only [List.length_cons]; omega)
  rw [e1, e3]

/-! ### The DP rows compute `levF` on reversed prefixes

`rowFrom w p r2 q2` is the suffix of the DP row for the already-consumed
(reversed) part `p` of the first string, starting at the column whose
already-consumed (reversed) part of the second string is `r2`, with `q2`
the remaining columns. -/

theorem rowFrom_head (w : Char → Char → Nat) (p r2 q2 : List Char) :
    rowFrom w p r2 q2 = levF w p r2 :: (rowFrom w p r2 q2).tail := by
  cases q2 <;> rfl

theorem rowFrom_ne_nil (w : Char → Char → Nat) (p r2 q2 : List Char) :
    rowFrom w p r2 q2 ≠ [] := by
  cases q2 <;> simp [rowFrom]

/-- The inner loop advances the DP row: starting from the row of `p` it
produces (the tail of) the row of `c :: p`. -/
theorem levRowAux_eq (fnw : Option (Char → Char → Nat)) (c : Char) (p : List Char) :
    ∀ (q2 r2 : List Char),
      levRowAux fnw c q2 (rowFrom (substW fnw) p r2 q2)
          (levF (substW fnw) (c :: p) r2)
        = (rowFrom (substW fnw) (c :: p) r2 q2).tail := by
  intro q2
  induction q2 with
  | nil => intro r2; simp [rowFrom, levRowAux]
  | cons b bs ih =>
    intro r2
    rw [show rowFrom (substW fnw) p r2 (b :: bs)
        = levF (substW fnw) p r2 :: rowFrom (substW fnw) p (b :: r2) bs from rfl]
    rw [rowFrom_head (substW fnw) p (b :: r2) bs]
    rw [levRowAux]
    have hcell : (if c = b then levF (substW fnw) p r2
        else min (levF (substW fnw) p r2 + substW fnw c b)
          (min (levF (substW fnw) p (b :: r2) + 1)
            (levF (substW fnw) (c :: p) r2 + 1)))
        = levF (substW fnw) (c :: p) (b :: r2) :=
      (levF_cons_cons (substW fnw) c b p r2).symm
    rw [hcell]
    rw [← rowFrom_head (substW fnw) p (b :: r2) bs, ih (b :: r2)]
    rw [show (rowFrom (substW fnw) (c :: p) r2 (b :: bs)).tail
        = rowFrom (substW fnw) (c :: p) (b :: r2) bs from rfl]
    exact (rowFrom_head (substW fnw) (c :: p) (b :: r2) bs).symm

theorem levF_nil_right (w : Char → Char → Nat) (xs : List Char) :
    levF w xs [] = xs.length := by
  cases xs <;> rfl

/-- The last cell of the row of `p` is `levF w p` of the full reversed
second string. -/
theorem rowFrom_getLastD (w : Char → Char → Nat) (p : List Char) :
    ∀ (q2 r2 : List Char) (d : Nat),
      (rowFrom w p r2 q2).getLastD d = levF w p (q2.reverse ++ r2) := by
  intro q2
  induction q2 with
  | nil => intro r2 d; simp [rowFrom]
  | cons b bs ih =>
    intro r2 d
    rw [show rowFrom w p r2 (b :: bs)
        = levF w p r2 :: rowFrom w p (b :: r2) bs from rfl]
    rw [List.getLastD_cons, ih (b :: r2)]
    simp

/-- The initial row `list(range(len(s2) + 1))` is the row of the empty
consumed prefix. -/
theorem rowFrom_nil (w : Char → Char → Nat) :
    ∀ (q2 r2 : List Char), rowFrom w [] r2 q2 = List.range' r2.length (q2.length + 1) := by
  intro q2
  induction q2 with
  | nil => intro r2; simp [rowFrom, List.range', levF_nil_left]
  | cons b bs ih =>
    intro r2
    rw [show rowFrom w [] r2 (b :: bs)
        = levF w [] r2 :: rowFrom w [] (b :: r2) bs from rfl]
    rw [ih (b :: r2), levF_nil_left]
    simp [List.range'_succ]

/-- The unbounded outer loop, run on the row of `p` with the remaining
characters `cs`, ends with the exact distance between the full first
string (reversed) and the reversed second string. -/
theorem levLoop_none (fnw : Option (Char → Char → Nat)) (s2 : List Char) :
    ∀ (cs p : List Char),
      levLoop fnw none s2 cs (rowFrom (substW fnw) p [] s2) p.length
        = levF (substW fnw) (cs.reverse ++ p) s2.reverse := by
  intro cs
  induction cs with
  | nil =>
    intro p
    rw [levLoop, rowFrom_getLastD]
    simp
  | cons c cs ih =>
    intro p
    have step : levLoop fnw none s2 (c :: cs) (rowFrom (substW fnw) p [] s2) p.length
        = levLoop fnw none s2 cs
            ((p.length + 1) ::
              levRowAux fnw c s2 (rowFrom (substW fnw) p [] s2) (p.length + 1))
            (p.length + 1) := rfl
    rw [step]
    have hlast : (p.length + 1 : Nat) = levF (substW fnw) (c :: p) [] := by
      rw [levF_nil_right]; rfl
    rw [hlast, levRowAux_eq fnw c p s2 []]
    rw [show levF (substW fnw) (c :: p) []
        :: (rowFrom (substW fnw) (c :: p) [] s2).tail
        = rowFrom (substW fnw) (c :: p) [] s2 from
        (rowFrom_head (substW fnw) (c :: p) [] s2).symm]
    rw [show levF (substW fnw) (c :: p) [] = (c :: p).length from
      levF_nil_right (substW fnw) (c :: p)]
    rw [ih (c :: p)]
    simp

/-! ### Metric properties of `levF` -/

theorem levF_self (w : Char → Char → Nat) : ∀ xs : List Char, levF w xs xs = 0 := by
  intro xs
  induction xs with
  | nil => rfl
  | cons x xs ih => rw [levF_cons_cons, if_pos rfl, ih]

/-- `levF` is symmetric whenever the substitution weight is. -/
theorem levF_symm (w : Char → Char → Nat) (hw : ∀ a b, w a b = w b a) :
    ∀ xs ys : List Char, levF w xs ys = levF w ys xs := by
  have key : ∀ n xs ys, xs.length + ys.length ≤ n → levF w xs ys = levF w ys xs := by
    intro n
    induction n with
    | zero =>
      intro xs ys h
      match xs, ys with
      | [], [] => rfl
      | [], y :: ys => simp only [List.length_cons] at h; omega
      | x :: xs, ys => simp only [List.length_cons] at h; omega
    | succ n ih =>
      intro xs ys h
      match xs, ys with
      | [], [] => rfl
      | [], y :: ys => rw [levF_nil_left, levF_nil_right]
      | x :: xs, [] => rw [levF_nil_left, levF_nil_right]
      | x :: xs, y :: ys =>
        simp only [List.length_cons] at h
        rw [levF_cons_cons, levF_cons_cons]
        by_cases hxy : x = y
        · subst hxy
          rw [if_pos rfl, if_pos rfl, ih xs ys (by omega)]
        · rw [if_neg hxy, if_neg (fun hyx => hxy hyx.symm)]
          rw [ih xs ys (by omega), ih xs (y :: ys) (by simp; omega),
            ih (x :: xs) ys (by simp; omega), hw x y]
          omega
  exact fun xs ys => key (xs.length + ys.length) xs ys le_rfl

/-- One-step adjacency: prepending a character to either side changes the
unweighted distance by at most one (both directions, proved jointly). -/
theorem levF_adj :
    ∀ n (a b : List Char) (x : Char), a.length + b.length ≤ n →
      levF unitW (x :: a) b ≤ levF unitW a b + 1 ∧
      levF unitW a b ≤ levF unitW (x :: a) b + 1 := by
  intro n
  induction n with
  | zero =>
    intro a b x h
    match a, b with
    | [], [] =>
      refine ⟨?_, ?_⟩ <;> simp [levF_nil_left, levF_nil_right]
    | [], y :: ys => simp only [List.length_cons] at h; omega
    | z :: zs, b => simp only [List.length_cons] at h; omega
  | succ n ih =>
    intro a b x h
    have hsymm := levF_symm unitW (fun _ _ => rfl)
    match b with
    | [] =>
      constructor <;>
        (rw [levF_nil_right, levF_nil_right]; simp only [List.length_cons]; omega)
    | y :: ys =>
      simp only [List.length_cons] at h
      constructor
      · -- delete: levF (x :: a) (y :: ys) ≤ levF a (y :: ys) + 1
        rw [levF_cons_cons]
        by_cases hxy : x = y
        · rw [if_pos hxy]
          -- levF a ys ≤ levF a (y :: ys) + 1
          have := (ih ys a y (by omega)).2
          rw [hsymm ys a, hsymm (y :: ys) a] at this
          exact this
        · rw [if_neg hxy]
          omega
      · -- insert: levF a (y :: ys) ≤ levF (x :: a) (y :: ys) + 1
        rw [levF_cons_cons]
        have h1 : levF unitW a (y :: ys) ≤ levF unitW a ys + 1 := by
          have := (ih ys a y (by omega)).1
          rw [hsymm (y :: ys) a, hsymm ys a] at this
          exact this
        by_cases hxy : x = y
        · rw [if_pos hxy]; omega
        · rw [if_neg hxy]
          have h3 : levF unitW a ys ≤ levF unitW (x :: a) ys + 1 :=
            (ih a ys x (by omega)).2
          omega

/-- Substituting the head character changes the unweighted distance by at
most one. -/
theorem levF_sub_head (a : List Char) (x y : Char) :
    ∀ b : List Char, levF unitW (x :: a) b ≤ levF unitW (y :: a) b + 1 := by
  have hsymm := levF_symm unitW (fun _ _ => rfl)
  intro b
  induction b with
  | nil =>
    rw [levF_nil_right, levF_nil_right]
    simp only [List.length_cons]
    omega
  | cons z bs ihb =>
    rw [levF_cons_cons, levF_cons_cons]
    have hins2 : levF unitW a bs ≤ levF unitW a (z :: bs) + 1 := by
      have := (levF_adj (bs.length + a.length) bs a z le_rfl).2
      rw [hsymm bs a, hsymm (z :: bs) a] at this
      exact this
    have hins1 : levF unitW a bs ≤ levF unitW (y :: a) bs + 1 :=
      (levF_adj (a.length + bs.length) a bs y le_rfl).2
    by_cases hxz : x = z <;> by_cases hyz : y = z
    · rw [if_pos hxz, if_pos hyz]; omega
    · rw [if_pos hxz, if_neg hyz]
      simp only [unitW]
      omega
    · rw [if_neg hxz, if_pos hyz]
      simp only [unitW]
      omega
    · rw [if_neg hxz, if_neg hyz]
      simp only [unitW]
      omega

/-! ### Triangle inequality for the unweighted distance, via edit scripts -/

theorem EPath.trans {a b c : List Char} {m n : Nat}
    (h1 : EPath a b m) (h2 : EPath b c n) : EPath a c (m + n) := by
  induction h1 with
  | refl => simpa using h2
  | step s _ ih =>
    rename_i a' b' c' m' _
    have h3 := EPath.step s (ih h2)
    have e : m' + 1 + n = m' + n + 1 := by omega
    rw [e]
    exact h3

theorem EPath.cons_lift (x : Char) {a b : List Char} {n : Nat}
    (h : EPath a b n) : EPath (x :: a) (x :: b) n := by
  induction h with
  | refl => exact EPath.refl _
  | step s _ ih => exact EPath.step (EStep.skip x s) ih

theorem EPath.snoc {a b c : List Char} {n : Nat}
    (h : EPath a b n) (s : EStep b c) : EPath a c (n + 1) := by
  induction h with
  | refl => exact EPath.step s (EPath.refl _)
  | step s' _ ih => exact EPath.step s' (ih s)

/-- Completeness: there is an edit script of length `levF unitW a b`. -/
theorem epath_levF : ∀ n (a b : List Char), a.length + b.length ≤ n →
    EPath a b (levF unitW a b) := by
  intro n
  induction n with
  | zero =>
    intro a b h
    match a, b with
    | [], [] => exact levF_self unitW [] ▸ EPath.refl []
    | [], y :: ys => simp only [List.length_cons] at h; omega
    | x :: xs, b => simp only [List.length_cons] at h; omega
  | succ n ih =>
    intro a b h
    match a, b with
    | [], [] => exact levF_self unitW [] ▸ EPath.refl []
    | [], y :: ys =>
      rw [levF_nil_left]
      exact EPath.snoc (ih [] ys (by simp only [List.length_cons] at h ⊢; omega))
        (EStep.ins y ys)
    | x :: xs, [] =>
      have hp := EPath.step (EStep.del x xs)
        (ih xs [] (by simp only [List.length_cons] at h ⊢; omega))
      rw [levF_nil_right] at hp
      rw [levF_cons_nil]
      exact hp
    | x :: xs, y :: ys =>
      simp only [List.length_cons] at h
      rw [levF_cons_cons]
      by_cases hxy : x = y
      · subst hxy
        rw [if_pos rfl]
        exact EPath.cons_lift x (ih xs ys (by omega))
      · rw [if_neg hxy]
        have hA : EPath (x :: xs) (y :: ys) (levF unitW xs ys + unitW x y) :=
          EPath.step (EStep.sub x y xs) (EPath.cons_lift y (ih xs ys (by omega)))
        have hB : EPath (x :: xs) (y :: ys) (levF unitW xs (y :: ys) + 1) :=
          EPath.step (EStep.del x xs) (ih xs (y :: ys) (by simp; omega))
        have hC : EPath (x :: xs) (y :: ys) (levF unitW (x :: xs) ys + 1) :=
          EPath.snoc (ih (x :: xs) ys (by simp; omega)) (EStep.ins y ys)
        have hmin : min (levF unitW xs ys + unitW x y)
              (min (levF unitW xs (y :: ys) + 1) (levF unitW (x :: xs) ys + 1))
            = levF unitW xs ys + unitW x y ∨
            min (levF unitW xs ys + unitW x y)
              (min (levF unitW xs (y :: ys) + 1) (levF unitW (x :: xs) ys + 1))
            = levF unitW xs (y :: ys) + 1 ∨
            min (levF unitW xs ys + unitW x y)
              (min (levF unitW xs (y :: ys) + 1) (levF unitW (x :: xs) ys + 1))
            = levF unitW (x :: xs) ys + 1 := by omega
        rcases hmin with he | he | he <;> rw [he] <;> assumption

/-- Soundness of one edit against all third strings. -/
theorem estep_levF_le {a b : List Char} (s : EStep a b) :
    ∀ c : List Char, levF unitW a c ≤ levF unitW b c + 1 := by
  induction s with
  | del x a => exact fun c => (levF_adj (a.length + c.length) a c x le_rfl).1
  | ins x a => exact fun c => (levF_adj (a.length + c.length) a c x le_rfl).2
  | sub x y a => exact fun c => levF_sub_head a x y c
  | skip x h ih =>
    rename_i a b
    intro c
    induction c with
    | nil =>
      rw [levF_nil_right, levF_nil_right]
      have := ih []
      rw [levF_nil_right, levF_nil_right] at this
      simp only [List.length_cons] at this ⊢
      omega
    | cons z cs ihc =>
      rw [levF_cons_cons, levF_cons_cons]
      by_cases hxz : x = z
      · rw [if_pos hxz, if_pos hxz]
        exact ih cs
      · rw [if_neg hxz, if_neg hxz]
        have h1 := ih cs
        have h2 := ih (z :: cs)
        simp only [unitW]
        omega

/-- Soundness: any edit script is at least as long as `levF unitW`. -/
theorem levF_le_epath {a b : List Char} {n : Nat} (h : EPath a b n) :
    levF unitW a b ≤ n := by
  induction h with
  | refl => exact le_of_eq (levF_self unitW _)
  | step s _ ih =>
    rename_i a' b' c' n' _
    have := estep_levF_le s c'
    omega

/-- Triangle inequality for the unweighted distance. -/
theorem levF_triangle (a b c : List Char) :
    levF unitW a c ≤ levF unitW a b + levF unitW b c :=
  levF_le_epath ((epath_levF (a.length + b.length) a b le_rfl).trans
    (epath_levF (b.length + c.length) b c le_rfl))

/-! ### Top-level bridge: the unbounded function computes `levF` -/

theorem levenshtein_distance_none_eq (s1 s2 : List Char)
    (fnw : Option (Char → Char → Nat)) :
    levenshtein_distance s1 s2 none fnw true =
      if s1 = [] ∨ s2 = [] then max s1.length s2.length
      else if s1 = s2 then 0
      else if s1.length < s2.length then levF (substW fnw) s2.reverse s1.reverse
      else levF (substW fnw) s1.reverse s2.reverse := by
  unfold levenshtein_distance
  simp only [eq_self_iff_true, if_true]
  split_ifs with h1 h2 h3
  · rfl
  · rfl
  · have hrow : List.range (s1.length + 1) = rowFrom (substW fnw) [] [] s1 := by
      rw [rowFrom_nil, List.range_eq_range']; rfl
    rw [show (0 : Nat) = ([] : List Char).length from rfl, hrow,
      levLoop_none fnw s1 s2 []]
    simp
  · have hrow : List.range (s2.length + 1) = rowFrom (substW fnw) [] [] s2 := by
      rw [rowFrom_nil, List.range_eq_range']; rfl
    rw [show (0 : Nat) = ([] : List Char).length from rfl, hrow,
      levLoop_none fnw s2 s1 []]
    simp

theorem lev1_nil_left (b : List Char) : lev1 [] b = b.length := by
  simp [lev1, levF_nil_left]

theorem lev1_nil_right (a : List Char) : lev1 a [] = a.length := by
  simp [lev1, levF_nil_right]

theorem lev1_self (a : List Char) : lev1 a a = 0 := levF_self unitW a.reverse

theorem lev1_symm (a b : List Char) : lev1 a b = lev1 b a :=
  levF_symm unitW (fun _ _ => rfl) a.reverse b.reverse

theorem lev1_triangle (a b c : List Char) : lev1 a c ≤ lev1 a b + lev1 b c :=
  levF_triangle a.reverse b.reverse c.reverse

/-- With no bound and no weight function, `levenshtein_distance` computes
the unweighted Levenshtein distance `lev1`. -/
theorem levenshtein_distance_unweighted (s1 s2 : List Char) :
    levenshtein_distance s1 s2 none none true = lev1 s1 s2 := by
  rw [levenshtein_distance_none_eq]
  split_ifs with h1 h2 h3
  · rcases h1 with h | h <;> subst h
    · rw [lev1_nil_left]; simp
    · rw [lev1_nil_right]; simp
  · subst h2; rw [lev1_self]
  · exact (lev1_symm s1 s2).symm ▸ rfl
  · rfl

/-! ### The bounded call: early exit returns a completed row minimum -/

theorem foldl_min_le_init : ∀ (l : List Nat) (a : Nat), l.foldl min a ≤ a := by
  intro l
  induction l with
  | nil => intro a; exact le_rfl
  | cons x l ih =>
    intro a
    calc (x :: l).foldl min a = l.foldl min (min a x) := rfl
    _ ≤ min a x := ih _
    _ ≤ a := min_le_left _ _

theorem foldl_min_le_mem : ∀ (l : List Nat) (a x : Nat), x ∈ l → l.foldl min a ≤ x := by
  intro l
  induction l with
  | nil => intro a x hx; cases hx
  | cons y l ih =>
    intro a x hx
    rcases List.mem_cons.mp hx with h | h
    · subst h
      calc (x :: l).foldl min a = l.foldl min (min a x) := rfl
      _ ≤ min a x := foldl_min_le_init _ _
      _ ≤ x := min_le_right _ _
    · exact ih (min a y) x h

theorem le_foldl_min : ∀ (l : List Nat) (a m : Nat), m ≤ a → (∀ x ∈ l, m ≤ x) →
    m ≤ l.foldl min a := by
  intro l
  induction l with
  | nil => intro a m ha _; exact ha
  | cons y l ih =>
    intro a m ha hl
    exact ih (min a y) m (le_min ha (hl y (by simp))) fun x hx => hl x (by simp [hx])

theorem natListMin_le {l : List Nat} {x : Nat} (hx : x ∈ l) : natListMin l ≤ x := by
  match l, hx with
  | a :: l, hx =>
    rcases List.mem_cons.mp hx with h | h
    · subst h; exact foldl_min_le_init l x
    · exact foldl_min_le_mem l a x h

theorem le_natListMin {l : List Nat} {m : Nat} (hne : l ≠ [])
    (h : ∀ x ∈ l, m ≤ x) : m ≤ natListMin l := by
  match l with
  | a :: l => exact le_foldl_min l a m (h a (by simp)) fun x hx => h x (by simp [hx])

theorem getLastD_mem : ∀ (l : List Nat) (d : Nat), l ≠ [] → l.getLastD d ∈ l := by
  intro l
  induction l with
  | nil => intro d h; exact absurd rfl h
  | cons a l ih =>
    intro d _
    rw [List.getLastD_cons]
    cases l with
    | nil => simp
    | cons b l => exact List.mem_cons_of_mem a (ih a (by simp))

/-- Every cell of the next DP row is at least `m` whenever every cell of
the previous row is and the new row's entry cell is. -/
theorem rowFrom_cells_lb (w : Char → Char → Nat) (m : Nat) (p : List Char) (c : Char) :
    ∀ (q2 r2 : List Char),
      m ≤ levF w (c :: p) r2 →
      (∀ x ∈ rowFrom w p r2 q2, m ≤ x) →
      ∀ x ∈ rowFrom w (c :: p) r2 q2, m ≤ x := by
  intro q2
  induction q2 with
  | nil =>
    intro r2 hhead _ x hx
    simp only [rowFrom, List.mem_singleton] at hx
    exact hx ▸ hhead
  | cons b bs ih =>
    intro r2 hhead hprev x hx
    rw [show rowFrom w (c :: p) r2 (b :: bs)
        = levF w (c :: p) r2 :: rowFrom w (c :: p) (b :: r2) bs from rfl] at hx
    rcases List.mem_cons.mp hx with h | h
    · exact h ▸ hhead
    · have hp0 : m ≤ levF w p r2 := by
        apply hprev
        rw [rowFrom_head w p r2 (b :: bs)]
        simp
      have hp1 : m ≤ levF w p (b :: r2) := by
        apply hprev
        rw [show rowFrom w p r2 (b :: bs)
            = levF w p r2 :: rowFrom w p (b :: r2) bs from rfl]
        rw [rowFrom_head w p (b :: r2) bs]
        simp
      have hnext : m ≤ levF w (c :: p) (b :: r2) := by
        rw [levF_cons_cons]
        split_ifs
        · exact hp0
        · have := hhead
          omega
      refine ih (b :: r2) hnext ?_ x h
      intro y hy
      apply hprev
      rw [show rowFrom w p r2 (b :: bs)
          = levF w p r2 :: rowFrom w p (b :: r2) bs from rfl]
      exact List.mem_cons_of_mem _ hy

/-- Row minima never decrease from one DP row to the next. -/
theorem natListMin_rowFrom_step (w : Char → Char → Nat) (p s2 : List Char) (c : Char) :
    natListMin (rowFrom w p [] s2) ≤ natListMin (rowFrom w (c :: p) [] s2) := by
  apply le_natListMin (rowFrom_ne_nil w (c :: p) [] s2)
  apply rowFrom_cells_lb w _ p c s2 []
  · have hhead : levF w p [] ∈ rowFrom w p [] s2 := by
      rw [rowFrom_head w p [] s2]; simp
    have := natListMin_le hhead
    rw [levF_nil_right] at this
    rw [levF_nil_right]
    simp only [List.length_cons]
    omega
  · exact fun x hx => natListMin_le hx

/-- Any completed row minimum is a lower bound on the exact distance. -/
theorem natListMin_rowFrom_le_levF (w : Char → Char → Nat) (s2 : List Char) :
    ∀ (cs p : List Char),
      natListMin (rowFrom w p [] s2) ≤ levF w (cs.reverse ++ p) s2.reverse := by
  intro cs
  induction cs with
  | nil =>
    intro p
    have hmem : (rowFrom w p [] s2).getLastD 0 ∈ rowFrom w p [] s2 :=
      getLastD_mem _ 0 (rowFrom_ne_nil w p [] s2)
    have := natListMin_le hmem
    rw [rowFrom_getLastD w p s2 [] 0] at this
    simpa using this
  | cons c cs ih =>
    intro p
    calc natListMin (rowFrom w p [] s2)
        ≤ natListMin (rowFrom w (c :: p) [] s2) := natListMin_rowFrom_step w p s2 c
      _ ≤ levF w (cs.reverse ++ (c :: p)) s2.reverse := ih (c :: p)
      _ = levF w ((c :: cs).reverse ++ p) s2.reverse := by simp

/-- The bounded loop either finishes with the exact distance or exits
early with the minimum of the row completed after `k ≥ 1` characters,
that minimum being at least the bound. -/
theorem levLoop_some (fnw : Option (Char → Char → Nat)) (s2 : List Char) (M : Nat) :
    ∀ (cs p : List Char),
      levLoop fnw (some M) s2 cs (rowFrom (substW fnw) p [] s2) p.length
          = levF (substW fnw) (cs.reverse ++ p) s2.reverse ∨
      (M ≤ levLoop fnw (some M) s2 cs (rowFrom (substW fnw) p [] s2) p.length ∧
        ∃ k, 1 ≤ k ∧ k ≤ cs.length ∧
          levLoop fnw (some M) s2 cs (rowFrom (substW fnw) p [] s2) p.length
            = natListMin (rowFrom (substW fnw) ((cs.take k).reverse ++ p) [] s2)) := by
  intro cs
  induction cs with
  | nil =>
    intro p
    left
    rw [levLoop, rowFrom_getLastD]
    simp
  | cons c cs ih =>
    intro p
    have hrow : (p.length + 1) ::
        levRowAux fnw c s2 (rowFrom (substW fnw) p [] s2) (p.length + 1)
        = rowFrom (substW fnw) (c :: p) [] s2 := by
      have hlast : (p.length + 1 : Nat) = levF (substW fnw) (c :: p) [] := by
        rw [levF_nil_right]; rfl
      rw [hlast, levRowAux_eq fnw c p s2 []]
      exact (rowFrom_head (substW fnw) (c :: p) [] s2).symm
    have hm : (levRowAux fnw c s2 (rowFrom (substW fnw) p [] s2)
          (p.length + 1)).foldl min (p.length + 1)
        = natListMin (rowFrom (substW fnw) (c :: p) [] s2) := by
      rw [← hrow]; rfl
    have hstep : levLoop fnw (some M) s2 (c :: cs)
          (rowFrom (substW fnw) p [] s2) p.length
        = if M ≤ (levRowAux fnw c s2 (rowFrom (substW fnw) p [] s2)
            (p.length + 1)).foldl min (p.length + 1) then
            (levRowAux fnw c s2 (rowFrom (substW fnw) p [] s2)
              (p.length + 1)).foldl min (p.length + 1)
          else levLoop fnw (some M) s2 cs
            ((p.length + 1) ::
              levRowAux fnw c s2 (rowFrom (substW fnw) p [] s2) (p.length + 1))
            (p.length + 1) := rfl
    rw [hstep, hm, hrow]
    by_cases hM : M ≤ natListMin (rowFrom (substW fnw) (c :: p) [] s2)
    · rw [if_pos hM]
      right
      refine ⟨hM, 1, le_rfl, by simp, ?_⟩
      simp
    · rw [if_neg hM]
      have hlen : (p.length + 1 : Nat) = (c :: p).length := rfl
      rw [hlen]
      rcases ih (c :: p) with h | ⟨h1, k, hk1, hk2, h2⟩
      · left
        rw [h]
        simp
      · right
        refine ⟨h1, k + 1, by omega, by simp; omega, ?_⟩
        rw [h2]
        simp [List.take_succ_cons]

/-! ### Decomposition of bounded and unbounded top-level calls -/

theorem lev_guard_empty (s1 s2 : List Char) (md : Option Nat)
    (fnw : Option (Char → Char → Nat)) (h : s1 = [] ∨ s2 = []) :
    levenshtein_distance s1 s2 md fnw true = max s1.length s2.length := by
  unfold levenshtein_distance
  simp only [eq_self_iff_true, if_true]
  rw [if_pos h]

theorem lev_guard_eq (s1 s2 : List Char) (md : Option Nat)
    (fnw : Option (Char → Char → Nat)) (h : s1 = s2) (h' : ¬(s1 = [] ∨ s2 = [])) :
    levenshtein_distance s1 s2 md fnw true = 0 := by
  unfold levenshtein_distance
  simp only [eq_self_iff_true, if_true]
  rw [if_neg h', if_pos h]

theorem lev_none_main (s1 s2 : List Char) (fnw : Option (Char → Char → Nat))
    (h1 : ¬(s1 = [] ∨ s2 = [])) (h2 : s1 ≠ s2) :
    levenshtein_distance s1 s2 none fnw true
      = levF (substW fnw) (swapPair s1 s2).1.reverse (swapPair s1 s2).2.reverse := by
  rw [levenshtein_distance_none_eq, if_neg h1, if_neg h2]
  unfold swapPair
  split_ifs <;> rfl

theorem lev_some_main (s1 s2 : List Char) (M : Nat)
    (fnw : Option (Char → Char → Nat))
    (h1 : ¬(s1 = [] ∨ s2 = [])) (h2 : s1 ≠ s2) :
    levenshtein_distance s1 s2 (some M) fnw true
      = levLoop fnw (some M) (swapPair s1 s2).2 (swapPair s1 s2).1
          (rowFrom (substW fnw) [] [] (swapPair s1 s2).2)
          ([] : List Char).length := by
  unfold levenshtein_distance swapPair
  simp only [eq_self_iff_true, if_true]
  rw [if_neg h1, if_neg h2]
  have hrow : ∀ s : List Char,
      List.range (s.length + 1) = rowFrom (substW fnw) [] [] s := by
    intro s
    rw [rowFrom_nil, List.range_eq_range']; rfl
  split_ifs <;> rw [hrow] <;> rfl

/-- A bounded call either agrees with the unbounded one or exits early
with a completed row minimum that is at least the bound. -/
theorem levenshtein_bounded_cases (s1 s2 : List Char) (M : Nat)
    (fnw : Option (Char → Char → Nat)) :
    levenshtein_distance s1 s2 (some M) fnw true
        = levenshtein_distance s1 s2 none fnw true ∨
      (M ≤ levenshtein_distance s1 s2 (some M) fnw true ∧
        ∃ k, 1 ≤ k ∧ k ≤ (swapPair s1 s2).1.length ∧
          levenshtein_distance s1 s2 (some M) fnw true
            = dpRowMin fnw (swapPair s1 s2).1 (swapPair s1 s2).2 k) := by
  by_cases h1 : s1 = [] ∨ s2 = []
  · left
    rw [lev_guard_empty s1 s2 (some M) fnw h1, lev_guard_empty s1 s2 none fnw h1]
  · by_cases h2 : s1 = s2
    · left
      rw [lev_guard_eq s1 s2 (some M) fnw h2 h1, lev_guard_eq s1 s2 none fnw h2 h1]
    · rw [lev_some_main s1 s2 M fnw h1 h2, lev_none_main s1 s2 fnw h1 h2]
      rcases levLoop_some fnw (swapPair s1 s2).2 M (swapPair s1 s2).1 []
        with h | ⟨hM, k, hk1, hk2, heq⟩
      · left
        rw [h]
        simp
      · right
        refine ⟨hM, k, hk1, hk2, ?_⟩
        rw [heq]
        unfold dpRowMin
        simp

/-- A bounded call never exceeds the unbounded (exact) value. -/
theorem lev_bounded_le (s1 s2 : List Char) (M : Nat)
    (fnw : Option (Char → Char → Nat)) :
    levenshtein_distance s1 s2 (some M) fnw true
      ≤ levenshtein_distance s1 s2 none fnw true := by
  by_cases h1 : s1 = [] ∨ s2 = []
  · rw [lev_guard_empty s1 s2 (some M) fnw h1, lev_guard_empty s1 s2 none fnw h1]
  · by_cases h2 : s1 = s2
    · rw [lev_guard_eq s1 s2 (some M) fnw h2 h1, lev_guard_eq s1 s2 none fnw h2 h1]
    · rcases levenshtein_bounded_cases s1 s2 M fnw with h | ⟨_, k, _, _, heq⟩
      · exact le_of_eq h
      · rw [heq, lev_none_main s1 s2 fnw h1 h2]
        unfold dpRowMin
        have hb := natListMin_rowFrom_le_levF (substW fnw) (swapPair s1 s2).2
          ((swapPair s1 s2).1.drop k) (((swapPair s1 s2).1.take k).reverse)
        rw [← List.reverse_append, List.take_append_drop] at hb
        exact hb

/-- Symmetry of the unbounded call under a symmetric substitution weight. -/
theorem lev_none_symm (fnw : Option (Char → Char → Nat))
    (hw : ∀ x y, substW fnw x y = substW fnw y x) (a b : List Char) :
    levenshtein_distance a b none fnw true
      = levenshtein_distance b a none fnw true := by
  rw [levenshtein_distance_none_eq, levenshtein_distance_none_eq]
  by_cases h1 : a = [] ∨ b = []
  · rw [if_pos h1, if_pos (Or.symm h1), Nat.max_comm]
  · rw [if_neg h1, if_neg (fun hc => h1 (Or.symm hc))]
    by_cases h2 : a = b
    · rw [if_pos h2, if_pos h2.symm]
    · rw [if_neg h2, if_neg (show ¬(b = a) from fun hc => h2 hc.symm)]
      rcases Nat.lt_trichotomy a.length b.length with hl | hl | hl
      · rw [if_pos hl, if_neg (show ¬(b.length < a.length) from by omega)]
      · rw [if_neg (show ¬(a.length < b.length) from by omega),
          if_neg (show ¬(b.length < a.length) from by omega)]
        exact levF_symm _ hw _ _
      · rw [if_neg (show ¬(a.length < b.length) from by omega), if_pos hl]

/-! ### Claims C3, C4, C9 -/

/-- Claim C3, counterexample: `levenshtein_distance` is not symmetric for
every supplied weight function — with the asymmetric weight `asymW` the
two orders of the equal-length pair `"x"`, `"y"` give `0` and `2`. -/
theorem claim_C3_counterexample :
    levenshtein_distance ['x'] ['y'] none (some asymW) true
      ≠ levenshtein_distance ['y'] ['x'] none (some asymW) true := by decide

/-- Claim C3 (amended): `levenshtein_distance(a, b) = levenshtein_distance(b, a)`
for all strings `a`, `b` with no weight function, and with any supplied
weight function that is itself symmetric. -/
theorem claim_C3 :
    (∀ a b : List Char, levenshtein_distance a b none none true
        = levenshtein_distance b a none none true) ∧
    ∀ (w : Char → Char → Nat), (∀ x y, w x y = w y x) →
      ∀ a b : List Char, levenshtein_distance a b none (some w) true
        = levenshtein_distance b a none (some w) true :=
  ⟨fun a b => lev_none_symm none (fun _ _ => rfl) a b,
   fun w hw a b => lev_none_symm (some w) hw a b⟩

/-- Witness for claim C3 at a concrete symmetric weight function and pair. -/
theorem claim_C3_witness :
    levenshtein_distance ['a', 'b'] ['b', 'a'] none (some (fun _ _ => 2)) true
      = levenshtein_distance ['b', 'a'] ['a', 'b'] none (some (fun _ _ => 2)) true :=
  claim_C3.2 (fun _ _ => 2) (fun _ _ => rfl) ['a', 'b'] ['b', 'a']

/-- Claim C4: a bounded call `levenshtein_distance(s1, s2, max_distance = M)`
(with or without a weight function) returns at most the exact unbounded
distance, and its value is either exactly that distance or the minimum of
the DP row completed after some `k ≥ 1` characters of the (post-swap)
longer string, that minimum being at least `M`. -/
theorem claim_C4 (s1 s2 : List Char) (M : Nat) (fnw : Option (Char → Char → Nat)) :
    levenshtein_distance s1 s2 (some M) fnw true
        ≤ levenshtein_distance s1 s2 none fnw true ∧
      (levenshtein_distance s1 s2 (some M) fnw true
          = levenshtein_distance s1 s2 none fnw true ∨
        (M ≤ levenshtein_distance s1 s2 (some M) fnw true ∧
          ∃ k, 1 ≤ k ∧ k ≤ (swapPair s1 s2).1.length ∧
            levenshtein_distance s1 s2 (some M) fnw true
              = dpRowMin fnw (swapPair s1 s2).1 (swapPair s1 s2).2 k)) :=
  ⟨lev_bounded_le s1 s2 M fnw, levenshtein_bounded_cases s1 s2 M fnw⟩

/-- Claim C9: if the exact unweighted distance is strictly below the bound,
the bounded call returns exactly the exact distance (the early exit never
fires below the true distance). -/
theorem claim_C9 (s1 s2 : List Char) (M : Nat)
    (h : levenshtein_distance s1 s2 none none true < M) :
    levenshtein_distance s1 s2 (some M) none true
      = levenshtein_distance s1 s2 none none true := by
  rcases levenshtein_bounded_cases s1 s2 M none with he | ⟨hM, _⟩
  · exact he
  · have := lev_bounded_le s1 s2 M none
    omega

/-- Witness for claim C9: `lev("ab", "b") = 1 < 2`, and the bounded call
with `max_distance = 2` returns `1`. -/
theorem claim_C9_witness :
    levenshtein_distance ['a', 'b'] ['b'] none none true < 2 ∧
      levenshtein_distance ['a', 'b'] ['b'] (some 2) none true
        = levenshtein_distance ['a', 'b'] ['b'] none none true :=
  ⟨by decide, claim_C9 ['a', 'b'] ['b'] 2 (by decide)⟩

/-! ### Structural lemmas about `BKNode` -/

theorem size_pos (n : BKNode) : 0 < n.size := by
  match n with
  | .mk v a l => rw [show (BKNode.mk v a l).size = 1 + sizeLinks l from rfl]; omega

theorem size_mem_links {d : Nat} {c : BKNode} :
    ∀ {l : List (Nat × BKNode)}, (d, c) ∈ l → c.size ≤ sizeLinks l := by
  intro l
  induction l with
  | nil => intro h; cases h
  | cons p r ih =>
    intro h
    match p with
    | (e, c') =>
      rw [show sizeLinks ((e, c') :: r) = c'.size + sizeLinks r from rfl]
      rcases List.mem_cons.mp h with h | h
      · cases h; omega
      · have := ih h; omega

/-- Custom induction principle for the nested inductive `BKNode`. -/
theorem BKNode.induct (P : BKNode → Prop)
    (h : ∀ v a l, (∀ d c, (d, c) ∈ l → P c) → P (.mk v a l)) : ∀ n, P n := by
  have key : ∀ k n, BKNode.size n ≤ k → P n := by
    intro k
    induction k with
    | zero => intro n hn; have := size_pos n; omega
    | succ k ih =>
      intro n hn
      match n with
      | .mk v a l =>
        apply h
        intro d c hdc
        apply ih
        have h1 := size_mem_links hdc
        rw [show (BKNode.mk v a l).size = 1 + sizeLinks l from rfl] at hn
        omega
  intro n
  exact key n.size n le_rfl

theorem subValsLinks_append (l1 l2 : List (Nat × BKNode)) :
    subValsLinks (l1 ++ l2) = subValsLinks l1 ++ subValsLinks l2 := by
  induction l1 with
  | nil => rfl
  | cons p r ih =>
    match p with
    | (e, c) =>
      rw [List.cons_append,
        show subValsLinks ((e, c) :: (r ++ l2)) = c.subVals ++ subValsLinks (r ++ l2)
          from rfl,
        show subValsLinks ((e, c) :: r) = c.subVals ++ subValsLinks r from rfl,
        ih, List.append_assoc]

theorem mem_subValsLinks {u : List Char} :
    ∀ {l : List (Nat × BKNode)},
      u ∈ subValsLinks l ↔ ∃ d c, (d, c) ∈ l ∧ u ∈ BKNode.subVals c := by
  intro l
  induction l with
  | nil => simp [subValsLinks]
  | cons p r ih =>
    match p with
    | (e, c) =>
      rw [show subValsLinks ((e, c) :: r) = c.subVals ++ subValsLinks r from rfl]
      simp only [List.mem_append, ih, List.mem_cons]
      constructor
      · rintro (h | ⟨d, c', hm, hu⟩)
        · exact ⟨e, c, Or.inl rfl, h⟩
        · exact ⟨d, c', Or.inr hm, hu⟩
      · rintro ⟨d, c', h1 | h1, hu⟩
        · cases h1; exact Or.inl hu
        · exact Or.inr ⟨d, c', h1, hu⟩

theorem activeValsLinks_append (l1 l2 : List (Nat × BKNode)) :
    activeValsLinks (l1 ++ l2) = activeValsLinks l1 ++ activeValsLinks l2 := by
  induction l1 with
  | nil => rfl
  | cons p r ih =>
    match p with
    | (e, c) =>
      rw [List.cons_append,
        show activeValsLinks ((e, c) :: (r ++ l2))
          = c.activeVals ++ activeValsLinks (r ++ l2) from rfl,
        show activeValsLinks ((e, c) :: r) = c.activeVals ++ activeValsLinks r from rfl,
        ih, List.append_assoc]

theorem mem_activeValsLinks {u : List Char} :
    ∀ {l : List (Nat × BKNode)},
      u ∈ activeValsLinks l ↔ ∃ d c, (d, c) ∈ l ∧ u ∈ BKNode.activeVals c := by
  intro l
  induction l with
  | nil => simp [activeValsLinks]
  | cons p r ih =>
    match p with
    | (e, c) =>
      rw [show activeValsLinks ((e, c) :: r) = c.activeVals ++ activeValsLinks r from rfl]
      simp only [List.mem_append, ih, List.mem_cons]
      constructor
      · rintro (h | ⟨d, c', hm, hu⟩)
        · exact ⟨e, c, Or.inl rfl, h⟩
        · exact ⟨d, c', Or.inr hm, hu⟩
      · rintro ⟨d, c', h1 | h1, hu⟩
        · cases h1; exact Or.inl hu
        · exact Or.inr ⟨d, c', h1, hu⟩

theorem mem_subVals_mk {u v : List Char} {a : Bool} {l : List (Nat × BKNode)} :
    u ∈ BKNode.subVals (.mk v a l) ↔
      u = v ∨ ∃ d c, (d, c) ∈ l ∧ u ∈ BKNode.subVals c := by
  rw [show BKNode.subVals (.mk v a l) = v :: subValsLinks l from rfl]
  simp [mem_subValsLinks]

theorem mem_activeVals_mk {u v : List Char} {a : Bool} {l : List (Nat × BKNode)} :
    u ∈ BKNode.activeVals (.mk v a l) ↔
      (a = true ∧ u = v) ∨ ∃ d c, (d, c) ∈ l ∧ u ∈ BKNode.activeVals c := by
  rw [show BKNode.activeVals (.mk v a l)
      = (if a then [v] else []) ++ activeValsLinks l from rfl]
  cases a <;> simp [mem_activeValsLinks]

theorem activeVals_subset_subVals :
    ∀ n : BKNode, ∀ u, u ∈ n.activeVals → u ∈ n.subVals := by
  intro n
  induction n using BKNode.induct with
  | h v a l ih =>
    intro u hu
    rcases mem_activeVals_mk.mp hu with ⟨_, rfl⟩ | ⟨d, c, hm, hc⟩
    · exact mem_subVals_mk.mpr (Or.inl rfl)
    · exact mem_subVals_mk.mpr (Or.inr ⟨d, c, hm, ih d c hm u hc⟩)

/-! ### Insertion: values and well-formedness -/

theorem mem_insertLinks {fnw : Option (Char → Char → Nat)} {s : List Char} {d : Nat} :
    ∀ {l : List (Nat × BKNode)} {d' : Nat} {c' : BKNode},
      (d', c') ∈ insertLinks fnw s d l →
      (d', c') ∈ l ∨ ∃ c, (d', c) ∈ l ∧ d' = d ∧ c' = insertNode fnw s c := by
  intro l
  induction l with
  | nil => intro d' c' h; cases h
  | cons p r ih =>
    match p with
    | (e, c) =>
      intro d' c' h
      rw [show insertLinks fnw s d ((e, c) :: r)
          = if e = d then (e, insertNode fnw s c) :: r
            else (e, c) :: insertLinks fnw s d r from rfl] at h
      split_ifs at h with he
      · rcases List.mem_cons.mp h with h | h
        · rw [Prod.mk.injEq] at h
          obtain ⟨h1, h2⟩ := h
          subst h1
          exact Or.inr ⟨c, List.mem_cons_self _ _, he, h2⟩
        · exact Or.inl (List.mem_cons_of_mem _ h)
      · rcases List.mem_cons.mp h with h | h
        · exact Or.inl (h ▸ List.mem_cons_self _ _)
        · rcases ih h with h | ⟨c'', hm, he', hc''⟩
          · exact Or.inl (List.mem_cons_of_mem _ h)
          · exact Or.inr ⟨c'', List.mem_cons_of_mem _ hm, he', hc''⟩

theorem subValsLinks_insertLinks (fnw : Option (Char → Char → Nat)) (s : List Char)
    (d : Nat) :
    ∀ (l : List (Nat × BKNode)),
      (∀ e c, (e, c) ∈ l → ∀ u,
        u ∈ (insertNode fnw s c).subVals ↔ u = s ∨ u ∈ c.subVals) →
      (l.lookup d).isSome = true →
      ∀ u, u ∈ subValsLinks (insertLinks fnw s d l) ↔ u = s ∨ u ∈ subValsLinks l := by
  intro l
  induction l with
  | nil => intro _ h; simp at h
  | cons p r ih =>
    match p with
    | (e, c) =>
      intro hins hlook u
      rw [show insertLinks fnw s d ((e, c) :: r)
          = if e = d then (e, insertNode fnw s c) :: r
            else (e, c) :: insertLinks fnw s d r from rfl]
      split_ifs with he
      · rw [show subValsLinks ((e, insertNode fnw s c) :: r)
            = (insertNode fnw s c).subVals ++ subValsLinks r from rfl,
          show subValsLinks ((e, c) :: r) = c.subVals ++ subValsLinks r from rfl]
        simp only [List.mem_append]
        rw [hins e c (List.mem_cons_self _ _) u]
        tauto
      · have hlook' : (r.lookup d).isSome = true := by
          have hne : (d == e) = false := by
            simp only [beq_eq_false_iff_ne, ne_eq]
            exact fun h => he h.symm
          rw [List.lookup_cons, hne] at hlook
          exact hlook
        rw [show subValsLinks ((e, c) :: insertLinks fnw s d r)
            = c.subVals ++ subValsLinks (insertLinks fnw s d r) from rfl,
          show subValsLinks ((e, c) :: r) = c.subVals ++ subValsLinks r from rfl]
        simp only [List.mem_append]
        rw [ih (fun e' c' hm => hins e' c' (List.mem_cons_of_mem _ hm)) hlook' u]
        tauto

theorem subVals_insertNode (fnw : Option (Char → Char → Nat)) (s : List Char) :
    ∀ n : BKNode, ∀ u,
      u ∈ (insertNode fnw s n).subVals ↔ u = s ∨ u ∈ n.subVals := by
  intro n
  induction n using BKNode.induct with
  | h v a l ih =>
    intro u
    rw [show insertNode fnw s (.mk v a l)
        = (if ((l.lookup (levenshtein_distance v s none fnw true)).isSome) then
            BKNode.mk v a (insertLinks fnw s (levenshtein_distance v s none fnw true) l)
          else BKNode.mk v a
            (l ++ [(levenshtein_distance v s none fnw true, BKNode.mk s true [])]))
        from rfl]
    split_ifs with hl
    · rw [show BKNode.subVals (.mk v a
          (insertLinks fnw s (levenshtein_distance v s none fnw true) l))
          = v :: subValsLinks (insertLinks fnw s (levenshtein_distance v s none fnw true) l)
          from rfl]
      rw [show BKNode.subVals (.mk v a l) = v :: subValsLinks l from rfl]
      simp only [List.mem_cons]
      rw [subValsLinks_insertLinks fnw s _ l (fun e c hm => ih e c hm) hl u]
      tauto
    · rw [show BKNode.subVals (.mk v a
          (l ++ [(levenshtein_distance v s none fnw true, BKNode.mk s true [])]))
          = v :: subValsLinks
            (l ++ [(levenshtein_distance v s none fnw true, BKNode.mk s true [])])
          from rfl]
      rw [subValsLinks_append,
        show subValsLinks [(levenshtein_distance v s none fnw true, BKNode.mk s true [])]
          = BKNode.subVals (.mk s true []) ++ subValsLinks [] from rfl,
        show BKNode.subVals (.mk s true []) = s :: subValsLinks [] from rfl,
        show BKNode.subVals (.mk v a l) = v :: subValsLinks l from rfl]
      simp only [subValsLinks, List.mem_cons, List.mem_append, List.mem_singleton]
      tauto

theorem activeValsLinks_insertLinks (fnw : Option (Char → Char → Nat)) (s : List Char)
    (d : Nat) :
    ∀ (l : List (Nat × BKNode)),
      (∀ e c, (e, c) ∈ l → ∀ u,
        u ∈ (insertNode fnw s c).activeVals ↔ u = s ∨ u ∈ c.activeVals) →
      (l.lookup d).isSome = true →
      ∀ u, u ∈ activeValsLinks (insertLinks fnw s d l) ↔
        u = s ∨ u ∈ activeValsLinks l := by
  intro l
  induction l with
  | nil => intro _ h; simp at h
  | cons p r ih =>
    match p with
    | (e, c) =>
      intro hins hlook u
      rw [show insertLinks fnw s d ((e, c) :: r)
          = if e = d then (e, insertNode fnw s c) :: r
            else (e, c) :: insertLinks fnw s d r from rfl]
      split_ifs with he
      · rw [show activeValsLinks ((e, insertNode fnw s c) :: r)
            = (insertNode fnw s c).activeVals ++ activeValsLinks r from rfl,
          show activeValsLinks ((e, c) :: r) = c.activeVals ++ activeValsLinks r from rfl]
        simp only [List.mem_append]
        rw [hins e c (List.mem_cons_self _ _) u]
        tauto
      · have hlook' : (r.lookup d).isSome = true := by
          have hne : (d == e) = false := by
            simp only [beq_eq_false_iff_ne, ne_eq]
            exact fun h => he h.symm
          rw [List.lookup_cons, hne] at hlook
          exact hlook
        rw [show activeValsLinks ((e, c) :: insertLinks fnw s d r)
            = c.activeVals ++ activeValsLinks (insertLinks fnw s d r) from rfl,
          show activeValsLinks ((e, c) :: r) = c.activeVals ++ activeValsLinks r from rfl]
        simp only [List.mem_append]
        rw [ih (fun e' c' hm => hins e' c' (List.mem_cons_of_mem _ hm)) hlook' u]
        tauto

theorem activeVals_insertNode (fnw : Option (Char → Char → Nat)) (s : List Char) :
    ∀ n : BKNode, ∀ u,
      u ∈ (insertNode fnw s n).activeVals ↔ u = s ∨ u ∈ n.activeVals := by
  intro n
  induction n using BKNode.induct with
  | h v a l ih =>
    intro u
    rw [show insertNode fnw s (.mk v a l)
        = (if ((l.lookup (levenshtein_distance v s none fnw true)).isSome) then
            BKNode.mk v a (insertLinks fnw s (levenshtein_distance v s none fnw true) l)
          else BKNode.mk v a
            (l ++ [(levenshtein_distance v s none fnw true, BKNode.mk s true [])]))
        from rfl]
    split_ifs with hl
    · rw [show BKNode.activeVals (.mk v a
          (insertLinks fnw s (levenshtein_distance v s none fnw true) l))
          = (if a then [v] else []) ++ activeValsLinks
            (insertLinks fnw s (levenshtein_distance v s none fnw true) l) from rfl,
        show BKNode.activeVals (.mk v a l)
          = (if a then [v] else []) ++ activeValsLinks l from rfl]
      simp only [List.mem_append]
      rw [activeValsLinks_insertLinks fnw s _ l (fun e c hm => ih e c hm) hl u]
      tauto
    · rw [show BKNode.activeVals (.mk v a
          (l ++ [(levenshtein_distance v s none fnw true, BKNode.mk s true [])]))
          = (if a then [v] else []) ++ activeValsLinks
            (l ++ [(levenshtein_distance v s none fnw true, BKNode.mk s true [])])
          from rfl,
        show BKNode.activeVals (.mk v a l)
          = (if a then [v] else []) ++ activeValsLinks l from rfl]
      rw [activeValsLinks_append,
        show activeValsLinks
            [(levenshtein_distance v s none fnw true, BKNode.mk s true [])]
          = BKNode.activeVals (.mk s true []) ++ activeValsLinks [] from rfl,
        show BKNode.activeVals (.mk s true [])
          = (if true then [s] else []) ++ activeValsLinks [] from rfl]
      simp only [activeValsLinks, if_true, List.mem_append, List.mem_singleton,
        List.append_nil, List.not_mem_nil]
      tauto

theorem NodeWF_insertNode (fnw : Option (Char → Char → Nat)) (s : List Char) :
    ∀ n : BKNode, NodeWF fnw n → NodeWF fnw (insertNode fnw s n) := by
  intro n
  induction n using BKNode.induct with
  | h v a l ih =>
    intro hwf
    cases hwf with
    | intro _ _ _ hd hc =>
      rw [show insertNode fnw s (.mk v a l)
          = (if ((l.lookup (levenshtein_distance v s none fnw true)).isSome) then
              BKNode.mk v a
                (insertLinks fnw s (levenshtein_distance v s none fnw true) l)
            else BKNode.mk v a
              (l ++ [(levenshtein_distance v s none fnw true, BKNode.mk s true [])]))
          from rfl]
      split_ifs with hl
      · refine NodeWF.intro v a _ ?_ ?_
        · intro d' c' hm u hu
          rcases mem_insertLinks hm with hold | ⟨c, hcm, hde, hce⟩
          · exact hd d' c' hold u hu
          · rw [hce] at hu
            rcases (subVals_insertNode fnw s c u).mp hu with rfl | hu'
            · rw [hde]
            · exact hd d' c hcm u hu'
        · intro d' c' hm
          rcases mem_insertLinks hm with hold | ⟨c, hcm, _, hce⟩
          · exact hc d' c' hold
          · rw [hce]; exact ih d' c hcm (hc d' c hcm)
      · refine NodeWF.intro v a _ ?_ ?_
        · intro d' c' hm u hu
          rcases List.mem_append.mp hm with hold | hnew
          · exact hd d' c' hold u hu
          · rw [List.mem_singleton, Prod.mk.injEq] at hnew
            obtain ⟨h1, h2⟩ := hnew
            rw [h2] at hu
            rw [show BKNode.subVals (.mk s true []) = s :: subValsLinks [] from rfl] at hu
            simp only [subValsLinks, List.mem_singleton] at hu
            rw [hu, h1]
        · intro d' c' hm
          rcases List.mem_append.mp hm with hold | hnew
          · exact hc d' c' hold
          · rw [List.mem_singleton, Prod.mk.injEq] at hnew
            rw [hnew.2]
            exact NodeWF.intro s true [] (by simp) (by simp)

/-! ### Tree-level invariants through `add_node` and the builders -/

theorem add_node_ok_spec {t : BKTree} {s : List Char} {t' : BKTree}
    (h : t.add_node s = Except.ok t') :
    t.has_node s = false ∧ t'.root = insertNode t.fnw s t.root ∧
      t'.values = t.values ++ [s] ∧ t'.fnw = t.fnw := by
  by_cases hn : t.has_node s = true
  · exfalso
    have he : t.add_node s = Except.error (PyErr.valueError
        ("The string " ++ String.mk s ++ " already exists in the tree")) := by
      unfold BKTree.add_node BKTree.add_node_state
      rw [if_pos hn]
    rw [he] at h
    exact Except.noConfusion h
  · have hfalse : t.has_node s = false := by simpa using hn
    have hok : t.add_node s
        = Except.ok (⟨insertNode t.fnw s t.root, t.values ++ [s], t.fnw⟩ : BKTree) := by
      unfold BKTree.add_node BKTree.add_node_state
      rw [if_neg hn]
    rw [hok] at h
    have h2 := Except.ok.inj h
    exact ⟨hfalse, by rw [← h2], by rw [← h2], by rw [← h2]⟩

theorem add_node_dup {t : BKTree} {s : List Char} (hn : t.has_node s = true) :
    t.add_node s = Except.error (PyErr.valueError
      ("The string " ++ String.mk s ++ " already exists in the tree")) := by
  unfold BKTree.add_node BKTree.add_node_state
  rw [if_pos hn]

theorem TreeOK_add_node {t : BKTree} {s : List Char} {t' : BKTree}
    (h : t.add_node s = Except.ok t') (ht : TreeOK t) : TreeOK t' := by
  obtain ⟨hf, hroot, hvals, hfnw⟩ := add_node_ok_spec h
  obtain ⟨hwf, hv, ha⟩ := ht
  refine ⟨?_, ?_, ?_⟩
  · rw [hroot, hfnw]
    exact NodeWF_insertNode t.fnw s t.root hwf
  · intro u
    rw [hvals, hroot, List.mem_append, List.mem_singleton, subVals_insertNode]
    have := hv u
    tauto
  · intro u
    rw [hroot, subVals_insertNode, activeVals_insertNode]
    have := ha u
    tauto

theorem addAll_ok_spec : ∀ (rest : List (List Char)) (t t' : BKTree),
    addAll t rest = Except.ok t' → TreeOK t →
    TreeOK t' ∧ t'.values = t.values ++ rest ∧ t'.fnw = t.fnw := by
  intro rest
  induction rest with
  | nil =>
    intro t t' h ht
    rw [show addAll t [] = Except.ok t from rfl] at h
    have h2 := Except.ok.inj h
    subst h2
    exact ⟨ht, by simp, rfl⟩
  | cons s r ih =>
    intro t t' h ht
    rw [show addAll t (s :: r)
        = (match t.add_node s with
          | Except.error e => Except.error e
          | Except.ok t2 => addAll t2 r) from rfl] at h
    cases hadd : t.add_node s with
    | error e => rw [hadd] at h; exact Except.noConfusion h
    | ok t2 =>
      rw [hadd] at h
      have ht2 := TreeOK_add_node hadd ht
      obtain ⟨hT, hV, hF⟩ := ih t2 t' h ht2
      obtain ⟨_, _, hv2, hf2⟩ := add_node_ok_spec hadd
      refine ⟨hT, ?_, by rw [hF, hf2]⟩
      rw [hV, hv2]
      simp

theorem build_from_set_spec {l : List (List Char)}
    {fnw : Option (Char → Char → Nat)} {t : BKTree}
    (h : bk_tree_builder_from_set l fnw = Except.ok t) :
    TreeOK t ∧ t.values = l ∧ t.fnw = fnw := by
  cases l with
  | nil =>
    rw [show bk_tree_builder_from_set [] fnw = Except.error (PyErr.valueError
      "Argument `strings_set` expected to have at least 1 element, got 0 elements")
      from rfl] at h
    exact Except.noConfusion h
  | cons r rest =>
    rw [show bk_tree_builder_from_set (r :: rest) fnw
        = addAll ⟨.mk r true [], [r], fnw⟩ rest from rfl] at h
    have hinit : TreeOK ⟨.mk r true [], [r], fnw⟩ := by
      refine ⟨NodeWF.intro r true [] (by simp) (by simp), ?_, ?_⟩
      · intro u
        rw [mem_subVals_mk]
        simp
      · intro u
        rw [mem_subVals_mk, mem_activeVals_mk]
        simp
    obtain ⟨hT, hV, hF⟩ := addAll_ok_spec rest _ t h hinit
    refine ⟨hT, ?_, hF⟩
    rw [hV]
    rfl

/-! ### The traversal loop of `get_neighbors` -/

theorem inBucket_cons {a : Nat} {b : List (List Char)}
    {r : List (Nat × List (List Char))} {d : Nat} {u : List Char} :
    inBucket ((a, b) :: r) d u ↔ (a = d ∧ u ∈ b) ∨ inBucket r d u := by
  constructor
  · rintro ⟨p, hp, h1, h2⟩
    rcases List.mem_cons.mp hp with h | h
    · subst h; exact Or.inl ⟨h1, h2⟩
    · exact Or.inr ⟨p, h, h1, h2⟩
  · rintro (⟨h1, h2⟩ | ⟨p, hp, h1, h2⟩)
    · exact ⟨(a, b), List.mem_cons_self _ _, h1, h2⟩
    · exact ⟨p, List.mem_cons_of_mem _ hp, h1, h2⟩

theorem addBucket_mem :
    ∀ (acc : List (Nat × List (List Char))) (e : Nat) (v : List Char)
      (d : Nat) (u : List Char),
      inBucket (addBucket acc e v) d u ↔ inBucket acc d u ∨ (d = e ∧ u = v) := by
  intro acc
  induction acc with
  | nil =>
    intro e v d u
    rw [show addBucket [] e v = [(e, [v])] from rfl]
    rw [inBucket_cons]
    simp [inBucket, eq_comm]
  | cons p r ih =>
    match p with
    | (e', s') =>
      intro e v d u
      rw [show addBucket ((e', s') :: r) e v
          = if e' = e then (e', if s'.contains v then s' else s' ++ [v]) :: r
            else (e', s') :: addBucket r e v from rfl]
      by_cases he : e' = e
      · subst he
        rw [if_pos rfl]
        by_cases hc : s'.contains v = true
        · rw [if_pos hc, inBucket_cons]
          have hv : v ∈ s' := by simpa using hc
          constructor
          · rintro (⟨h1, h2⟩ | h)
            · exact Or.inl (Or.inl ⟨h1, h2⟩)
            · exact Or.inl (Or.inr h)
          · rintro ((⟨h1, h2⟩ | h) | ⟨h1, h2⟩)
            · exact Or.inl ⟨h1, h2⟩
            · exact Or.inr h
            · exact Or.inl ⟨h1.symm, h2 ▸ hv⟩
        · rw [if_neg hc, inBucket_cons, inBucket_cons]
          simp only [List.mem_append, List.mem_singleton]
          constructor
          · rintro (⟨h1, h2 | h2⟩ | h)
            · exact Or.inl (Or.inl ⟨h1, h2⟩)
            · exact Or.inr ⟨h1.symm, h2⟩
            · exact Or.inl (Or.inr h)
          · rintro ((⟨h1, h2⟩ | h) | ⟨h1, h2⟩)
            · exact Or.inl ⟨h1, Or.inl h2⟩
            · exact Or.inr h
            · exact Or.inl ⟨h1.symm, Or.inr h2⟩
      · rw [if_neg he, inBucket_cons, inBucket_cons, ih e v d u]
        tauto

theorem stackSizes_append : ∀ (A B : List BKNode),
    stackSizes (A ++ B) = stackSizes A + stackSizes B := by
  intro A
  induction A with
  | nil => intro B; simp [stackSizes]
  | cons n r ih =>
    intro B
    rw [List.cons_append,
      show stackSizes (n :: (r ++ B)) = n.size + stackSizes (r ++ B) from rfl,
      show stackSizes (n :: r) = n.size + stackSizes r from rfl, ih]
    omega

theorem stackSizes_reverse : ∀ (A : List BKNode),
    stackSizes A.reverse = stackSizes A := by
  intro A
  induction A with
  | nil => rfl
  | cons n r ih =>
    rw [List.reverse_cons, stackSizes_append, ih,
      show stackSizes [n] = n.size + stackSizes [] from rfl,
      show stackSizes (n :: r) = n.size + stackSizes r from rfl]
    simp [stackSizes]
    omega

theorem keepChildren_cons (lev maxd e : Nat) (c : BKNode) (r : List (Nat × BKNode)) :
    keepChildren lev maxd ((e, c) :: r)
      = if lev - maxd ≤ e ∧ e ≤ lev + maxd then c :: keepChildren lev maxd r
        else keepChildren lev maxd r := by
  unfold keepChildren
  rw [List.filter_cons]
  by_cases h : lev - maxd ≤ e ∧ e ≤ lev + maxd
  · rw [if_pos (by simpa using h), if_pos h]
    rfl
  · rw [if_neg (by simpa using h), if_neg h]

theorem stackSizes_keepChildren_le (lev maxd : Nat) :
    ∀ (l : List (Nat × BKNode)), stackSizes (keepChildren lev maxd l) ≤ sizeLinks l := by
  intro l
  induction l with
  | nil => simp [keepChildren, stackSizes, sizeLinks]
  | cons p r ih =>
    match p with
    | (e, c) =>
      rw [keepChildren_cons,
        show sizeLinks ((e, c) :: r) = c.size + sizeLinks r from rfl]
      split_ifs
      · rw [show stackSizes (c :: keepChildren lev maxd r)
            = c.size + stackSizes (keepChildren lev maxd r) from rfl]
        omega
      · omega

theorem mem_keepChildren {m : BKNode} {lev maxd : Nat} :
    ∀ {l : List (Nat × BKNode)},
      m ∈ keepChildren lev maxd l ↔
        ∃ e, (e, m) ∈ l ∧ lev - maxd ≤ e ∧ e ≤ lev + maxd := by
  intro l
  induction l with
  | nil => simp [keepChildren]
  | cons p r ih =>
    match p with
    | (e', c) =>
      rw [keepChildren_cons]
      split_ifs with hband
      · rw [List.mem_cons, ih]
        constructor
        · rintro (rfl | ⟨e, hm, hb⟩)
          · exact ⟨e', List.mem_cons_self _ _, hband⟩
          · exact ⟨e, List.mem_cons_of_mem _ hm, hb⟩
        · rintro ⟨e, hm, hb⟩
          rcases List.mem_cons.mp hm with h | h
          · rw [Prod.mk.injEq] at h
            exact Or.inl h.2
          · exact Or.inr ⟨e, h, hb⟩
      · rw [ih]
        constructor
        · rintro ⟨e, hm, hb⟩
          exact ⟨e, List.mem_cons_of_mem _ hm, hb⟩
        · rintro ⟨e, hm, hb⟩
          rcases List.mem_cons.mp hm with h | h
          · rw [Prod.mk.injEq] at h
            exact absurd (h.1 ▸ hb) hband
          · exact ⟨e, h, hb⟩

/-- Specification of the `get_neighbors` stack loop over well-formed
nodes with the unweighted distance: a value is recorded under `d` exactly
when it was already recorded, or it is an active value of a stacked
subtree at distance `d ≤ maxd` from the query. -/
theorem getNeighborsLoop_spec (s : List Char) (maxd : Nat) :
    ∀ (f : Nat) (stack : List BKNode) (acc : List (Nat × List (List Char))),
      stackSizes stack < f →
      (∀ n ∈ stack, NodeWF none n) →
      ∀ (d : Nat) (u : List Char),
        inBucket (getNeighborsLoop none s maxd f stack acc) d u ↔
          inBucket acc d u ∨
            ∃ n ∈ stack, d ≤ maxd ∧ u ∈ n.activeVals ∧ lev1 s u = d := by
  intro f
  induction f with
  | zero => intro stack acc h; omega
  | succ f ih =>
    intro stack acc hsz hwf d u
    match stack with
    | [] =>
      rw [show getNeighborsLoop none s maxd (f + 1) [] acc = acc from rfl]
      simp
    | BKNode.mk v a l :: rest =>
      rw [show getNeighborsLoop none s maxd (f + 1) (BKNode.mk v a l :: rest) acc
          = getNeighborsLoop none s maxd f
              ((keepChildren (levenshtein_distance s v none none true) maxd l).reverse
                ++ rest)
              (if levenshtein_distance s v none none true ≤ maxd ∧ a = true then
                addBucket acc (levenshtein_distance s v none none true) v
              else acc) from rfl]
      have hL1 : levenshtein_distance s v none none true = lev1 s v :=
        levenshtein_distance_unweighted s v
      have hwfn := hwf _ (List.mem_cons_self _ _)
      have hsz1 : stackSizes (BKNode.mk v a l :: rest)
          = (1 + sizeLinks l) + stackSizes rest := rfl
      have hszkeep := stackSizes_keepChildren_le
        (levenshtein_distance s v none none true) maxd l
      have hsznew : stackSizes
          ((keepChildren (levenshtein_distance s v none none true) maxd l).reverse
            ++ rest) < f := by
        rw [stackSizes_append, stackSizes_reverse]
        rw [hsz1] at hsz
        omega
      have hwfnew : ∀ n ∈
          (keepChildren (levenshtein_distance s v none none true) maxd l).reverse
            ++ rest, NodeWF none n := by
        intro m hm
        rcases List.mem_append.mp hm with h | h
        · rcases mem_keepChildren.mp (List.mem_reverse.mp h) with ⟨e, hml, _⟩
          cases hwfn with
          | intro _ _ _ hd hc => exact hc e m hml
        · exact hwf m (List.mem_cons_of_mem _ h)
      rw [ih _ _ hsznew hwfnew d u]
      -- the accumulator after possibly recording the current node's value
      have hacc : inBucket
            (if levenshtein_distance s v none none true ≤ maxd ∧ a = true then
              addBucket acc (levenshtein_distance s v none none true) v
            else acc) d u ↔
          inBucket acc d u ∨ (d ≤ maxd ∧ a = true ∧ u = v ∧ lev1 s u = d) := by
        split_ifs with hcnd
        · rw [addBucket_mem]
          constructor
          · rintro (h | ⟨h1, h2⟩)
            · exact Or.inl h
            · refine Or.inr ⟨?_, hcnd.2, h2, ?_⟩
              · rw [h1]; exact hcnd.1
              · rw [h2, ← hL1, ← h1]
          · rintro (h | ⟨h1, h2, h3, h4⟩)
            · exact Or.inl h
            · refine Or.inr ⟨?_, h3⟩
              rw [← h4, h3, hL1]
        · constructor
          · exact Or.inl
          · rintro (h | ⟨h1, h2, h3, h4⟩)
            · exact h
            · exfalso
              apply hcnd
              refine ⟨?_, h2⟩
              have h5 : lev1 s v = d := by rw [← h3]; exact h4
              rw [hL1, h5]
              exact h1
      -- splitting the existential over the new stack
      have hsplit1 : (∃ n ∈
            (keepChildren (levenshtein_distance s v none none true) maxd l).reverse
              ++ rest, d ≤ maxd ∧ u ∈ n.activeVals ∧ lev1 s u = d) ↔
          (∃ n ∈ keepChildren (levenshtein_distance s v none none true) maxd l,
            d ≤ maxd ∧ u ∈ n.activeVals ∧ lev1 s u = d) ∨
          (∃ n ∈ rest, d ≤ maxd ∧ u ∈ n.activeVals ∧ lev1 s u = d) := by
        constructor
        · rintro ⟨m, hm, hC⟩
          rcases List.mem_append.mp hm with h | h
          · exact Or.inl ⟨m, List.mem_reverse.mp h, hC⟩
          · exact Or.inr ⟨m, h, hC⟩
        · rintro (⟨m, hm, hC⟩ | ⟨m, hm, hC⟩)
          · exact ⟨m, List.mem_append.mpr (Or.inl (List.mem_reverse.mpr hm)), hC⟩
          · exact ⟨m, List.mem_append.mpr (Or.inr hm), hC⟩
      -- kept children capture exactly the in-range subtree contributions
      have hkept : (∃ n ∈ keepChildren (levenshtein_distance s v none none true) maxd l,
            d ≤ maxd ∧ u ∈ n.activeVals ∧ lev1 s u = d) ↔
          (∃ e c, (e, c) ∈ l ∧ d ≤ maxd ∧ u ∈ c.activeVals ∧ lev1 s u = d) := by
        constructor
        · rintro ⟨m, hm, hC⟩
          rcases mem_keepChildren.mp hm with ⟨e, hml, _⟩
          exact ⟨e, m, hml, hC⟩
        · rintro ⟨e, c, hml, h1, h2, h3⟩
          refine ⟨c, mem_keepChildren.mpr ⟨e, hml, ?_⟩, h1, h2, h3⟩
          have hsub : u ∈ c.subVals := activeVals_subset_subVals c u h2
          have hedge : lev1 v u = e := by
            cases hwfn with
            | intro _ _ _ hd hc =>
              have := hd e c hml u hsub
              rw [levenshtein_distance_unweighted] at this
              exact this
          have htri1 : lev1 s v ≤ lev1 s u + lev1 u v := lev1_triangle s u v
          have htri2 : lev1 v u ≤ lev1 v s + lev1 s u := lev1_triangle v s u
          rw [lev1_symm u v, hedge] at htri1
          rw [hedge, lev1_symm v s] at htri2
          rw [hL1]
          rw [h3] at htri1
          rw [h3] at htri2
          omega
      -- the current node's own contribution
      have hCn : (d ≤ maxd ∧ u ∈ BKNode.activeVals (.mk v a l) ∧ lev1 s u = d) ↔
          (d ≤ maxd ∧ a = true ∧ u = v ∧ lev1 s u = d) ∨
          (∃ e c, (e, c) ∈ l ∧ d ≤ maxd ∧ u ∈ c.activeVals ∧ lev1 s u = d) := by
        rw [mem_activeVals_mk]
        constructor
        · rintro ⟨h1, (⟨ha, hv⟩ | ⟨e, c, hm, hu⟩), h3⟩
          · exact Or.inl ⟨h1, ha, hv, h3⟩
          · exact Or.inr ⟨e, c, hm, h1, hu, h3⟩
        · rintro (⟨h1, h2, h3, h4⟩ | ⟨e, c, hm, h1, h2, h3⟩)
          · exact ⟨h1, Or.inl ⟨h2, h3⟩, h4⟩
          · exact ⟨h1, Or.inr ⟨e, c, hm, h2⟩, h3⟩
      have hsplit2 : (∃ n ∈ (BKNode.mk v a l :: rest),
            d ≤ maxd ∧ u ∈ n.activeVals ∧ lev1 s u = d) ↔
          (d ≤ maxd ∧ u ∈ BKNode.activeVals (.mk v a l) ∧ lev1 s u = d) ∨
          (∃ n ∈ rest, d ≤ maxd ∧ u ∈ n.activeVals ∧ lev1 s u = d) := by
        constructor
        · rintro ⟨m, hm, hC⟩
          rcases List.mem_cons.mp hm with h | h
          · subst h; exact Or.inl hC
          · exact Or.inr ⟨m, h, hC⟩
        · rintro (h | ⟨m, hm, hC⟩)
          · exact ⟨_, List.mem_cons_self _ _, h⟩
          · exact ⟨m, List.mem_cons_of_mem _ hm, hC⟩
      constructor
      · rintro (h | h)
        · rcases hacc.mp h with h' | h'
          · exact Or.inl h'
          · exact Or.inr (hsplit2.mpr (Or.inl (hCn.mpr (Or.inl h'))))
        · rcases hsplit1.mp h with h' | h'
          · exact Or.inr (hsplit2.mpr (Or.inl (hCn.mpr (Or.inr (hkept.mp h')))))
          · exact Or.inr (hsplit2.mpr (Or.inr h'))
      · rintro (h | h)
        · exact Or.inl (hacc.mpr (Or.inl h))
        · rcases hsplit2.mp h with h' | h'
          · rcases hCn.mp h' with h'' | h''
            · exact Or.inl (hacc.mpr (Or.inr h''))
            · exact Or.inr (hsplit1.mpr (Or.inl (hkept.mpr h'')))
          · exact Or.inr (hsplit1.mpr (Or.inr h'))

/-! ### Claims C1, C5, C6, C10 -/

/-- Claim C1: in a BK-tree built by inserting a finite set of distinct
strings with the default unweighted Levenshtein distance, `get_neighbors`
buckets hold exactly the active stored values at each distance `d ≤ k`:
no inactive value, no value at distance `> k`, and no value missed. -/
theorem claim_C1 (l : List (List Char)) (t : BKTree)
    (hbuild : bk_tree_builder_from_set l none = Except.ok t)
    (v : List Char) (k d : Nat) (u : List Char) :
    inBucket (t.get_neighbors v k) d u ↔
      d ≤ k ∧ u ∈ t.values ∧ u ∈ t.root.activeVals ∧
        levenshtein_distance v u none none true = d := by
  obtain ⟨⟨hwf, hvals, hact⟩, hveq, hfnw⟩ := build_from_set_spec hbuild
  rw [hfnw] at hwf
  unfold BKTree.get_neighbors
  rw [hfnw]
  have hsz : stackSizes [t.root] < t.root.size + 1 := by
    rw [show stackSizes [t.root] = t.root.size + stackSizes [] from rfl]
    rw [show stackSizes [] = 0 from rfl]
    omega
  have hwfstack : ∀ n ∈ [t.root], NodeWF none n := by
    intro n hn
    rw [List.mem_singleton] at hn
    subst hn
    exact hwf
  rw [getNeighborsLoop_spec v k (t.root.size + 1) [t.root] [] hsz hwfstack d u]
  rw [levenshtein_distance_unweighted v u]
  have hnil : ¬ inBucket ([] : List (Nat × List (List Char))) d u := by
    simp [inBucket]
  constructor
  · rintro (h | ⟨n, hn, h1, h2, h3⟩)
    · exact absurd h hnil
    · rw [List.mem_singleton] at hn
      subst hn
      have hsub := activeVals_subset_subVals t.root u h2
      exact ⟨h1, (hvals u).mpr hsub, h2, h3⟩
  · rintro ⟨h1, h2, h3, h4⟩
    exact Or.inr ⟨t.root, List.mem_singleton.mpr rfl, h1, h3, h4⟩

/-- Witness for claim C1 on the tree built from `{"ab", "b"}`, queried at
`"b"` with radius 1, at distance 1 and value `"ab"`. -/
theorem claim_C1_witness :
    inBucket ((⟨BKNode.mk ['a', 'b'] true [(1, BKNode.mk ['b'] true [])],
        [['a', 'b'], ['b']], none⟩ : BKTree).get_neighbors ['b'] 1) 1 ['a', 'b'] ↔
      1 ≤ 1 ∧ ['a', 'b'] ∈ [['a', 'b'], ['b']] ∧
        ['a', 'b'] ∈ (BKNode.mk ['a', 'b'] true
          [(1, BKNode.mk ['b'] true [])]).activeVals ∧
        levenshtein_distance ['b'] ['a', 'b'] none none true = 1 :=
  claim_C1 [['a', 'b'], ['b']] _ rfl ['b'] 1 1 ['a', 'b']

theorem inBucket_of_sub {A B : List (Nat × List (List Char))}
    (h : bucketsSub A B = true) {d : Nat} {u : List Char}
    (hin : inBucket A d u) : inBucket B d u := by
  obtain ⟨p, hp, hd, hu⟩ := hin
  unfold bucketsSub at h
  rw [List.all_eq_true] at h
  have h2 := h p hp
  rw [List.all_eq_true] at h2
  have h3 := h2 u hu
  rw [List.any_eq_true] at h3
  obtain ⟨q, hq, hqq⟩ := h3
  rw [Bool.and_eq_true, beq_iff_eq] at hqq
  obtain ⟨hq1, hq2⟩ := hqq
  exact ⟨q, hq, by rw [hq1, hd], by simpa using hq2⟩

theorem inBucket_iff_of_sub (A B : List (Nat × List (List Char)))
    (h1 : bucketsSub A B = true) (h2 : bucketsSub B A = true)
    (d : Nat) (u : List Char) : inBucket A d u ↔ inBucket B d u :=
  ⟨inBucket_of_sub h1, inBucket_of_sub h2⟩

theorem inBucket_spec5 (d : Nat) (u : List Char) :
    inBucket [(0, ["book".toList]), (1, ["books".toList, "cook".toList])] d u ↔
      (d = 0 ∧ u = "book".toList) ∨
        (d = 1 ∧ (u = "books".toList ∨ u = "cook".toList)) := by
  rw [inBucket_cons, inBucket_cons]
  have hnil : ¬ inBucket ([] : List (Nat × List (List Char))) d u := by
    simp [inBucket]
  simp only [List.mem_singleton, List.mem_cons, List.not_mem_nil, or_false]
  constructor
  · rintro (⟨h1, h2⟩ | ⟨h1, h2⟩ | h)
    · exact Or.inl ⟨h1.symm, h2⟩
    · exact Or.inr ⟨h1.symm, h2⟩
    · exact absurd h hnil
  · rintro (⟨h1, h2⟩ | ⟨h1, h2⟩)
    · exact Or.inl ⟨h1.symm, h2⟩
    · exact Or.inr (Or.inl ⟨h1.symm, h2⟩)

/-- Claim C5, counterexample: the distance between `"book"` and `"cake"`
is not 3 (it is 4), contradicting the claim's stated reason for the
exclusion of `"cake"`. -/
theorem claim_C5_counterexample :
    ¬ (levenshtein_distance "book".toList "cake".toList none none true = 3) := by
  decide

/-- Claim C5 (amended): seeding a tree with `"book"` and inserting
`"books"`, `"cake"`, `"cook"` in any order, `get_neighbors("book", 1)`
returns exactly `{0: {"book"}, 1: {"books", "cook"}}`; `"cake"` is
excluded because its distance from `"book"` is 4 (not 3). -/
theorem claim_C5 (l : List (List Char))
    (hperm : l.Perm ["books".toList, "cake".toList, "cook".toList])
    (t : BKTree)
    (hbuild : bk_tree_builder_from_set ("book".toList :: l) none = Except.ok t)
    (d : Nat) (u : List Char) :
    (inBucket (t.get_neighbors "book".toList 1) d u ↔
      (d = 0 ∧ u = "book".toList) ∨
        (d = 1 ∧ (u = "books".toList ∨ u = "cook".toList))) ∧
    levenshtein_distance "book".toList "cake".toList none none true = 4 := by
  refine ⟨?_, by decide⟩
  have hmem : l ∈ (["books".toList, "cake".toList, "cook".toList]
      : List (List Char)).permutations' := List.mem_permutations'.mpr hperm
  rw [show (["books".toList, "cake".toList, "cook".toList]
      : List (List Char)).permutations'
      = [["books".toList, "cake".toList, "cook".toList],
         ["cake".toList, "books".toList, "cook".toList],
         ["cake".toList, "cook".toList, "books".toList],
         ["books".toList, "cook".toList, "cake".toList],
         ["cook".toList, "books".toList, "cake".toList],
         ["cook".toList, "cake".toList, "books".toList]] from by decide] at hmem
  simp only [List.mem_cons, List.not_mem_nil, or_false] at hmem
  rcases hmem with rfl | rfl | rfl | rfl | rfl | rfl <;>
    (injection hbuild with ht; subst ht;
     refine Iff.trans
       (inBucket_iff_of_sub _ [(0, ["book".toList]),
          (1, ["books".toList, "cook".toList])] (by decide) (by decide) d u)
       (inBucket_spec5 d u))

/-- Witness for claim C5 at the insertion order
`["books", "cake", "cook"]`, distance 1 and value `"cook"`. -/
theorem claim_C5_witness :
    (inBucket ((⟨BKNode.mk "book".toList true
          [(1, BKNode.mk "books".toList true [(2, BKNode.mk "cook".toList true [])]),
           (4, BKNode.mk "cake".toList true [])],
        ["book".toList, "books".toList, "cake".toList, "cook".toList],
        none⟩ : BKTree).get_neighbors "book".toList 1) 1 "cook".toList ↔
      (1 = 0 ∧ "cook".toList = "book".toList) ∨
        (1 = 1 ∧ ("cook".toList = "books".toList ∨ "cook".toList = "cook".toList))) ∧
    levenshtein_distance "book".toList "cake".toList none none true = 4 :=
  claim_C5 ["books".toList, "cake".toList, "cook".toList] (List.Perm.refl _) _ rfl
    1 "cook".toList

/-- Claim C6: adding an already-indexed value raises `ValueError` and
leaves the tree completely unchanged — same value map, same node count,
same root (hence every node's links and active flag). -/
theorem claim_C6 (t : BKTree) (s : List Char) (h : t.has_node s = true) :
    (t.add_node_state s).1 = Except.error (PyErr.valueError
      ("The string " ++ String.mk s ++ " already exists in the tree")) ∧
    (t.add_node_state s).2 = t ∧
    (t.add_node_state s).2.values = t.values ∧
    (t.add_node_state s).2.get_num_nodes = t.get_num_nodes ∧
    (t.add_node_state s).2.root = t.root := by
  unfold BKTree.add_node_state
  rw [if_pos h]
  exact ⟨rfl, rfl, rfl, rfl, rfl⟩

/-- Witness for claim C6 on a one-node tree and its own value. -/
theorem claim_C6_witness :
    ((⟨BKNode.mk ['x'] true [], [['x']], none⟩ : BKTree).add_node_state ['x']).1
        = Except.error (PyErr.valueError
          ("The string " ++ String.mk ['x'] ++ " already exists in the tree")) ∧
      ((⟨BKNode.mk ['x'] true [], [['x']], none⟩ : BKTree).add_node_state ['x']).2
        = (⟨BKNode.mk ['x'] true [], [['x']], none⟩ : BKTree) ∧
      ((⟨BKNode.mk ['x'] true [], [['x']], none⟩ : BKTree).add_node_state ['x']).2.values
        = (⟨BKNode.mk ['x'] true [], [['x']], none⟩ : BKTree).values ∧
      ((⟨BKNode.mk ['x'] true [], [['x']], none⟩ : BKTree).add_node_state
          ['x']).2.get_num_nodes
        = (⟨BKNode.mk ['x'] true [], [['x']], none⟩ : BKTree).get_num_nodes ∧
      ((⟨BKNode.mk ['x'] true [], [['x']], none⟩ : BKTree).add_node_state ['x']).2.root
        = (⟨BKNode.mk ['x'] true [], [['x']], none⟩ : BKTree).root :=
  claim_C6 ⟨BKNode.mk ['x'] true [], [['x']], none⟩ ['x'] rfl

theorem TreeOK_single (r : List Char) (fnw : Option (Char → Char → Nat)) :
    TreeOK ⟨.mk r true [], [r], fnw⟩ := by
  refine ⟨NodeWF.intro r true [] (by simp) (by simp), ?_, ?_⟩
  · intro u
    rw [mem_subVals_mk]
    simp
  · intro u
    rw [mem_subVals_mk, mem_activeVals_mk]
    simp

theorem addAll_ok : ∀ (rest : List (List Char)) (t : BKTree), TreeOK t →
    rest.Nodup → (∀ s ∈ rest, t.has_node s = false) →
    ∃ t', addAll t rest = Except.ok t' := by
  intro rest
  induction rest with
  | nil => intro t _ _ _; exact ⟨t, rfl⟩
  | cons s r ih =>
    intro t ht hnd hfresh
    have hs : t.has_node s = false := hfresh s (List.mem_cons_self _ _)
    have hok : t.add_node s
        = Except.ok (⟨insertNode t.fnw s t.root, t.values ++ [s], t.fnw⟩ : BKTree) := by
      unfold BKTree.add_node BKTree.add_node_state
      rw [if_neg (by rw [hs]; simp)]
    have ht2 : TreeOK ⟨insertNode t.fnw s t.root, t.values ++ [s], t.fnw⟩ :=
      TreeOK_add_node hok ht
    have hfresh2 : ∀ x ∈ r,
        BKTree.has_node ⟨insertNode t.fnw s t.root, t.values ++ [s], t.fnw⟩ x = false := by
      intro x hx
      have hxs : x ≠ s := by
        intro hxe
        subst hxe
        exact (List.nodup_cons.mp hnd).1 hx
      have hxt : t.has_node x = false := hfresh x (List.mem_cons_of_mem _ hx)
      unfold BKTree.has_node at hxt ⊢
      have hxm : ¬ x ∈ t.values := by simpa using hxt
      have : ¬ x ∈ t.values ++ [s] := by
        simp only [List.mem_append, List.mem_singleton]
        rintro (h | h)
        · exact hxm h
        · exact hxs h
      simpa using this
    obtain ⟨t', h'⟩ := ih _ ht2 (List.nodup_cons.mp hnd).2 hfresh2
    refine ⟨t', ?_⟩
    rw [show addAll t (s :: r)
        = (match t.add_node s with
          | Except.error e => Except.error e
          | Except.ok t2 => addAll t2 r) from rfl, hok]
    exact h'

theorem build_from_set_ok {l : List (List Char)} (hnd : l.Nodup) (hne : l ≠ [])
    (fnw : Option (Char → Char → Nat)) :
    ∃ t, bk_tree_builder_from_set l fnw = Except.ok t := by
  match l, hne with
  | r :: rest, _ =>
    rw [show bk_tree_builder_from_set (r :: rest) fnw
        = addAll ⟨.mk r true [], [r], fnw⟩ rest from rfl]
    apply addAll_ok rest _ (TreeOK_single r fnw) (List.nodup_cons.mp hnd).2
    intro s hs
    have hsr : s ≠ r := by
      intro he
      subst he
      exact (List.nodup_cons.mp hnd).1 hs
    unfold BKTree.has_node
    simp [hsr]

/-- Claim C10: building from a file whose entire content is the empty
string succeeds — the content splits into `[""]`, which deduplicates to a
singleton — and yields a one-node tree storing the empty string; the
empty-seed `ValueError` of the set builder occurs exactly for an empty
deduplicated set. -/
theorem claim_C10 :
    (∃ t, bk_tree_builder_from_file [] [','] none = Except.ok t ∧
        t.values = [[]] ∧ t.get_num_nodes = 1) ∧
    ∀ l : List (List Char), l.Nodup →
      ((∃ e, bk_tree_builder_from_set l none = Except.error e) ↔ l = []) := by
  constructor
  · exact ⟨⟨.mk [] true [], [[]], none⟩, rfl, rfl, rfl⟩
  · intro l hnd
    constructor
    · rintro ⟨e, he⟩
      by_contra hne
      obtain ⟨t, ht⟩ := build_from_set_ok hnd hne none
      rw [ht] at he
      exact Except.noConfusion he
    · rintro rfl
      exact ⟨_, rfl⟩

/-- Witness for claim C10's second part at the singleton `[""]`. -/
theorem claim_C10_witness :
    ¬ (∃ e, bk_tree_builder_from_set [([] : List Char)] none
        = Except.error e) :=
  fun h => by
    have := (claim_C10.2 [([] : List Char)] (by decide)).mp h
    exact List.noConfusion this

/-! ### Claim C7: reconstruction with a dangling link reference -/

theorem mem_dictKeys_aux (u : List Char) :
    ∀ (nodes : List NodeDict) (acc : List (List Char)),
      u ∈ nodes.foldl
          (fun acc n => if acc.contains n.value then acc else acc ++ [n.value]) acc ↔
        u ∈ acc ∨ ∃ nd ∈ nodes, nd.value = u := by
  intro nodes
  induction nodes with
  | nil => intro acc; simp
  | cons n r ih =>
    intro acc
    rw [List.foldl_cons, ih]
    have hstep : u ∈ (if acc.contains n.value then acc else acc ++ [n.value]) ↔
        u ∈ acc ∨ n.value = u := by
      split_ifs with hc
      · constructor
        · exact Or.inl
        · rintro (h | h)
          · exact h
          · rw [← h]; simpa using hc
      · rw [List.mem_append, List.mem_singleton]
        constructor
        · rintro (h | h)
          · exact Or.inl h
          · exact Or.inr h.symm
        · rintro (h | h)
          · exact Or.inl h
          · exact Or.inr h.symm
    rw [hstep]
    constructor
    · rintro ((h | h) | ⟨nd, hnd, hv⟩)
      · exact Or.inl h
      · exact Or.inr ⟨n, List.mem_cons_self _ _, h⟩
      · exact Or.inr ⟨nd, List.mem_cons_of_mem _ hnd, hv⟩
    · rintro (h | ⟨nd, hnd, hv⟩)
      · exact Or.inl (Or.inl h)
      · rcases List.mem_cons.mp hnd with h' | h'
        · exact Or.inl (Or.inr (h' ▸ hv))
        · exact Or.inr ⟨nd, h', hv⟩

theorem mem_dictKeys {u : List Char} {nodes : List NodeDict} :
    u ∈ dictKeys nodes ↔ ∃ nd ∈ nodes, nd.value = u := by
  unfold dictKeys
  rw [mem_dictKeys_aux]
  simp

theorem accAdd_error_keyError :
    ∀ (acc : List (List Char × List (Nat × List Char))) (v : List Char)
      (d : Nat) (c : List Char) (e : PyErr),
      accAdd acc v d c = Except.error e → ∃ m, e = PyErr.keyError m := by
  intro acc
  induction acc with
  | nil => intro v d c e h; exact Except.noConfusion h
  | cons p r ih =>
    match p with
    | (v', ls) =>
      intro v d c e h
      rw [show accAdd ((v', ls) :: r) v d c
          = (if v' = v then
              if (ls.lookup d).isSome then
                Except.error (PyErr.keyError
                  ("The same node cannot have multiple links with the same distance, distance "
                    ++ toString d ++ " already exists"))
              else Except.ok ((v', ls ++ [(d, c)]) :: r)
            else
              match accAdd r v d c with
              | Except.error e => Except.error e
              | Except.ok r' => Except.ok ((v', ls) :: r')) from rfl] at h
      by_cases h1 : v' = v
      · rw [if_pos h1] at h
        by_cases h2 : (ls.lookup d).isSome = true
        · rw [if_pos h2] at h
          exact ⟨_, (Except.error.inj h).symm⟩
        · rw [if_neg h2] at h
          exact Except.noConfusion h
      · rw [if_neg h1] at h
        cases hacc : accAdd r v d c with
        | error e' =>
          rw [hacc] at h
          have he := Except.error.inj h
          subst he
          exact ih v d c e' hacc
        | ok r' =>
          rw [hacc] at h
          exact Except.noConfusion h

theorem linkLoopNode_ok_valid (vals : List (List Char)) (v : List Char) :
    ∀ (links : List (Nat × List Char))
      (acc acc' : List (List Char × List (Nat × List Char))),
      linkLoopNode vals v links acc = Except.ok acc' →
      ∀ p ∈ links, vals.contains p.2 = true := by
  intro links
  induction links with
  | nil => intro acc acc' _ p hp; cases hp
  | cons q r ih =>
    match q with
    | (d, c) =>
      intro acc acc' h p hp
      rw [show linkLoopNode vals v ((d, c) :: r) acc
          = (if vals.contains c then
              match accAdd acc v d c with
              | Except.error e => Except.error e
              | Except.ok acc2 => linkLoopNode vals v r acc2
            else Except.error (PyErr.keyError
              ("Subnode `" ++ String.mk c ++ "` not defined as node"))) from rfl] at h
      by_cases h1 : vals.contains c = true
      · rw [if_pos h1] at h
        rcases List.mem_cons.mp hp with h' | h'
        · rw [h']; exact h1
        · cases hacc : accAdd acc v d c with
          | error e => rw [hacc] at h; exact Except.noConfusion h
          | ok acc2 =>
            rw [hacc] at h
            exact ih acc2 acc' h p h'
      · rw [if_neg h1] at h
        exact Except.noConfusion h

theorem linkLoopNode_error_keyError (vals : List (List Char)) (v : List Char) :
    ∀ (links : List (Nat × List Char))
      (acc : List (List Char × List (Nat × List Char))) (e : PyErr),
      linkLoopNode vals v links acc = Except.error e → ∃ m, e = PyErr.keyError m := by
  intro links
  induction links with
  | nil => intro acc e h; exact Except.noConfusion h
  | cons q r ih =>
    match q with
    | (d, c) =>
      intro acc e h
      rw [show linkLoopNode vals v ((d, c) :: r) acc
          = (if vals.contains c then
              match accAdd acc v d c with
              | Except.error e => Except.error e
              | Except.ok acc2 => linkLoopNode vals v r acc2
            else Except.error (PyErr.keyError
              ("Subnode `" ++ String.mk c ++ "` not defined as node"))) from rfl] at h
      by_cases h1 : vals.contains c = true
      · rw [if_pos h1] at h
        cases hacc : accAdd acc v d c with
        | error e' =>
          rw [hacc] at h
          have he := Except.error.inj h
          subst he
          exact accAdd_error_keyError acc v d c e' hacc
        | ok acc2 =>
          rw [hacc] at h
          exact ih acc2 e h
      · rw [if_neg h1] at h
        exact ⟨_, (Except.error.inj h).symm⟩

theorem linkLoop_ok_valid (vals : List (List Char)) :
    ∀ (nodes : List NodeDict)
      (acc acc' : List (List Char × List (Nat × List Char))),
      linkLoop vals nodes acc = Except.ok acc' →
      ∀ nd ∈ nodes, ∀ p ∈ nd.links, vals.contains p.2 = true := by
  intro nodes
  induction nodes with
  | nil => intro acc acc' _ nd hnd; cases hnd
  | cons n r ih =>
    intro acc acc' h nd hnd
    rw [show linkLoop vals (n :: r) acc
        = (match linkLoopNode vals n.value n.links acc with
          | Except.error e => Except.error e
          | Except.ok acc2 => linkLoop vals r acc2) from rfl] at h
    cases hn : linkLoopNode vals n.value n.links acc with
    | error e => rw [hn] at h; exact Except.noConfusion h
    | ok acc2 =>
      rw [hn] at h
      rcases List.mem_cons.mp hnd with h' | h'
      · subst h'
        exact linkLoopNode_ok_valid vals nd.value nd.links acc acc2 hn
      · exact ih acc2 acc' h nd h'

theorem linkLoop_error_keyError (vals : List (List Char)) :
    ∀ (nodes : List NodeDict) (acc : List (List Char × List (Nat × List Char)))
      (e : PyErr),
      linkLoop vals nodes acc = Except.error e → ∃ m, e = PyErr.keyError m := by
  intro nodes
  induction nodes with
  | nil => intro acc e h; exact Except.noConfusion h
  | cons n r ih =>
    intro acc e h
    rw [show linkLoop vals (n :: r) acc
        = (match linkLoopNode vals n.value n.links acc with
          | Except.error e => Except.error e
          | Except.ok acc2 => linkLoop vals r acc2) from rfl] at h
    cases hn : linkLoopNode vals n.value n.links acc with
    | error e' =>
      rw [hn] at h
      have he := Except.error.inj h
      subst he
      exact linkLoopNode_error_keyError vals n.value n.links acc e' hn
    | ok acc2 =>
      rw [hn] at h
      exact ih acc2 e h

/-- Claim C7: reconstructing from a structure in which some link's child
value does not appear among the node records' values fails with a
`KeyError` and produces no tree. -/
theorem claim_C7 (td : TreeDict) (fnw : Option (Char → Char → Nat))
    (h : ∃ nd ∈ td.nodes, ∃ p ∈ nd.links, ¬ p.2 ∈ td.nodes.map NodeDict.value) :
    ∃ m, bk_tree_builder_from_dict td fnw = Except.error (PyErr.keyError m) := by
  obtain ⟨nd, hnd, p, hp, hmiss⟩ := h
  unfold bk_tree_builder_from_dict
  by_cases hroot : (dictKeys td.nodes).contains td.root = true
  · rw [if_pos hroot]
    cases hloop : linkLoop (dictKeys td.nodes) td.nodes [] with
    | error e =>
      obtain ⟨m, hm⟩ := linkLoop_error_keyError (dictKeys td.nodes) td.nodes [] e hloop
      subst hm
      exact ⟨m, rfl⟩
    | ok acc =>
      exfalso
      have hall := linkLoop_ok_valid (dictKeys td.nodes) td.nodes [] acc hloop nd hnd p hp
      have hmem : p.2 ∈ dictKeys td.nodes := by simpa using hall
      rw [mem_dictKeys] at hmem
      obtain ⟨nd', hnd', hv⟩ := hmem
      exact hmiss (List.mem_map.mpr ⟨nd', hnd', hv⟩)
  · rw [if_neg hroot]
    exact ⟨String.mk td.root, rfl⟩

/-- Witness for claim C7: a single record for `"book"` with a link to the
undefined value `"ghost"`. -/
theorem claim_C7_witness :
    ∃ m, bk_tree_builder_from_dict
        ⟨"book".toList, [⟨"book".toList, true, [(1, "ghost".toList)]⟩]⟩ none
      = Except.error (PyErr.keyError m) :=
  claim_C7 ⟨"book".toList, [⟨"book".toList, true, [(1, "ghost".toList)]⟩]⟩ none
    (by refine ⟨⟨"book".toList, true, [(1, "ghost".toList)]⟩, by simp, (1, "ghost".toList), by simp, by decide⟩)

/-! ### Claim C2: `suggest_correction` -/

theorem strLeB_refl : ∀ a : List Char, strLeB a a = true := by
  intro a
  induction a with
  | nil => rfl
  | cons x xs ih =>
    rw [show strLeB (x :: xs) (x :: xs)
        = if x = x then strLeB xs xs else decide (x < x) from rfl, if_pos rfl]
    exact ih

theorem strLeB_total : ∀ a b : List Char, strLeB a b = true ∨ strLeB b a = true := by
  intro a
  induction a with
  | nil => intro b; exact Or.inl rfl
  | cons x xs ih =>
    intro b
    match b with
    | [] => exact Or.inr rfl
    | y :: ys =>
      rw [show strLeB (x :: xs) (y :: ys)
          = if x = y then strLeB xs ys else decide (x < y) from rfl,
        show strLeB (y :: ys) (x :: xs)
          = if y = x then strLeB ys xs else decide (y < x) from rfl]
      by_cases hxy : x = y
      · rw [if_pos hxy, if_pos hxy.symm]
        exact ih ys
      · rw [if_neg hxy, if_neg (fun h => hxy h.symm)]
        rcases lt_or_gt_of_ne hxy with h | h
        · exact Or.inl (by simpa using h)
        · exact Or.inr (by simpa using h)

theorem strLeB_trans : ∀ a b c : List Char,
    strLeB a b = true → strLeB b c = true → strLeB a c = true := by
  intro a
  induction a with
  | nil => intro b c _ _; rfl
  | cons x xs ih =>
    intro b c hab hbc
    match b with
    | [] => exact absurd hab (by simp [strLeB])
    | y :: ys =>
      match c with
      | [] => exact absurd hbc (by simp [strLeB])
      | z :: zs =>
        rw [show strLeB (x :: xs) (y :: ys)
            = if x = y then strLeB xs ys else decide (x < y) from rfl] at hab
        rw [show strLeB (y :: ys) (z :: zs)
            = if y = z then strLeB ys zs else decide (y < z) from rfl] at hbc
        rw [show strLeB (x :: xs) (z :: zs)
            = if x = z then strLeB xs zs else decide (x < z) from rfl]
        by_cases hxy : x = y <;> by_cases hyz : y = z
        · rw [if_pos (hxy.trans hyz)]
          rw [if_pos hxy] at hab
          rw [if_pos hyz] at hbc
          exact ih ys zs hab hbc
        · rw [if_pos hxy] at hab
          rw [if_neg hyz] at hbc
          have hlt : y < z := by simpa using hbc
          have hxz : x < z := hxy ▸ hlt
          rw [if_neg (ne_of_lt hxz)]
          simpa using hxz
        · rw [if_neg hxy] at hab
          rw [if_pos hyz] at hbc
          have hlt : x < y := by simpa using hab
          have hxz : x < z := hyz ▸ hlt
          rw [if_neg (ne_of_lt hxz)]
          simpa using hxz
        · rw [if_neg hxy] at hab
          rw [if_neg hyz] at hbc
          have h1 : x < y := by simpa using hab
          have h2 : y < z := by simpa using hbc
          have hxz : x < z := lt_trans h1 h2
          rw [if_neg (ne_of_lt hxz)]
          simpa using hxz

theorem addBucket_keys (d : Nat) (v : List Char) :
    ∀ (acc : List (Nat × List (List Char))),
      (addBucket acc d v).map Prod.fst
        = if (acc.map Prod.fst).contains d then acc.map Prod.fst
          else acc.map Prod.fst ++ [d] := by
  intro acc
  induction acc with
  | nil => rfl
  | cons p r ih =>
    match p with
    | (e, s') =>
      rw [show addBucket ((e, s') :: r) d v
          = if e = d then (e, if s'.contains v then s' else s' ++ [v]) :: r
            else (e, s') :: addBucket r d v from rfl]
      by_cases he : e = d
      · subst he
        rw [if_pos rfl,
          show ((e, if s'.contains v then s' else s' ++ [v]) :: r).map Prod.fst
            = e :: r.map Prod.fst from rfl,
          show ((e, s') :: r).map Prod.fst = e :: r.map Prod.fst from rfl,
          if_pos (by simp)]
      · rw [if_neg he,
          show ((e, s') :: addBucket r d v).map Prod.fst
            = e :: (addBucket r d v).map Prod.fst from rfl, ih,
          show ((e, s') :: r).map Prod.fst = e :: r.map Prod.fst from rfl]
        by_cases hc : (r.map Prod.fst).contains d = true
        · rw [if_pos hc, if_pos (by simp only [List.contains_cons]; rw [hc]; simp)]
        · rw [if_neg hc, if_neg ?_]
          · rfl
          · simp only [List.contains_cons, Bool.or_eq_true, beq_iff_eq]
            rintro (h | h)
            · exact he h.symm
            · exact hc h

theorem addBucket_nonempty (d : Nat) (v : List Char) :
    ∀ (acc : List (Nat × List (List Char))),
      (∀ p ∈ acc, p.2 ≠ []) → ∀ p ∈ addBucket acc d v, p.2 ≠ [] := by
  intro acc
  induction acc with
  | nil =>
    intro _ p hp
    rw [show addBucket [] d v = [(d, [v])] from rfl, List.mem_singleton] at hp
    subst hp
    simp
  | cons q r ih =>
    match q with
    | (e, s') =>
      intro hall p hp
      rw [show addBucket ((e, s') :: r) d v
          = if e = d then (e, if s'.contains v then s' else s' ++ [v]) :: r
            else (e, s') :: addBucket r d v from rfl] at hp
      by_cases he : e = d
      · rw [if_pos he, List.mem_cons] at hp
        rcases hp with hp | hp
        · subst hp
          split_ifs with hc
          · exact hall (e, s') (List.mem_cons_self _ _)
          · simp
        · exact hall p (List.mem_cons_of_mem _ hp)
      · rw [if_neg he, List.mem_cons] at hp
        rcases hp with hp | hp
        · subst hp
          exact hall (e, s') (List.mem_cons_self _ _)
        · exact ih (fun q hq => hall q (List.mem_cons_of_mem _ hq)) p hp

theorem getNeighborsLoop_buckets_inv (fnw : Option (Char → Char → Nat))
    (s : List Char) (maxd : Nat) :
    ∀ (f : Nat) (stack : List BKNode) (acc : List (Nat × List (List Char))),
      (acc.map Prod.fst).Nodup → (∀ p ∈ acc, p.2 ≠ []) →
      ((getNeighborsLoop fnw s maxd f stack acc).map Prod.fst).Nodup ∧
        ∀ p ∈ getNeighborsLoop fnw s maxd f stack acc, p.2 ≠ [] := by
  intro f
  induction f with
  | zero => intro stack acc h1 h2; exact ⟨h1, h2⟩
  | succ f ih =>
    intro stack acc h1 h2
    match stack with
    | [] => exact ⟨h1, h2⟩
    | n :: rest =>
      rw [show getNeighborsLoop fnw s maxd (f + 1) (n :: rest) acc
          = getNeighborsLoop fnw s maxd f
              ((keepChildren (levenshtein_distance s n.get_value none fnw true) maxd
                n.get_links).reverse ++ rest)
              (if levenshtein_distance s n.get_value none fnw true ≤ maxd ∧
                  n.is_active = true then
                addBucket acc (levenshtein_distance s n.get_value none fnw true)
                  n.get_value
              else acc) from rfl]
      apply ih
      · split_ifs with hcnd
        · rw [addBucket_keys]
          split_ifs with hc
          · exact h1
          · rw [List.nodup_append]
            refine ⟨h1, by simp, ?_⟩
            intro x hx hx2
            rw [List.mem_singleton] at hx2
            have hcc : (acc.map Prod.fst).contains x = true := by simpa using hx
            rw [hx2] at hcc
            rw [hcc] at hc
            exact hc rfl
        · exact h1
      · split_ifs with hcnd
        · exact addBucket_nonempty _ _ acc h2
        · exact h2

theorem foldlMinFst_le_init :
    ∀ (r : List (Nat × List (List Char))) (a : Nat),
      r.foldl (fun m p => min m p.1) a ≤ a := by
  intro r
  induction r with
  | nil => intro a; exact le_rfl
  | cons q r ih =>
    intro a
    calc (q :: r).foldl (fun m p => min m p.1) a
        = r.foldl (fun m p => min m p.1) (min a q.1) := rfl
      _ ≤ min a q.1 := ih _
      _ ≤ a := min_le_left _ _

theorem foldlMinFst_le_mem :
    ∀ (r : List (Nat × List (List Char))) (a : Nat) (p : Nat × List (List Char)),
      p ∈ r → r.foldl (fun m q => min m q.1) a ≤ p.1 := by
  intro r
  induction r with
  | nil => intro a p hp; cases hp
  | cons q r ih =>
    intro a p hp
    rcases List.mem_cons.mp hp with h | h
    · subst h
      calc (p :: r).foldl (fun m q => min m q.1) a
          = r.foldl (fun m q => min m q.1) (min a p.1) := rfl
        _ ≤ min a p.1 := foldlMinFst_le_init _ _
        _ ≤ p.1 := min_le_right _ _
    · exact ih (min a q.1) p h

theorem foldlMinFst_attained :
    ∀ (r : List (Nat × List (List Char))) (a : Nat),
      r.foldl (fun m p => min m p.1) a = a ∨
        ∃ p ∈ r, r.foldl (fun m p => min m p.1) a = p.1 := by
  intro r
  induction r with
  | nil => intro a; exact Or.inl rfl
  | cons q r ih =>
    intro a
    have hstep : (q :: r).foldl (fun m p => min m p.1) a
        = r.foldl (fun m p => min m p.1) (min a q.1) := rfl
    rcases ih (min a q.1) with h | ⟨p, hp, h⟩
    · rcases Nat.le_total a q.1 with hle | hle
      · left
        rw [hstep, h]
        omega
      · right
        refine ⟨q, List.mem_cons_self _ _, ?_⟩
        rw [hstep, h]
        omega
    · right
      exact ⟨p, List.mem_cons_of_mem _ hp, hstep ▸ h⟩

theorem minKeys_le {R : List (Nat × List (List Char))} {p : Nat × List (List Char)}
    (hp : p ∈ R) : minKeys R ≤ p.1 := by
  match R, hp with
  | (d, b) :: r, hp =>
    rw [show minKeys ((d, b) :: r) = r.foldl (fun m p => min m p.1) d from rfl]
    rcases List.mem_cons.mp hp with h | h
    · subst h
      exact foldlMinFst_le_init r _
    · exact foldlMinFst_le_mem r d p h

theorem minKeys_attained {R : List (Nat × List (List Char))} (h : R ≠ []) :
    ∃ b, (minKeys R, b) ∈ R := by
  match R with
  | (d, bb) :: r =>
    rw [show minKeys ((d, bb) :: r) = r.foldl (fun m p => min m p.1) d from rfl]
    rcases foldlMinFst_attained r d with h' | ⟨p, hp, h'⟩
    · exact ⟨bb, by rw [h']; exact List.mem_cons_self _ _⟩
    · exact ⟨p.2, by rw [h']; exact List.mem_cons_of_mem _ hp⟩

theorem lookup_of_keys_nodup :
    ∀ (R : List (Nat × List (List Char))), (R.map Prod.fst).Nodup →
      ∀ (k : Nat) (b : List (List Char)), (k, b) ∈ R → R.lookup k = some b := by
  intro R
  induction R with
  | nil => intro _ k b hb; cases hb
  | cons q r ih =>
    match q with
    | (k', b') =>
      intro hnd k b hb
      have hnd' : (r.map Prod.fst).Nodup ∧ ¬ k' ∈ r.map Prod.fst := by
        rw [show ((k', b') :: r).map Prod.fst = k' :: r.map Prod.fst from rfl,
          List.nodup_cons] at hnd
        exact ⟨hnd.2, hnd.1⟩
      rcases List.mem_cons.mp hb with h | h
      · rw [Prod.mk.injEq] at h
        obtain ⟨h1, h2⟩ := h
        subst h1 h2
        rw [List.lookup_cons]
        simp
      · have hkk : k ≠ k' := by
          intro he
          subst he
          exact hnd'.2 (List.mem_map.mpr ⟨(k, b), h, rfl⟩)
        have hne : (k == k') = false := by simpa using hkk
        rw [List.lookup_cons, hne]
        exact ih hnd'.1 k b h

theorem suggest_correction_eq (t : BKTree) (s : List Char)
    (h : ¬ (t.has_node s = true ∧ t.node_active s = true)) :
    t.suggest_correction s
      = (if (t.get_neighbors s (max ((s.length + 2) / 5 + 1) 2)).isEmpty = true then
          none
        else some (((((t.get_neighbors s (max ((s.length + 2) / 5 + 1) 2)).lookup
            (minKeys (t.get_neighbors s (max ((s.length + 2) / 5 + 1) 2)))).getD
            []).mergeSort strLeB).headD [])) := by
  unfold BKTree.suggest_correction
  rw [if_neg h]

/-- Claim C2: `suggest_correction` returns `None` when the string is
indexed and active; otherwise it queries `get_neighbors` with radius
`max(round(len(s)/5) + 1, 2)`, returns `None` on an empty result, and
otherwise returns the lexicographically smallest string of the bucket
with the smallest distance key. -/
theorem claim_C2 (t : BKTree) (s : List Char) :
    ((t.has_node s = true ∧ t.node_active s = true) →
        t.suggest_correction s = none) ∧
    (¬ (t.has_node s = true ∧ t.node_active s = true) →
      (t.get_neighbors s (max ((s.length + 2) / 5 + 1) 2) = [] →
          t.suggest_correction s = none) ∧
      (t.get_neighbors s (max ((s.length + 2) / 5 + 1) 2) ≠ [] →
        ∃ r, t.suggest_correction s = some r ∧
          inBucket (t.get_neighbors s (max ((s.length + 2) / 5 + 1) 2))
            (minKeys (t.get_neighbors s (max ((s.length + 2) / 5 + 1) 2))) r ∧
          (∀ d u, inBucket (t.get_neighbors s (max ((s.length + 2) / 5 + 1) 2)) d u →
            minKeys (t.get_neighbors s (max ((s.length + 2) / 5 + 1) 2)) ≤ d) ∧
          ∀ u, inBucket (t.get_neighbors s (max ((s.length + 2) / 5 + 1) 2))
              (minKeys (t.get_neighbors s (max ((s.length + 2) / 5 + 1) 2))) u →
            strLeB r u = true)) := by
  constructor
  · intro h
    unfold BKTree.suggest_correction
    rw [if_pos h]
  · intro h
    constructor
    · intro hq
      rw [suggest_correction_eq t s h, hq]
      rfl
    · intro hne
      have hinv := getNeighborsLoop_buckets_inv t.fnw s
        (max ((s.length + 2) / 5 + 1) 2) (t.root.size + 1) [t.root] []
        (by simp) (by simp)
      have hinv1 : ((t.get_neighbors s
          (max ((s.length + 2) / 5 + 1) 2)).map Prod.fst).Nodup := hinv.1
      have hinv2 : ∀ p ∈ t.get_neighbors s (max ((s.length + 2) / 5 + 1) 2),
          p.2 ≠ [] := hinv.2
      obtain ⟨b, hbmem⟩ := minKeys_attained hne
      have hlook : (t.get_neighbors s (max ((s.length + 2) / 5 + 1) 2)).lookup
          (minKeys (t.get_neighbors s (max ((s.length + 2) / 5 + 1) 2))) = some b :=
        lookup_of_keys_nodup _ hinv1 _ b hbmem
      have hbne : b ≠ [] := hinv2 _ hbmem
      have hperm := List.mergeSort_perm b strLeB
      have hsne : b.mergeSort strLeB ≠ [] := by
        intro h0
        rw [h0] at hperm
        exact hbne (hperm.symm.eq_nil)
      obtain ⟨r0, rest, hsort⟩ := List.exists_cons_of_ne_nil hsne
      have hr0mem : r0 ∈ b :=
        hperm.mem_iff.mp (by rw [hsort]; exact List.mem_cons_self _ _)
      have htot : ∀ a b : List Char, (strLeB a b || strLeB b a) = true := by
        intro a b
        rcases strLeB_total a b with h' | h' <;> simp [h']
      have hsorted := List.sorted_mergeSort strLeB_trans htot b
      rw [hsort] at hsorted
      have hleast : ∀ u ∈ b, strLeB r0 u = true := by
        intro u hu
        have hu' : u ∈ r0 :: rest := by
          rw [← hsort]
          exact hperm.mem_iff.mpr hu
        rcases List.mem_cons.mp hu' with h' | h'
        · rw [h']
          exact strLeB_refl r0
        · exact (List.pairwise_cons.mp hsorted).1 u h'
      rw [suggest_correction_eq t s h,
        if_neg (fun hE => hne (List.isEmpty_iff.mp hE)), hlook]
      refine ⟨(((some b).getD []).mergeSort strLeB).headD [], rfl, ?_, ?_, ?_⟩
      · have hrr : (((some b).getD []).mergeSort strLeB).headD [] = r0 := by
          rw [show (some b).getD [] = b from rfl, hsort]
          rfl
        rw [hrr]
        exact ⟨_, hbmem, rfl, hr0mem⟩
      · rintro d u ⟨p, hp, hpd, _⟩
        have := minKeys_le hp
        rw [hpd] at this
        exact this
      · intro u hu
        obtain ⟨p, hp, hpd, hup⟩ := hu
        have hp' : (minKeys (t.get_neighbors s (max ((s.length + 2) / 5 + 1) 2)),
            p.2) ∈ t.get_neighbors s (max ((s.length + 2) / 5 + 1) 2) := by
          rw [← hpd]
          exact hp
        have hlook2 := lookup_of_keys_nodup _ hinv1 _ p.2 hp'
        rw [hlook] at hlook2
        have hbp : b = p.2 := Option.some.inj hlook2
        have hub : u ∈ b := by rw [hbp]; exact hup
        have hrr : (((some b).getD []).mergeSort strLeB).headD [] = r0 := by
          rw [show (some b).getD [] = b from rfl, hsort]
          rfl
        rw [hrr]
        exact hleast u hub

/-- Witness for claim C2 on a one-node tree at its own (active) value. -/
theorem claim_C2_witness :
    (⟨BKNode.mk ['c'] true [], [['c']], none⟩ : BKTree).suggest_correction ['c']
      = none :=
  (claim_C2 ⟨BKNode.mk ['c'] true [], [['c']], none⟩ ['c']).1 ⟨rfl, rfl⟩

/-! ### Claim C8: dictionary primitive lemmas -/

section DictLemmas

variable {α β : Type} [BEq α] [LawfulBEq α]

theorem lookup_isSome_iff_mem :
    ∀ (l : List (α × β)) (k : α),
      (l.lookup k).isSome = true ↔ k ∈ l.map Prod.fst := by
  intro l
  induction l with
  | nil => intro k; simp
  | cons p r ih =>
    match p with
    | (k', v') =>
      intro k
      rw [List.lookup_cons]
      by_cases hk : k = k'
      · subst hk
        rw [show (k == k) = true by simp]
        simp
      · rw [show (k == k') = false by simpa using hk]
        rw [show ((k', v') :: r).map Prod.fst = k' :: r.map Prod.fst from rfl]
        simp only [List.mem_cons]
        rw [ih k]
        constructor
        · exact Or.inr
        · rintro (h | h)
          · exact absurd h hk
          · exact h

theorem dInsert_lookup_self (l : List (α × β)) (k : α) (v : β) :
    (dInsert l k v).lookup k = some v := by
  induction l with
  | nil =>
    rw [show dInsert ([] : List (α × β)) k v = [(k, v)] from rfl, List.lookup_cons]
    simp
  | cons p r ih =>
    match p with
    | (k', v') =>
      rw [show dInsert ((k', v') :: r) k v
          = if k' == k then (k, v) :: r else (k', v') :: dInsert r k v from rfl]
      by_cases hk : k' = k
      · rw [if_pos (by simpa using hk), List.lookup_cons]
        simp
      · rw [if_neg (by simpa using hk), List.lookup_cons]
        rw [show (k == k') = false by simp; exact fun h => hk h.symm]
        exact ih

theorem dInsert_lookup_ne (l : List (α × β)) (k : α) (v : β) (a : α) (h : a ≠ k) :
    (dInsert l k v).lookup a = l.lookup a := by
  induction l with
  | nil =>
    rw [show dInsert ([] : List (α × β)) k v = [(k, v)] from rfl, List.lookup_cons]
    rw [show (a == k) = false by simpa using h]
  | cons p r ih =>
    match p with
    | (k', v') =>
      rw [show dInsert ((k', v') :: r) k v
          = if k' == k then (k, v) :: r else (k', v') :: dInsert r k v from rfl]
      by_cases hk : k' = k
      · subst hk
        rw [if_pos (by simp), List.lookup_cons, List.lookup_cons,
          show (a == k') = false by simpa using h]
      · rw [if_neg (by simpa using hk), List.lookup_cons, List.lookup_cons]
        by_cases hak : a = k'
        · rw [show (a == k') = true by simpa using hak]
        · rw [show (a == k') = false by simpa using hak]
          exact ih

theorem mem_map_fst_dInsert (l : List (α × β)) (k : α) (v : β) (a : α) :
    a ∈ (dInsert l k v).map Prod.fst ↔ a = k ∨ a ∈ l.map Prod.fst := by
  induction l with
  | nil => simp [dInsert]
  | cons p r ih =>
    match p with
    | (k', v') =>
      rw [show dInsert ((k', v') :: r) k v
          = if k' == k then (k, v) :: r else (k', v') :: dInsert r k v from rfl]
      by_cases hk : k' = k
      · subst hk
        rw [if_pos (by simp)]
        simp
      · rw [if_neg (by simpa using hk),
          show ((k', v') :: dInsert r k v).map Prod.fst
            = k' :: (dInsert r k v).map Prod.fst from rfl,
          show ((k', v') :: r).map Prod.fst = k' :: r.map Prod.fst from rfl]
        simp only [List.mem_cons]
        rw [ih]
        tauto

theorem nodup_map_fst_dInsert (l : List (α × β)) (k : α) (v : β)
    (h : (l.map Prod.fst).Nodup) : ((dInsert l k v).map Prod.fst).Nodup := by
  induction l with
  | nil => simp [dInsert]
  | cons p r ih =>
    match p with
    | (k', v') =>
      rw [show ((k', v') :: r).map Prod.fst = k' :: r.map Prod.fst from rfl,
        List.nodup_cons] at h
      rw [show dInsert ((k', v') :: r) k v
          = if k' == k then (k, v) :: r else (k', v') :: dInsert r k v from rfl]
      by_cases hk : k' = k
      · subst hk
        rw [if_pos (by simp),
          show ((k', v) :: r).map Prod.fst = k' :: r.map Prod.fst from rfl,
          List.nodup_cons]
        exact h
      · rw [if_neg (by simpa using hk),
          show ((k', v') :: dInsert r k v).map Prod.fst
            = k' :: (dInsert r k v).map Prod.fst from rfl, List.nodup_cons]
        refine ⟨?_, ih h.2⟩
        rw [mem_map_fst_dInsert]
        rintro (h' | h')
        · exact hk h'
        · exact h.1 h'

theorem lookup_append_single_ne (k : α) (v : β) (a : α) (h : a ≠ k) :
    ∀ (l : List (α × β)), (l ++ [(k, v)]).lookup a = l.lookup a := by
  intro l
  induction l with
  | nil =>
    rw [List.nil_append, List.lookup_cons, show (a == k) = false by simpa using h]
  | cons p r ih =>
    match p with
    | (k', v') =>
      rw [List.cons_append, List.lookup_cons, List.lookup_cons]
      by_cases hak : a = k'
      · rw [show (a == k') = true by simpa using hak]
      · rw [show (a == k') = false by simpa using hak]
        exact ih

theorem lookup_append_single_self (k : α) (v : β) :
    ∀ (l : List (α × β)), l.lookup k = none →
      (l ++ [(k, v)]).lookup k = some v := by
  intro l
  induction l with
  | nil =>
    intro _
    rw [List.nil_append, List.lookup_cons]
    simp
  | cons p r ih =>
    match p with
    | (k', v') =>
      intro hnone
      rw [List.lookup_cons] at hnone
      by_cases hk : k = k'
      · rw [show (k == k') = true by simpa using hk] at hnone
        exact Option.noConfusion hnone
      · rw [show (k == k') = false by simpa using hk] at hnone
        rw [List.cons_append, List.lookup_cons,
          show (k == k') = false by simpa using hk]
        exact ih hnone

theorem dSetdefault_lookup_ne (l : List (α × β)) (k : α) (v : β) (a : α)
    (h : a ≠ k) : (dSetdefault l k v).lookup a = l.lookup a := by
  unfold dSetdefault
  split_ifs with hl
  · rfl
  · exact lookup_append_single_ne k v a h l

theorem dSetdefault_lookup_self (l : List (α × β)) (k : α) (v : β) :
    (dSetdefault l k v).lookup k = some ((l.lookup k).getD v) := by
  unfold dSetdefault
  split_ifs with hl
  · match hv : l.lookup k, hl with
    | some v', _ => rfl
  · have hnone : l.lookup k = none := by
      match hv : l.lookup k with
      | none => rfl
      | some v' => rw [hv] at hl; exact absurd rfl hl
    rw [hnone, lookup_append_single_self k v l hnone]
    rfl

theorem mem_map_fst_dSetdefault (l : List (α × β)) (k : α) (v : β) (a : α) :
    a ∈ (dSetdefault l k v).map Prod.fst ↔ a = k ∨ a ∈ l.map Prod.fst := by
  unfold dSetdefault
  split_ifs with hl
  · constructor
    · exact Or.inr
    · rintro (h | h)
      · subst h
        exact (lookup_isSome_iff_mem l a).mp hl
      · exact h
  · rw [List.map_append]
    simp only [List.mem_append]
    constructor
    · rintro (h | h)
      · exact Or.inr h
      · simp only [List.map_cons, List.map_nil, List.mem_singleton] at h
        exact Or.inl h
    · rintro (h | h)
      · right; simp [h]
      · exact Or.inl h

theorem nodup_map_fst_dSetdefault (l : List (α × β)) (k : α) (v : β)
    (h : (l.map Prod.fst).Nodup) : ((dSetdefault l k v).map Prod.fst).Nodup := by
  unfold dSetdefault
  split_ifs with hl
  · exact h
  · rw [List.map_append, List.nodup_append]
    refine ⟨h, by simp, ?_⟩
    intro x hx hx2
    simp only [List.map_cons, List.map_nil, List.mem_singleton] at hx2
    subst hx2
    rw [← lookup_isSome_iff_mem] at hx
    rw [hx] at hl
    exact hl rfl

theorem dDel_lookup_ne (l : List (α × β)) (k a : α) (h : a ≠ k) :
    (dDel l k).lookup a = l.lookup a := by
  induction l with
  | nil => rfl
  | cons p r ih =>
    match p with
    | (k', v') =>
      rw [show dDel ((k', v') :: r) k
          = if k' == k then r else (k', v') :: dDel r k from rfl]
      by_cases hk : k' = k
      · subst hk
        rw [if_pos (by simp), List.lookup_cons,
          show (a == k') = false by simpa using h]
      · rw [if_neg (by simpa using hk), List.lookup_cons, List.lookup_cons]
        by_cases hak : a = k'
        · rw [show (a == k') = true by simpa using hak]
        · rw [show (a == k') = false by simpa using hak]
          exact ih

theorem mem_map_fst_dDel (l : List (α × β)) (k a : α) :
    a ∈ (dDel l k).map Prod.fst → a ∈ l.map Prod.fst := by
  induction l with
  | nil => intro h; cases h
  | cons p r ih =>
    match p with
    | (k', v') =>
      rw [show dDel ((k', v') :: r) k
          = if k' == k then r else (k', v') :: dDel r k from rfl]
      by_cases hk : k' = k
      · rw [if_pos (by simpa using hk)]
        intro h
        exact List.mem_cons_of_mem _ h
      · rw [if_neg (by simpa using hk)]
        intro h
        rcases List.mem_cons.mp h with h' | h'
        · exact h' ▸ List.mem_cons_self _ _
        · exact List.mem_cons_of_mem _ (ih h')

theorem nodup_map_fst_dDel (l : List (α × β)) (k : α)
    (h : (l.map Prod.fst).Nodup) : ((dDel l k).map Prod.fst).Nodup := by
  induction l with
  | nil => exact h
  | cons p r ih =>
    match p with
    | (k', v') =>
      rw [show ((k', v') :: r).map Prod.fst = k' :: r.map Prod.fst from rfl,
        List.nodup_cons] at h
      rw [show dDel ((k', v') :: r) k
          = if k' == k then r else (k', v') :: dDel r k from rfl]
      by_cases hk : k' = k
      · rw [if_pos (by simpa using hk)]
        exact h.2
      · rw [if_neg (by simpa using hk),
          show ((k', v') :: dDel r k).map Prod.fst
            = k' :: (dDel r k).map Prod.fst from rfl, List.nodup_cons]
        exact ⟨fun h' => h.1 (mem_map_fst_dDel r k k' h'), ih h.2⟩

theorem dDel_lookup_self (l : List (α × β)) (k : α)
    (h : (l.map Prod.fst).Nodup) : (dDel l k).lookup k = none := by
  induction l with
  | nil => rfl
  | cons p r ih =>
    match p with
    | (k', v') =>
      rw [show ((k', v') :: r).map Prod.fst = k' :: r.map Prod.fst from rfl,
        List.nodup_cons] at h
      rw [show dDel ((k', v') :: r) k
          = if k' == k then r else (k', v') :: dDel r k from rfl]
      by_cases hk : k' = k
      · subst hk
        rw [if_pos (by simp)]
        match hv : r.lookup k' with
        | none => rfl
        | some v =>
          exfalso
          have : k' ∈ r.map Prod.fst := by
            rw [← lookup_isSome_iff_mem]
            rw [hv]
            rfl
          exact h.1 this
      · rw [if_neg (by simpa using hk), List.lookup_cons,
          show (k == k') = false by simp; exact fun h' => hk h'.symm]
        exact ih h.2

end DictLemmas

/-! ### Claim C8: weight-table lemmas -/

theorem map_fst_wSet (k1 k2 : Char) (x : Nat) :
    ∀ w : WTable, (wSet w k1 k2 x).map Prod.fst = w.map Prod.fst := by
  intro w
  induction w with
  | nil => rfl
  | cons p r ih =>
    match p with
    | (k, inner) =>
      rw [show wSet ((k, inner) :: r) k1 k2 x
          = if k == k1 then (k, dInsert inner k2 x) :: r
            else (k, inner) :: wSet r k1 k2 x from rfl]
      by_cases hk : k = k1
      · rw [if_pos (by simpa using hk)]; rfl
      · rw [if_neg (by simpa using hk)]
        rw [show ((k, inner) :: wSet r k1 k2 x).map Prod.fst
            = k :: (wSet r k1 k2 x).map Prod.fst from rfl, ih]
        rfl

theorem wSet_lookup_ne (k1 k2 : Char) (x : Nat) (a : Char) (h : a ≠ k1) :
    ∀ w : WTable, (wSet w k1 k2 x).lookup a = w.lookup a := by
  intro w
  induction w with
  | nil => rfl
  | cons p r ih =>
    match p with
    | (k, inner) =>
      rw [show wSet ((k, inner) :: r) k1 k2 x
          = if k == k1 then (k, dInsert inner k2 x) :: r
            else (k, inner) :: wSet r k1 k2 x from rfl]
      by_cases hk : k = k1
      · rw [if_pos (by simpa using hk), List.lookup_cons, List.lookup_cons,
          show (a == k) = false by simp; exact fun h' => h (h' ▸ hk)]
      · rw [if_neg (by simpa using hk), List.lookup_cons, List.lookup_cons]
        by_cases hak : a = k
        · rw [show (a == k) = true by simpa using hak]
        · rw [show (a == k) = false by simpa using hak]
          exact ih

theorem wSet_lookup_self (k1 k2 : Char) (x : Nat) :
    ∀ (w : WTable) (i : List (Char × Nat)), w.lookup k1 = some i →
      (wSet w k1 k2 x).lookup k1 = some (dInsert i k2 x) := by
  intro w
  induction w with
  | nil => intro i h; exact Option.noConfusion h
  | cons p r ih =>
    match p with
    | (k, inner) =>
      intro i h
      rw [List.lookup_cons] at h
      rw [show wSet ((k, inner) :: r) k1 k2 x
          = if k == k1 then (k, dInsert inner k2 x) :: r
            else (k, inner) :: wSet r k1 k2 x from rfl]
      by_cases hk : k = k1
      · rw [show (k1 == k) = true by simpa using hk.symm] at h
        have hi : inner = i := Option.some.inj h
        subst hi
        rw [if_pos (by simpa using hk), List.lookup_cons,
          show (k1 == k) = true by simpa using hk.symm]
      · rw [show (k1 == k) = false by simp; exact fun h' => hk h'.symm] at h
        rw [if_neg (by simpa using hk), List.lookup_cons,
          show (k1 == k) = false by simp; exact fun h' => hk h'.symm]
        exact ih i h

theorem wSet_none (k1 k2 : Char) (x : Nat) :
    ∀ w : WTable, w.lookup k1 = none → wSet w k1 k2 x = w := by
  intro w
  induction w with
  | nil => intro _; rfl
  | cons p r ih =>
    match p with
    | (k, inner) =>
      intro h
      rw [List.lookup_cons] at h
      rw [show wSet ((k, inner) :: r) k1 k2 x
          = if k == k1 then (k, dInsert inner k2 x) :: r
            else (k, inner) :: wSet r k1 k2 x from rfl]
      by_cases hk : k = k1
      · rw [show (k1 == k) = true by simpa using hk.symm] at h
        exact Option.noConfusion h
      · rw [show (k1 == k) = false by simp; exact fun h' => hk h'.symm] at h
        rw [if_neg (by simpa using hk), ih h]

theorem map_fst_wSetdefault (k1 k2 : Char) (x : Nat) :
    ∀ w : WTable, (wSetdefault w k1 k2 x).map Prod.fst = w.map Prod.fst := by
  intro w
  induction w with
  | nil => rfl
  | cons p r ih =>
    match p with
    | (k, inner) =>
      rw [show wSetdefault ((k, inner) :: r) k1 k2 x
          = if k == k1 then (k, dSetdefault inner k2 x) :: r
            else (k, inner) :: wSetdefault r k1 k2 x from rfl]
      by_cases hk : k = k1
      · rw [if_pos (by simpa using hk)]; rfl
      · rw [if_neg (by simpa using hk)]
        rw [show ((k, inner) :: wSetdefault r k1 k2 x).map Prod.fst
            = k :: (wSetdefault r k1 k2 x).map Prod.fst from rfl, ih]
        rfl

theorem wSetdefault_lookup_ne (k1 k2 : Char) (x : Nat) (a : Char) (h : a ≠ k1) :
    ∀ w : WTable, (wSetdefault w k1 k2 x).lookup a = w.lookup a := by
  intro w
  induction w with
  | nil => rfl
  | cons p r ih =>
    match p with
    | (k, inner) =>
      rw [show wSetdefault ((k, inner) :: r) k1 k2 x
          = if k == k1 then (k, dSetdefault inner k2 x) :: r
            else (k, inner) :: wSetdefault r k1 k2 x from rfl]
      by_cases hk : k = k1
      · rw [if_pos (by simpa using hk), List.lookup_cons, List.lookup_cons,
          show (a == k) = false by simp; exact fun h' => h (h' ▸ hk)]
      · rw [if_neg (by simpa using hk), List.lookup_cons, List.lookup_cons]
        by_cases hak : a = k
        · rw [show (a == k) = true by simpa using hak]
        · rw [show (a == k) = false by simpa using hak]
          exact ih

theorem wSetdefault_lookup_self (k1 k2 : Char) (x : Nat) :
    ∀ (w : WTable) (i : List (Char × Nat)), w.lookup k1 = some i →
      (wSetdefault w k1 k2 x).lookup k1 = some (dSetdefault i k2 x) := by
  intro w
  induction w with
  | nil => intro i h; exact Option.noConfusion h
  | cons p r ih =>
    match p with
    | (k, inner) =>
      intro i h
      rw [List.lookup_cons] at h
      rw [show wSetdefault ((k, inner) :: r) k1 k2 x
          = if k == k1 then (k, dSetdefault inner k2 x) :: r
            else (k, inner) :: wSetdefault r k1 k2 x from rfl]
      by_cases hk : k = k1
      · rw [show (k1 == k) = true by simpa using hk.symm] at h
        have hi : inner = i := Option.some.inj h
        subst hi
        rw [if_pos (by simpa using hk), List.lookup_cons,
          show (k1 == k) = true by simpa using hk.symm]
      · rw [show (k1 == k) = false by simp; exact fun h' => hk h'.symm] at h
        rw [if_neg (by simpa using hk), List.lookup_cons,
          show (k1 == k) = false by simp; exact fun h' => hk h'.symm]
        exact ih i h

theorem wSetdefault_none (k1 k2 : Char) (x : Nat) :
    ∀ w : WTable, w.lookup k1 = none → wSetdefault w k1 k2 x = w := by
  intro w
  induction w with
  | nil => intro _; rfl
  | cons p r ih =>
    match p with
    | (k, inner) =>
      intro h
      rw [List.lookup_cons] at h
      rw [show wSetdefault ((k, inner) :: r) k1 k2 x
          = if k == k1 then (k, dSetdefault inner k2 x) :: r
            else (k, inner) :: wSetdefault r k1 k2 x from rfl]
      by_cases hk : k = k1
      · rw [show (k1 == k) = true by simpa using hk.symm] at h
        exact Option.noConfusion h
      · rw [show (k1 == k) = false by simp; exact fun h' => hk h'.symm] at h
        rw [if_neg (by simpa using hk), ih h]

theorem map_fst_wDelInner (k key : Char) :
    ∀ w : WTable, (wDelInner w k key).map Prod.fst = w.map Prod.fst := by
  intro w
  induction w with
  | nil => rfl
  | cons p r ih =>
    match p with
    | (k', inner) =>
      rw [show wDelInner ((k', inner) :: r) k key
          = if k' == k then (k', dDel inner key) :: r
            else (k', inner) :: wDelInner r k key from rfl]
      by_cases hk : k' = k
      · rw [if_pos (by simpa using hk)]; rfl
      · rw [if_neg (by simpa using hk)]
        rw [show ((k', inner) :: wDelInner r k key).map Prod.fst
            = k' :: (wDelInner r k key).map Prod.fst from rfl, ih]
        rfl

theorem wDelInner_lookup_ne (k key : Char) (a : Char) (h : a ≠ k) :
    ∀ w : WTable, (wDelInner w k key).lookup a = w.lookup a := by
  intro w
  induction w with
  | nil => rfl
  | cons p r ih =>
    match p with
    | (k', inner) =>
      rw [show wDelInner ((k', inner) :: r) k key
          = if k' == k then (k', dDel inner key) :: r
            else (k', inner) :: wDelInner r k key from rfl]
      by_cases hk : k' = k
      · rw [if_pos (by simpa using hk), List.lookup_cons, List.lookup_cons,
          show (a == k') = false by simp; exact fun h' => h (h' ▸ hk)]
      · rw [if_neg (by simpa using hk), List.lookup_cons, List.lookup_cons]
        by_cases hak : a = k'
        · rw [show (a == k') = true by simpa using hak]
        · rw [show (a == k') = false by simpa using hak]
          exact ih

theorem wDelInner_lookup_self (k key : Char) :
    ∀ (w : WTable) (i : List (Char × Nat)), w.lookup k = some i →
      (wDelInner w k key).lookup k = some (dDel i key) := by
  intro w
  induction w with
  | nil => intro i h; exact Option.noConfusion h
  | cons p r ih =>
    match p with
    | (k', inner) =>
      intro i h
      rw [List.lookup_cons] at h
      rw [show wDelInner ((k', inner) :: r) k key
          = if k' == k then (k', dDel inner key) :: r
            else (k', inner) :: wDelInner r k key from rfl]
      by_cases hk : k' = k
      · rw [show (k == k') = true by simpa using hk.symm] at h
        have hi : inner = i := Option.some.inj h
        subst hi
        rw [if_pos (by simpa using hk), List.lookup_cons,
          show (k == k') = true by simpa using hk.symm]
      · rw [show (k == k') = false by simp; exact fun h' => hk h'.symm] at h
        rw [if_neg (by simpa using hk), List.lookup_cons,
          show (k == k') = false by simp; exact fun h' => hk h'.symm]
        exact ih i h

theorem wDelInner_none (k key : Char) :
    ∀ w : WTable, w.lookup k = none → wDelInner w k key = w := by
  intro w
  induction w with
  | nil => intro _; rfl
  | cons p r ih =>
    match p with
    | (k', inner) =>
      intro h
      rw [List.lookup_cons] at h
      rw [show wDelInner ((k', inner) :: r) k key
          = if k' == k then (k', dDel inner key) :: r
            else (k', inner) :: wDelInner r k key from rfl]
      by_cases hk : k' = k
      · rw [show (k == k') = true by simpa using hk.symm] at h
        exact Option.noConfusion h
      · rw [show (k == k') = false by simp; exact fun h' => hk h'.symm] at h
        rw [if_neg (by simpa using hk), ih h]

theorem dSetdefault_of_isSome {α β : Type} [BEq α] (l : List (α × β)) (k : α)
    (v : β) (h : (l.lookup k).isSome = true) : dSetdefault l k v = l := by
  unfold dSetdefault
  rw [if_pos h]

theorem wSetdefault_noop (k1 k2 : Char) (x : Nat) :
    ∀ (w : WTable) (i : List (Char × Nat)), w.lookup k1 = some i →
      (i.lookup k2).isSome = true → wSetdefault w k1 k2 x = w := by
  intro w
  induction w with
  | nil => intro i h; exact Option.noConfusion h
  | cons p r ih =>
    match p with
    | (k, inner) =>
      intro i h hs
      rw [List.lookup_cons] at h
      rw [show wSetdefault ((k, inner) :: r) k1 k2 x
          = if k == k1 then (k, dSetdefault inner k2 x) :: r
            else (k, inner) :: wSetdefault r k1 k2 x from rfl]
      by_cases hk : k = k1
      · rw [show (k1 == k) = true by simpa using hk.symm] at h
        have hi : inner = i := Option.some.inj h
        subst hi
        rw [if_pos (by simpa using hk), dSetdefault_of_isSome inner k2 x hs]
      · rw [show (k1 == k) = false by simp; exact fun h' => hk h'.symm] at h
        rw [if_neg (by simpa using hk), ih i h hs]

theorem wGet_wSet (w : WTable) (k1 k2 : Char) (x : Nat) (i : List (Char × Nat))
    (hki : w.lookup k1 = some i) (a b : Char) :
    wGet (wSet w k1 k2 x) a b = if a = k1 ∧ b = k2 then some x else wGet w a b := by
  by_cases ha : a = k1
  · subst ha
    unfold wGet
    rw [wSet_lookup_self a k2 x w i hki, hki]
    by_cases hb : b = k2
    · subst hb
      rw [if_pos ⟨rfl, rfl⟩, Option.some_bind, dInsert_lookup_self]
    · rw [if_neg (fun h => hb h.2), Option.some_bind, Option.some_bind,
        dInsert_lookup_ne i k2 x b hb]
  · rw [if_neg (fun h => ha h.1)]
    unfold wGet
    rw [wSet_lookup_ne k1 k2 x a ha w]

theorem wGet_wSetdefault (w : WTable) (k1 k2 : Char) (x : Nat)
    (i : List (Char × Nat)) (hki : w.lookup k1 = some i) (a b : Char) :
    wGet (wSetdefault w k1 k2 x) a b
      = if a = k1 ∧ b = k2 then some ((i.lookup k2).getD x) else wGet w a b := by
  by_cases ha : a = k1
  · subst ha
    unfold wGet
    rw [wSetdefault_lookup_self a k2 x w i hki, hki]
    by_cases hb : b = k2
    · subst hb
      rw [if_pos ⟨rfl, rfl⟩, Option.some_bind, dSetdefault_lookup_self]
    · rw [if_neg (fun h => hb h.2), Option.some_bind, Option.some_bind,
        dSetdefault_lookup_ne i k2 x b hb]
  · rw [if_neg (fun h => ha h.1)]
    unfold wGet
    rw [wSetdefault_lookup_ne k1 k2 x a ha w]

theorem wGet_outer_setdefault (w : WTable) (k : Char) (a b : Char) :
    wGet (dSetdefault w k [(k, 0)]) a b
      = if w.lookup k = none ∧ a = k ∧ b = k then some 0 else wGet w a b := by
  by_cases hS : (w.lookup k).isSome = true
  · rw [dSetdefault_of_isSome w k [(k, 0)] hS, if_neg]
    rintro ⟨hnone, -, -⟩
    rw [hnone] at hS
    exact Bool.noConfusion hS
  · have hnone : w.lookup k = none := by
      match hv : w.lookup k with
      | none => rfl
      | some v' => rw [hv] at hS; exact absurd rfl hS
    by_cases ha : a = k
    · subst ha
      unfold wGet
      rw [dSetdefault_lookup_self w a [(a, 0)], hnone, Option.some_bind,
        Option.none_bind]
      by_cases hb : b = a
      · subst hb
        rw [if_pos ⟨rfl, rfl, rfl⟩,
          show Option.getD (none : Option (List (Char × Nat))) [(b, 0)]
            = [(b, 0)] from rfl,
          List.lookup_cons, show (b == b) = true by simp]
      · rw [if_neg (fun h => hb h.2.2),
          show Option.getD (none : Option (List (Char × Nat))) [(a, 0)]
            = [(a, 0)] from rfl,
          List.lookup_cons, show (b == a) = false by simpa using hb]
        rfl
    · rw [if_neg (fun h => ha h.2.1)]
      unfold wGet
      rw [dSetdefault_lookup_ne w k [(k, 0)] a ha]

theorem wGet_outer_insert (w : WTable) (k : Char) (a b : Char) :
    wGet (dInsert w k [(k, 0)]) a b
      = if a = k then (if b = k then some 0 else none) else wGet w a b := by
  by_cases ha : a = k
  · subst ha
    unfold wGet
    rw [if_pos rfl, dInsert_lookup_self, Option.some_bind]
    by_cases hb : b = a
    · subst hb
      rw [if_pos rfl, List.lookup_cons, show (b == b) = true by simp]
    · rw [if_neg hb, List.lookup_cons, show (b == a) = false by simpa using hb]
      rfl
  · rw [if_neg ha]
    unfold wGet
    rw [dInsert_lookup_ne w k [(k, 0)] a ha]

theorem wGet_wDelInner (w : WTable) (k key : Char)
    (hN : ∀ i, w.lookup k = some i → (i.map Prod.fst).Nodup) (a b : Char) :
    wGet (wDelInner w k key) a b
      = if a = k ∧ b = key then none else wGet w a b := by
  by_cases ha : a = k
  · subst ha
    match hv : w.lookup a with
    | none =>
      rw [wDelInner_none a key w hv]
      have hz : wGet w a b = none := by
        unfold wGet
        rw [hv]
        rfl
      rw [hz]
      by_cases hb : b = key
      · rw [if_pos ⟨rfl, hb⟩]
      · rw [if_neg (fun h => hb h.2)]
    | some i =>
      unfold wGet
      rw [wDelInner_lookup_self a key w i hv, hv, Option.some_bind, Option.some_bind]
      by_cases hb : b = key
      · subst hb
        rw [if_pos ⟨rfl, rfl⟩, dDel_lookup_self i b (hN i hv)]
      · rw [if_neg (fun h => hb h.2), dDel_lookup_ne i key b hb]
  · rw [if_neg (fun h => ha h.1)]
    unfold wGet
    rw [wDelInner_lookup_ne k key a ha w]

theorem wDelInner_nodup_pres (w : WTable) (k key : Char)
    (hN : ∀ k' i, w.lookup k' = some i → (i.map Prod.fst).Nodup) :
    ∀ k' i, (wDelInner w k key).lookup k' = some i → (i.map Prod.fst).Nodup := by
  intro k' i h
  by_cases hk : k' = k
  · subst hk
    match hv : w.lookup k' with
    | none =>
      rw [wDelInner_none k' key w hv, hv] at h
      exact Option.noConfusion h
    | some j =>
      rw [wDelInner_lookup_self k' key w j hv] at h
      have hi : dDel j key = i := Option.some.inj h
      subst hi
      exact nodup_map_fst_dDel j key (hN k' j hv)
  · rw [wDelInner_lookup_ne k key k' hk w] at h
    exact hN k' i h

theorem map_fst_delInner (key : Char) :
    ∀ (neigh : List Char) (w : WTable),
      (delInner key neigh w).map Prod.fst = w.map Prod.fst := by
  intro neigh
  induction neigh with
  | nil => intro w; rfl
  | cons k rest ih =>
    intro w
    rw [show delInner key (k :: rest) w = delInner key rest (wDelInner w k key)
      from rfl, ih, map_fst_wDelInner]

theorem delInner_wGet (key : Char) :
    ∀ (neigh : List Char) (w : WTable),
      (∀ k i, w.lookup k = some i → (i.map Prod.fst).Nodup) →
      ∀ a b, wGet (delInner key neigh w) a b
        = if a ∈ neigh ∧ b = key then none else wGet w a b := by
  intro neigh
  induction neigh with
  | nil =>
    intro w _ a b
    rw [show delInner key ([] : List Char) w = w from rfl,
      if_neg (fun h => List.not_mem_nil a h.1)]
  | cons k rest ih =>
    intro w hN a b
    rw [show delInner key (k :: rest) w = delInner key rest (wDelInner w k key)
      from rfl, ih (wDelInner w k key) (wDelInner_nodup_pres w k key hN) a b,
      wGet_wDelInner w k key (hN k) a b]
    by_cases hb : b = key
    · subst hb
      by_cases har : a ∈ rest
      · rw [if_pos ⟨har, rfl⟩, if_pos ⟨List.mem_cons_of_mem k har, rfl⟩]
      · rw [if_neg (fun h => har h.1)]
        by_cases hak : a = k
        · rw [if_pos ⟨hak, rfl⟩, if_pos ⟨hak ▸ List.mem_cons_self a rest, rfl⟩]
        · rw [if_neg (fun h => hak h.1), if_neg]
          rintro ⟨hm, -⟩
          rcases List.mem_cons.mp hm with h' | h'
          · exact hak h'
          · exact har h'
    · rw [if_neg (fun h => hb h.2), if_neg (fun h => hb h.2),
        if_neg (fun h => hb h.2)]

theorem delInner_nodup_pres (key : Char) :
    ∀ (neigh : List Char) (w : WTable),
      (∀ k i, w.lookup k = some i → (i.map Prod.fst).Nodup) →
      ∀ k i, (delInner key neigh w).lookup k = some i → (i.map Prod.fst).Nodup := by
  intro neigh
  induction neigh with
  | nil => intro w hN; exact hN
  | cons k rest ih =>
    intro w hN
    exact ih (wDelInner w k key) (wDelInner_nodup_pres w k key hN)

theorem lookup_isSome_wSet (w : WTable) (k1 k2 : Char) (x : Nat) (a : Char) :
    ((wSet w k1 k2 x).lookup a).isSome = true ↔ (w.lookup a).isSome = true := by
  rw [lookup_isSome_iff_mem, lookup_isSome_iff_mem, map_fst_wSet]

theorem lookup_isSome_wSetdefault (w : WTable) (k1 k2 : Char) (x : Nat) (a : Char) :
    ((wSetdefault w k1 k2 x).lookup a).isSome = true
      ↔ (w.lookup a).isSome = true := by
  rw [lookup_isSome_iff_mem, lookup_isSome_iff_mem, map_fst_wSetdefault]

theorem lookup_isSome_wDelInner (w : WTable) (k key : Char) (a : Char) :
    ((wDelInner w k key).lookup a).isSome = true ↔ (w.lookup a).isSome = true := by
  rw [lookup_isSome_iff_mem, lookup_isSome_iff_mem, map_fst_wDelInner]

theorem lookup_isSome_delInner (key : Char) (neigh : List Char) (w : WTable)
    (a : Char) :
    ((delInner key neigh w).lookup a).isSome = true
      ↔ (w.lookup a).isSome = true := by
  rw [lookup_isSome_iff_mem, lookup_isSome_iff_mem, map_fst_delInner]

theorem dSetdefault_lookup_mono {α β : Type} [BEq α] [LawfulBEq α]
    (l : List (α × β)) (k : α) (v : β) (a : α)
    (h : (l.lookup a).isSome = true) :
    ((dSetdefault l k v).lookup a).isSome = true := by
  rw [lookup_isSome_iff_mem] at h ⊢
  exact (mem_map_fst_dSetdefault l k v a).mpr (Or.inr h)

theorem stepB_wGet (w : WTable) (ki kii : Char) (x : Nat) (i : List (Char × Nat))
    (hki : w.lookup ki = some i) (hne : ki ≠ kii) (a b : Char) :
    wGet (wSet (dSetdefault (wSet w ki kii x) kii [(kii, 0)]) kii ki x) a b
      = if a = kii ∧ b = ki then some x
        else if w.lookup kii = none ∧ a = kii ∧ b = kii then some 0
        else if a = ki ∧ b = kii then some x
        else wGet w a b := by
  have h1k : (wSet w ki kii x).lookup kii = w.lookup kii :=
    wSet_lookup_ne ki kii x kii (fun h => hne h.symm) w
  have h2self : (dSetdefault (wSet w ki kii x) kii [(kii, 0)]).lookup kii
      = some (((wSet w ki kii x).lookup kii).getD [(kii, 0)]) :=
    dSetdefault_lookup_self (wSet w ki kii x) kii [(kii, 0)]
  rw [wGet_wSet _ kii ki x _ h2self a b,
    wGet_outer_setdefault (wSet w ki kii x) kii a b,
    wGet_wSet w ki kii x i hki a b, h1k]

theorem stepB_lookup_isSome (w : WTable) (ki kii : Char) (x : Nat) (a : Char) :
    ((wSet (dSetdefault (wSet w ki kii x) kii [(kii, 0)]) kii ki x).lookup a).isSome
        = true
      ↔ a = kii ∨ (w.lookup a).isSome = true := by
  rw [lookup_isSome_iff_mem, map_fst_wSet, mem_map_fst_dSetdefault, map_fst_wSet,
    lookup_isSome_iff_mem]

theorem stepC_wGet (w : WTable) (k key : Char) (x : Nat)
    (ik ikey : List (Char × Nat)) (hk : w.lookup k = some ik)
    (hkey : w.lookup key = some ikey) (hne : k ≠ key) (a b : Char) :
    wGet (wSetdefault (dSetdefault (wSetdefault w k key x) key [(key, 0)]) key k x)
        a b
      = if a = key ∧ b = k then some ((ikey.lookup k).getD x)
        else if a = k ∧ b = key then some ((ik.lookup key).getD x)
        else wGet w a b := by
  have h1key : (wSetdefault w k key x).lookup key = some ikey := by
    rw [wSetdefault_lookup_ne k key x key (fun h => hne h.symm) w]
    exact hkey
  have h2 : dSetdefault (wSetdefault w k key x) key [(key, 0)]
      = wSetdefault w k key x :=
    dSetdefault_of_isSome _ key [(key, 0)] (by rw [h1key]; rfl)
  rw [h2, wGet_wSetdefault _ key k x ikey h1key a b,
    wGet_wSetdefault w k key x ik hk a b]

theorem stepC_diag_eq (w : WTable) (key : Char) (x : Nat)
    (ikey : List (Char × Nat)) (hkey : w.lookup key = some ikey)
    (hdiag : wGet w key key = some 0) :
    wSetdefault (dSetdefault (wSetdefault w key key x) key [(key, 0)]) key key x
      = w := by
  have hik : (ikey.lookup key).isSome = true := by
    unfold wGet at hdiag
    rw [hkey, Option.some_bind] at hdiag
    rw [hdiag]
    rfl
  have h1 : wSetdefault w key key x = w := wSetdefault_noop key key x w ikey hkey hik
  rw [h1, dSetdefault_of_isSome w key [(key, 0)] (by rw [hkey]; rfl), h1]

theorem stepC_lookup_isSome (w : WTable) (k key : Char) (x : Nat) (a : Char) :
    ((wSetdefault (dSetdefault (wSetdefault w k key x) key [(key, 0)]) key k
        x).lookup a).isSome = true
      ↔ a = key ∨ (w.lookup a).isSome = true := by
  rw [lookup_isSome_iff_mem, map_fst_wSetdefault, mem_map_fst_dSetdefault,
    map_fst_wSetdefault, lookup_isSome_iff_mem]

theorem stepB_WState (keys : List (Char × (ℚ × ℚ))) (w : WTable) (ki kii : Char)
    (x : Nat) (i : List (Char × Nat)) (hki : w.lookup ki = some i) (hne : ki ≠ kii)
    (hmki : (keys.lookup ki).isSome = true) (hmkii : (keys.lookup kii).isSome = true)
    (hW : WState keys w) :
    WState keys (wSet (dSetdefault (wSet w ki kii x) kii [(kii, 0)]) kii ki x) := by
  obtain ⟨hnd, hinner, hsymm, hdiag, hrefs⟩ := hW
  have hG := stepB_wGet w ki kii x i hki hne
  have hL := stepB_lookup_isSome w ki kii x
  refine ⟨?_, ?_, ?_, ?_, ?_⟩
  · rw [map_fst_wSet]
    exact nodup_map_fst_dSetdefault _ kii [(kii, 0)]
      (by rw [map_fst_wSet ki kii x w]; exact hnd)
  · intro c j hcj
    by_cases hc : c = kii
    · have h2self := dSetdefault_lookup_self (wSet w ki kii x) kii [(kii, 0)]
      rw [hc, wSet_lookup_self kii ki x _ _ h2self] at hcj
      have hj := Option.some.inj hcj
      subst hj
      apply nodup_map_fst_dInsert
      rw [wSet_lookup_ne ki kii x kii (fun h => hne h.symm) w]
      match hv : w.lookup kii with
      | some v =>
        rw [Option.getD_some]
        exact hinner kii v hv
      | none =>
        rw [Option.getD_none]
        simp
    · rw [wSet_lookup_ne kii ki x c hc,
        dSetdefault_lookup_ne (wSet w ki kii x) kii [(kii, 0)] c hc] at hcj
      by_cases hck : c = ki
      · rw [hck, wSet_lookup_self ki kii x w i hki] at hcj
        have hj := Option.some.inj hcj
        subst hj
        exact nodup_map_fst_dInsert i kii x (hinner ki i hki)
      · rw [wSet_lookup_ne ki kii x c hck w] at hcj
        exact hinner c j hcj
  · intro a b
    rw [hG a b, hG b a]
    by_cases hab : a = b
    · subst hab
      rfl
    · by_cases hA : a = kii ∧ b = ki
      · obtain ⟨ha, hb⟩ := hA
        rw [if_pos ⟨ha, hb⟩, if_neg (fun h => hne (hb.symm.trans h.1)),
          if_neg (fun h => hne (hb.symm.trans h.2.1)), if_pos ⟨hb, ha⟩]
      · by_cases hC : a = ki ∧ b = kii
        · obtain ⟨ha, hb⟩ := hC
          rw [if_neg hA, if_neg (fun h => hne (ha.symm.trans h.2.1)),
            if_pos ⟨ha, hb⟩, if_pos ⟨hb, ha⟩]
        · rw [if_neg hA, if_neg (fun h => hab (h.2.1.trans h.2.2.symm)), if_neg hC,
            if_neg (fun h => hC ⟨h.2, h.1⟩),
            if_neg (fun h => hab (h.2.2.trans h.2.1.symm)),
            if_neg (fun h => hA ⟨h.2, h.1⟩)]
          exact hsymm a b
  · intro c hc
    rw [hG c c]
    by_cases hck : c = kii
    · by_cases hn : w.lookup kii = none
      · rw [if_neg (fun h => hne (h.2.symm.trans h.1)), if_pos ⟨hn, hck, hck⟩]
      · rw [if_neg (fun h => hne (h.2.symm.trans h.1)), if_neg (fun h => hn h.1),
          if_neg (fun h => hne (h.1.symm.trans h.2))]
        apply hdiag
        have hcn : w.lookup c ≠ none := by
          rw [hck]
          exact hn
        exact Option.ne_none_iff_isSome.mp hcn
    · rw [if_neg (fun h => hne (h.2.symm.trans h.1)), if_neg (fun h => hck h.2.1),
        if_neg (fun h => hck h.2)]
      apply hdiag
      rcases (hL c).mp hc with h' | h'
      · exact absurd h' hck
      · exact h'
  · intro a b hab
    by_cases hA : a = kii ∧ b = ki
    · exact ⟨by rw [hA.1]; exact hmkii, by rw [hA.2]; exact hmki⟩
    · by_cases hB : w.lookup kii = none ∧ a = kii ∧ b = kii
      · exact ⟨by rw [hB.2.1]; exact hmkii, by rw [hB.2.2]; exact hmkii⟩
      · by_cases hC : a = ki ∧ b = kii
        · exact ⟨by rw [hC.1]; exact hmki, by rw [hC.2]; exact hmkii⟩
        · rw [hG a b, if_neg hA, if_neg hB, if_neg hC] at hab
          exact hrefs a b hab

theorem stepC_WState (keys2 : List (Char × (ℚ × ℚ))) (w : WTable) (k key : Char)
    (x : Nat) (ik ikey : List (Char × Nat)) (hk : w.lookup k = some ik)
    (hkey : w.lookup key = some ikey) (hkk : k ≠ key)
    (hmk : (keys2.lookup k).isSome = true) (hmkey : (keys2.lookup key).isSome = true)
    (hW : WState keys2 w) :
    WState keys2
      (wSetdefault (dSetdefault (wSetdefault w k key x) key [(key, 0)]) key k x) := by
  obtain ⟨hnd, hinner, hsymm, hdiag, hrefs⟩ := hW
  have hG := stepC_wGet w k key x ik ikey hk hkey hkk
  have hL := stepC_lookup_isSome w k key x
  have h1key : (wSetdefault w k key x).lookup key = some ikey := by
    rw [wSetdefault_lookup_ne k key x key (fun h => hkk h.symm) w]
    exact hkey
  have h2 : dSetdefault (wSetdefault w k key x) key [(key, 0)]
      = wSetdefault w k key x :=
    dSetdefault_of_isSome _ key [(key, 0)] (by rw [h1key]; rfl)
  have hv : ikey.lookup k = ik.lookup key := by
    have e1 : wGet w key k = ikey.lookup k := by
      unfold wGet
      rw [hkey, Option.some_bind]
    have e2 : wGet w k key = ik.lookup key := by
      unfold wGet
      rw [hk, Option.some_bind]
    exact e1.symm.trans ((hsymm key k).trans e2)
  refine ⟨?_, ?_, ?_, ?_, ?_⟩
  · rw [map_fst_wSetdefault, h2, map_fst_wSetdefault]
    exact hnd
  · intro c j hcj
    rw [h2] at hcj
    by_cases hc : c = key
    · rw [hc, wSetdefault_lookup_self key k x _ ikey h1key] at hcj
      have hj := Option.some.inj hcj
      subst hj
      exact nodup_map_fst_dSetdefault ikey k x (hinner key ikey hkey)
    · rw [wSetdefault_lookup_ne key k x c hc] at hcj
      by_cases hck : c = k
      · rw [hck, wSetdefault_lookup_self k key x w ik hk] at hcj
        have hj := Option.some.inj hcj
        subst hj
        exact nodup_map_fst_dSetdefault ik key x (hinner k ik hk)
      · rw [wSetdefault_lookup_ne k key x c hck w] at hcj
        exact hinner c j hcj
  · intro a b
    rw [hG a b, hG b a]
    by_cases hab : a = b
    · subst hab
      rfl
    · by_cases hA : a = key ∧ b = k
      · obtain ⟨ha, hb⟩ := hA
        rw [if_pos ⟨ha, hb⟩, if_neg (fun h => hkk (hb.symm.trans h.1)),
          if_pos ⟨hb, ha⟩, hv]
      · by_cases hC : a = k ∧ b = key
        · obtain ⟨ha, hb⟩ := hC
          rw [if_neg hA, if_pos ⟨ha, hb⟩, if_pos ⟨hb, ha⟩, hv]
        · rw [if_neg hA, if_neg hC, if_neg (fun h => hC ⟨h.2, h.1⟩),
            if_neg (fun h => hA ⟨h.2, h.1⟩)]
          exact hsymm a b
  · intro c hc
    rw [hG c c]
    rw [if_neg (fun h => hkk (h.2.symm.trans h.1)),
      if_neg (fun h => hkk (h.1.symm.trans h.2))]
    apply hdiag
    rcases (hL c).mp hc with h' | h'
    · rw [h', hkey]
      rfl
    · exact h'
  · intro a b hab
    by_cases hA : a = key ∧ b = k
    · exact ⟨by rw [hA.1]; exact hmkey, by rw [hA.2]; exact hmk⟩
    · by_cases hC : a = k ∧ b = key
      · exact ⟨by rw [hC.1]; exact hmk, by rw [hC.2]; exact hmkey⟩
      · rw [hG a b, if_neg hA, if_neg hC] at hab
        exact hrefs a b hab

theorem dSetdefault_row_WState (keys : List (Char × (ℚ × ℚ))) (w : WTable)
    (k : Char) (hW : WState keys w) (hmk : (keys.lookup k).isSome = true) :
    WState keys (dSetdefault w k [(k, 0)]) := by
  obtain ⟨hnd, hinner, hsymm, hdiag, hrefs⟩ := hW
  have hG := wGet_outer_setdefault w k
  refine ⟨nodup_map_fst_dSetdefault w k [(k, 0)] hnd, ?_, ?_, ?_, ?_⟩
  · intro c j hcj
    by_cases hc : c = k
    · rw [hc, dSetdefault_lookup_self w k [(k, 0)]] at hcj
      have hj := Option.some.inj hcj
      subst hj
      match hv : w.lookup k with
      | some v =>
        rw [Option.getD_some]
        exact hinner k v hv
      | none =>
        rw [Option.getD_none]
        simp
    · rw [dSetdefault_lookup_ne w k [(k, 0)] c hc] at hcj
      exact hinner c j hcj
  · intro a b
    rw [hG a b, hG b a]
    by_cases hab : a = b
    · subst hab
      rfl
    · rw [if_neg (fun h => hab (h.2.1.trans h.2.2.symm)),
        if_neg (fun h => hab (h.2.2.trans h.2.1.symm))]
      exact hsymm a b
  · intro c hc
    rw [hG c c]
    by_cases hck : c = k
    · by_cases hn : w.lookup k = none
      · rw [if_pos ⟨hn, hck, hck⟩]
      · rw [if_neg (fun h => hn h.1)]
        apply hdiag
        have hcn : w.lookup c ≠ none := by
          rw [hck]
          exact hn
        exact Option.ne_none_iff_isSome.mp hcn
    · rw [if_neg (fun h => hck h.2.1)]
      apply hdiag
      rw [dSetdefault_lookup_ne w k [(k, 0)] c hck] at hc
      exact hc
  · intro a b hab
    by_cases hB : w.lookup k = none ∧ a = k ∧ b = k
    · exact ⟨by rw [hB.2.1]; exact hmk, by rw [hB.2.2]; exact hmk⟩
    · rw [hG a b, if_neg hB] at hab
      exact hrefs a b hab

theorem initPairs_lookup_mono (ki : Char) (ci : ℚ × ℚ) :
    ∀ (rest : List (Char × (ℚ × ℚ))) (w : WTable) (a : Char),
      (w.lookup a).isSome = true →
      ((initPairs ki ci rest w).lookup a).isSome = true := by
  intro rest
  induction rest with
  | nil => intro w a h; exact h
  | cons p r ih =>
    match p with
    | (kii, cii) =>
      intro w a h
      rw [show initPairs ki ci ((kii, cii) :: r) w
          = if ecost ci cii > 1 then initPairs ki ci r w
            else initPairs ki ci r
              (wSet (dSetdefault (wSet w ki kii (ecost ci cii)) kii [(kii, 0)]) kii
                ki (ecost ci cii)) from rfl]
      by_cases hw : ecost ci cii > 1
      · rw [if_pos hw]
        exact ih w a h
      · rw [if_neg hw]
        exact ih _ a ((stepB_lookup_isSome w ki kii (ecost ci cii) a).mpr (Or.inr h))

theorem initPairs_WState (keys : List (Char × (ℚ × ℚ))) (ki : Char) (ci : ℚ × ℚ) :
    ∀ (rest : List (Char × (ℚ × ℚ))) (w : WTable),
      WState keys w → (w.lookup ki).isSome = true →
      (keys.lookup ki).isSome = true →
      (∀ kii, kii ∈ rest.map Prod.fst →
        (keys.lookup kii).isSome = true ∧ kii ≠ ki) →
      WState keys (initPairs ki ci rest w) := by
  intro rest
  induction rest with
  | nil => intro w hW _ _ _; exact hW
  | cons p r ih =>
    match p with
    | (kii, cii) =>
      intro w hW hrow hmki hrest
      rw [show initPairs ki ci ((kii, cii) :: r) w
          = if ecost ci cii > 1 then initPairs ki ci r w
            else initPairs ki ci r
              (wSet (dSetdefault (wSet w ki kii (ecost ci cii)) kii [(kii, 0)]) kii
                ki (ecost ci cii)) from rfl]
      by_cases hw : ecost ci cii > 1
      · rw [if_pos hw]
        exact ih w hW hrow hmki
          (fun c hc => hrest c (by rw [List.map_cons]; exact List.mem_cons_of_mem _ hc))
      · rw [if_neg hw]
        have hhead := hrest kii (by rw [List.map_cons]; exact List.mem_cons_self _ _)
        obtain ⟨i, hki⟩ := Option.isSome_iff_exists.mp hrow
        have hW2 := stepB_WState keys w ki kii (ecost ci cii) i hki hhead.2.symm
          hmki hhead.1 hW
        exact ih _ hW2
          ((stepB_lookup_isSome w ki kii (ecost ci cii) ki).mpr (Or.inr hrow)) hmki
          (fun c hc => hrest c (by rw [List.map_cons]; exact List.mem_cons_of_mem _ hc))

theorem initLoop_WState (keys : List (Char × (ℚ × ℚ))) :
    ∀ (rest : List (Char × (ℚ × ℚ))) (w : WTable),
      WState keys w →
      (∀ p, p ∈ rest → (keys.lookup p.1).isSome = true) →
      (rest.map Prod.fst).Nodup →
      WState keys (initLoop rest w) := by
  intro rest
  induction rest with
  | nil => intro w hW _ _; exact hW
  | cons p r ih =>
    match p with
    | (ki, ci) =>
      intro w hW hmem hnd
      rw [show initLoop ((ki, ci) :: r) w
          = initLoop r (initPairs ki ci r (dSetdefault w ki [(ki, 0)])) from rfl]
      have hmki : (keys.lookup ki).isSome = true := hmem (ki, ci) (List.mem_cons_self _ _)
      have hW1 := dSetdefault_row_WState keys w ki hW hmki
      have hrow : ((dSetdefault w ki [(ki, 0)]).lookup ki).isSome = true := by
        rw [dSetdefault_lookup_self w ki [(ki, 0)]]
        rfl
      rw [List.map_cons, List.nodup_cons] at hnd
      have hW2 := initPairs_WState keys ki ci r _ hW1 hrow hmki
        (fun kii hkii => by
          obtain ⟨q, hq, hq2⟩ := List.mem_map.mp hkii
          exact ⟨hq2 ▸ hmem q (List.mem_cons_of_mem _ hq), fun he => hnd.1 (he ▸ hkii)⟩)
      exact ih _ hW2 (fun q hq => hmem q (List.mem_cons_of_mem _ hq)) hnd.2

theorem initLoop_dom :
    ∀ (rest : List (Char × (ℚ × ℚ))) (w : WTable) (a : Char),
      (a ∈ rest.map Prod.fst ∨ (w.lookup a).isSome = true) →
      ((initLoop rest w).lookup a).isSome = true := by
  intro rest
  induction rest with
  | nil =>
    intro w a h
    rcases h with h | h
    · exact absurd h (List.not_mem_nil a)
    · exact h
  | cons p r ih =>
    match p with
    | (ki, ci) =>
      intro w a h
      rw [show initLoop ((ki, ci) :: r) w
          = initLoop r (initPairs ki ci r (dSetdefault w ki [(ki, 0)])) from rfl]
      rcases h with h | h
      · rw [List.map_cons, List.mem_cons] at h
        rcases h with h | h
        · apply ih _ a (Or.inr _)
          apply initPairs_lookup_mono ki ci r _ a
          rw [h, dSetdefault_lookup_self w ki [(ki, 0)]]
          rfl
        · exact ih _ a (Or.inl h)
      · apply ih _ a (Or.inr _)
        apply initPairs_lookup_mono ki ci r _ a
        exact dSetdefault_lookup_mono w ki [(ki, 0)] a h

theorem KInv_init (init : List (Char × (ℚ × ℚ)))
    (hnd : (init.map Prod.fst).Nodup) : KInv (Keyboard.init init) := by
  have hW0 : WState init ([] : WTable) := by
    refine ⟨List.nodup_nil, ?_, ?_, ?_, ?_⟩
    · intro k i h
      exact Option.noConfusion h
    · intro a b
      rfl
    · intro k h
      exact Bool.noConfusion h
    · intro a b h
      exact Bool.noConfusion h
  have hWS := initLoop_WState init init [] hW0
    (fun p hp => (lookup_isSome_iff_mem _ _).mpr (List.mem_map_of_mem Prod.fst hp)) hnd
  refine ⟨hnd, hWS.1, hWS.2.1, hWS.2.2.1, hWS.2.2.2.1, hWS.2.2.2.2, ?_⟩
  intro k hk
  exact initLoop_dom init [] k (Or.inl ((lookup_isSome_iff_mem _ _).mp hk))

theorem addLoop_WState (keys2 : List (Char × (ℚ × ℚ))) (key : Char) (c : ℚ × ℚ) :
    ∀ (l : List (Char × (ℚ × ℚ))) (w : WTable),
      WState keys2 w →
      (w.lookup key).isSome = true →
      (keys2.lookup key).isSome = true →
      (∀ a, (keys2.lookup a).isSome = true → (w.lookup a).isSome = true) →
      (∀ p, p ∈ l → (keys2.lookup p.1).isSome = true) →
      WState keys2 (addLoop key c l w) ∧
      (∀ a, (keys2.lookup a).isSome = true →
        ((addLoop key c l w).lookup a).isSome = true) := by
  intro l
  induction l with
  | nil => intro w hW _ _ hdom _; exact ⟨hW, hdom⟩
  | cons p r ih =>
    match p with
    | (k, ck) =>
      intro w hW hrowkey hmkey hdom hmem
      rw [show addLoop key c ((k, ck) :: r) w
          = if ecost ck c > 1 then addLoop key c r w
            else addLoop key c r
              (wSetdefault (dSetdefault (wSetdefault w k key (ecost ck c)) key
                [(key, 0)]) key k (ecost ck c)) from rfl]
      by_cases hw : ecost ck c > 1
      · rw [if_pos hw]
        exact ih w hW hrowkey hmkey hdom (fun q hq => hmem q (List.mem_cons_of_mem _ hq))
      · rw [if_neg hw]
        have hmk : (keys2.lookup k).isSome = true :=
          hmem (k, ck) (List.mem_cons_self _ _)
        obtain ⟨ik, hk⟩ := Option.isSome_iff_exists.mp (hdom k hmk)
        obtain ⟨ikey, hkey⟩ := Option.isSome_iff_exists.mp hrowkey
        by_cases hkk : k = key
        · have hdg : wGet w key key = some 0 := (hW.2.2.2.1) key hrowkey
          rw [hkk, stepC_diag_eq w key (ecost ck c) ikey hkey hdg]
          exact ih w hW hrowkey hmkey hdom
            (fun q hq => hmem q (List.mem_cons_of_mem _ hq))
        · have hW2 := stepC_WState keys2 w k key (ecost ck c) ik ikey hk hkey hkk
            hmk hmkey hW
          exact ih _ hW2
            ((stepC_lookup_isSome w k key (ecost ck c) key).mpr (Or.inl rfl)) hmkey
            (fun a ha => (stepC_lookup_isSome w k key (ecost ck c) a).mpr
              (Or.inr (hdom a ha)))
            (fun q hq => hmem q (List.mem_cons_of_mem _ hq))

theorem add_key_KInv (kb : Keyboard) (key : Char) (c : ℚ × ℚ) (kb2 : Keyboard)
    (hI : KInv kb) (h : kb.add_key key c = Except.ok kb2) : KInv kb2 := by
  obtain ⟨hknd, hwnd, hinner, hsymm, hdiag, hrefs, hdom⟩ := hI
  unfold Keyboard.add_key at h
  by_cases habs : (kb.keys.lookup key).isSome = true
  · rw [if_pos habs] at h
    exact Except.noConfusion h
  · rw [if_neg habs] at h
    have he := Except.ok.inj h
    subst he
    have hz : ∀ b, wGet kb.keysWeight key b = none := by
      intro b
      match hv : wGet kb.keysWeight key b with
      | none => rfl
      | some v => exact absurd ((hrefs key b (by rw [hv]; rfl)).1) habs
    have hz2 : ∀ a, wGet kb.keysWeight a key = none :=
      fun a => (hsymm a key).trans (hz a)
    have hG0 := wGet_outer_insert kb.keysWeight key
    have hW0 : WState (dInsert kb.keys key c)
        (dInsert kb.keysWeight key [(key, 0)]) := by
      refine ⟨nodup_map_fst_dInsert kb.keysWeight key [(key, 0)] hwnd, ?_, ?_, ?_, ?_⟩
      · intro d j hdj
        by_cases hd : d = key
        · rw [hd, dInsert_lookup_self kb.keysWeight key [(key, 0)]] at hdj
          have hj := Option.some.inj hdj
          subst hj
          simp
        · rw [dInsert_lookup_ne kb.keysWeight key [(key, 0)] d hd] at hdj
          exact hinner d j hdj
      · intro a b
        rw [hG0 a b, hG0 b a]
        by_cases hab : a = b
        · subst hab
          rfl
        · by_cases ha : a = key
          · rw [if_pos ha, if_neg (fun h' => hab (ha.trans h'.symm)),
              if_neg (fun h' => hab (ha.trans h'.symm))]
            rw [show wGet kb.keysWeight b a = none from ha ▸ hz2 b]
          · rw [if_neg ha]
            by_cases hb : b = key
            · rw [if_pos hb, if_neg (fun h' => ha h')]
              rw [show wGet kb.keysWeight a b = none from hb ▸ hz2 a]
            · rw [if_neg hb]
              exact hsymm a b
      · intro d hd
        rw [hG0 d d]
        by_cases hdk : d = key
        · rw [if_pos hdk, if_pos hdk]
        · rw [if_neg hdk]
          apply hdiag
          rw [dInsert_lookup_ne kb.keysWeight key [(key, 0)] d hdk] at hd
          exact hd
      · intro a b hab
        rw [hG0 a b] at hab
        by_cases ha : a = key
        · rw [if_pos ha] at hab
          by_cases hb : b = key
          · rw [if_pos hb] at hab
            constructor
            · rw [ha, dInsert_lookup_self kb.keys key c]
              rfl
            · rw [hb, dInsert_lookup_self kb.keys key c]
              rfl
          · rw [if_neg hb] at hab
            exact Bool.noConfusion hab
        · rw [if_neg ha] at hab
          have hold := hrefs a b hab
          have hbk : b ≠ key := by
            intro hb
            rw [hb] at hab
            rw [hz2 a] at hab
            exact Bool.noConfusion hab
          constructor
          · rw [dInsert_lookup_ne kb.keys key c a ha]
            exact hold.1
          · rw [dInsert_lookup_ne kb.keys key c b hbk]
            exact hold.2
    have hdom0 : ∀ a, ((dInsert kb.keys key c).lookup a).isSome = true →
        ((dInsert kb.keysWeight key [(key, 0)]).lookup a).isSome = true := by
      intro a ha
      by_cases hak : a = key
      · rw [hak, dInsert_lookup_self kb.keysWeight key [(key, 0)]]
        rfl
      · rw [dInsert_lookup_ne kb.keys key c a hak] at ha
        rw [dInsert_lookup_ne kb.keysWeight key [(key, 0)] a hak]
        exact hdom a ha
    have hrowkey : ((dInsert kb.keysWeight key [(key, 0)]).lookup key).isSome
        = true := by
      rw [dInsert_lookup_self kb.keysWeight key [(key, 0)]]
      rfl
    have hmkey : ((dInsert kb.keys key c).lookup key).isSome = true := by
      rw [dInsert_lookup_self kb.keys key c]
      rfl
    have hfin := addLoop_WState (dInsert kb.keys key c) key c (dInsert kb.keys key c)
      (dInsert kb.keysWeight key [(key, 0)]) hW0 hrowkey hmkey hdom0
      (fun p hp => (lookup_isSome_iff_mem _ _).mpr (List.mem_map_of_mem Prod.fst hp))
    exact ⟨nodup_map_fst_dInsert kb.keys key c hknd, hfin.1.1, hfin.1.2.1,
      hfin.1.2.2.1, hfin.1.2.2.2.1, hfin.1.2.2.2.2, hfin.2⟩

theorem del_key_KInv (kb : Keyboard) (key : Char) (kb2 : Keyboard)
    (hI : KInv kb) (h : kb.del_key key = Except.ok kb2) : KInv kb2 := by
  obtain ⟨hknd, hwnd, hinner, hsymm, hdiag, hrefs, hdom⟩ := hI
  unfold Keyboard.del_key at h
  by_cases hpres : (kb.keys.lookup key).isSome = true
  · rw [if_pos hpres] at h
    have he := Except.ok.inj h
    subst he
    obtain ⟨ikey, hkey⟩ := Option.isSome_iff_exists.mp (hdom key hpres)
    have hGd := delInner_wGet key
      (((kb.keysWeight.lookup key).getD []).map Prod.fst) kb.keysWeight hinner
    have hnu : ((delInner key (((kb.keysWeight.lookup key).getD []).map Prod.fst)
        kb.keysWeight).map Prod.fst).Nodup := by
      rw [map_fst_delInner]
      exact hwnd
    have hOut : ∀ a b,
        wGet (dDel (delInner key (((kb.keysWeight.lookup key).getD
          []).map Prod.fst) kb.keysWeight) key) a b
        = if a = key then none
          else wGet (delInner key (((kb.keysWeight.lookup key).getD
            []).map Prod.fst) kb.keysWeight) a b := by
      intro a b
      by_cases ha : a = key
      · rw [if_pos ha]
        unfold wGet
        rw [ha, dDel_lookup_self _ key hnu]
        rfl
      · rw [if_neg ha]
        unfold wGet
        rw [dDel_lookup_ne _ key a ha]
    have hmiss : ∀ a, a ∉ (((kb.keysWeight.lookup key).getD []).map Prod.fst) →
        wGet kb.keysWeight a key = none := by
      intro a hna
      rw [hkey] at hna
      rw [show Option.getD (some ikey) ([] : List (Char × Nat)) = ikey from rfl]
        at hna
      have h1 : wGet kb.keysWeight key a = none := by
        match hv : wGet kb.keysWeight key a with
        | none => rfl
        | some v =>
          exfalso
          apply hna
          apply (lookup_isSome_iff_mem ikey a).mp
          unfold wGet at hv
          rw [hkey, Option.some_bind] at hv
          rw [hv]
          rfl
      exact (hsymm a key).trans h1
    have hFull : ∀ a b,
        wGet (dDel (delInner key (((kb.keysWeight.lookup key).getD
          []).map Prod.fst) kb.keysWeight) key) a b
        = if a = key ∨ b = key then none else wGet kb.keysWeight a b := by
      intro a b
      rw [hOut a b]
      by_cases ha : a = key
      · rw [if_pos ha, if_pos (Or.inl ha)]
      · rw [if_neg ha, hGd a b]
        by_cases hb : b = key
        · rw [if_pos (Or.inr hb)]
          by_cases hm : a ∈ (((kb.keysWeight.lookup key).getD []).map Prod.fst)
          · rw [if_pos ⟨hm, hb⟩]
          · rw [if_neg (fun h' => hm h'.1), hb]
            exact hmiss a hm
        · rw [if_neg (fun h' => hb h'.2), if_neg (fun h' => h'.elim ha hb)]
    have hLk : ∀ a, a ≠ key →
        (dDel (delInner key (((kb.keysWeight.lookup key).getD
          []).map Prod.fst) kb.keysWeight) key).lookup a
        = (delInner key (((kb.keysWeight.lookup key).getD
          []).map Prod.fst) kb.keysWeight).lookup a :=
      fun a ha => dDel_lookup_ne _ key a ha
    refine ⟨nodup_map_fst_dDel kb.keys key hknd, nodup_map_fst_dDel _ key hnu,
      ?_, ?_, ?_, ?_, ?_⟩
    · intro d j hdj
      by_cases hd : d = key
      · rw [hd, dDel_lookup_self _ key hnu] at hdj
        exact Option.noConfusion hdj
      · rw [hLk d hd] at hdj
        exact delInner_nodup_pres key _ kb.keysWeight hinner d j hdj
    · intro a b
      rw [hFull a b, hFull b a]
      by_cases hor : a = key ∨ b = key
      · rw [if_pos hor, if_pos (Or.symm hor)]
      · rw [if_neg hor, if_neg (fun h' => hor (Or.symm h'))]
        exact hsymm a b
    · intro d hd
      have hdk : d ≠ key := by
        intro hdk
        rw [hdk, dDel_lookup_self _ key hnu] at hd
        exact Bool.noConfusion hd
      rw [hFull d d, if_neg (fun h' => h'.elim hdk hdk)]
      apply hdiag
      rw [hLk d hdk] at hd
      exact (lookup_isSome_delInner key _ kb.keysWeight d).mp hd
    · intro a b hab
      rw [hFull a b] at hab
      by_cases hor : a = key ∨ b = key
      · rw [if_pos hor] at hab
        exact Bool.noConfusion hab
      · rw [if_neg hor] at hab
        have hold := hrefs a b hab
        constructor
        · rw [dDel_lookup_ne kb.keys key a (fun h' => hor (Or.inl h'))]
          exact hold.1
        · rw [dDel_lookup_ne kb.keys key b (fun h' => hor (Or.inr h'))]
          exact hold.2
    · intro d hd
      have hdk : d ≠ key := by
        intro hdk
        rw [hdk, dDel_lookup_self kb.keys key hknd] at hd
        exact Bool.noConfusion hd
      rw [dDel_lookup_ne kb.keys key d hdk] at hd
      rw [hLk d hdk]
      exact (lookup_isSome_delInner key _ kb.keysWeight d).mpr (hdom d hd)
  · rw [if_neg hpres] at h
    exact Except.noConfusion h

theorem update_key_KInv (kb : Keyboard) (key : Char) (c : ℚ × ℚ) (kb2 : Keyboard)
    (hI : KInv kb) (h : kb.update_key key c = Except.ok kb2) : KInv kb2 := by
  unfold Keyboard.update_key at h
  by_cases hpres : (kb.keys.lookup key).isSome = true
  · rw [if_pos hpres] at h
    match hd : kb.del_key key with
    | Except.error e =>
      rw [hd] at h
      exact Except.noConfusion h
    | Except.ok kbm =>
      rw [hd] at h
      exact add_key_KInv kbm key c kb2 (del_key_KInv kb key kbm hI hd) h
  · rw [if_neg hpres] at h
    exact Except.noConfusion h

theorem applyOp_KInv (kb : Keyboard) (op : KOp) (hI : KInv kb) :
    KInv (applyOp kb op) := by
  cases op with
  | add k c =>
    cases hv : kb.add_key k c with
    | ok kb2 =>
      rw [show applyOp kb (KOp.add k c)
          = (match kb.add_key k c with
             | Except.ok kb2 => kb2
             | Except.error _ => kb) from rfl, hv]
      exact add_key_KInv kb k c kb2 hI hv
    | error e =>
      rw [show applyOp kb (KOp.add k c)
          = (match kb.add_key k c with
             | Except.ok kb2 => kb2
             | Except.error _ => kb) from rfl, hv]
      exact hI
  | upd k c =>
    cases hv : kb.update_key k c with
    | ok kb2 =>
      rw [show applyOp kb (KOp.upd k c)
          = (match kb.update_key k c with
             | Except.ok kb2 => kb2
             | Except.error _ => kb) from rfl, hv]
      exact update_key_KInv kb k c kb2 hI hv
    | error e =>
      rw [show applyOp kb (KOp.upd k c)
          = (match kb.update_key k c with
             | Except.ok kb2 => kb2
             | Except.error _ => kb) from rfl, hv]
      exact hI
  | del k =>
    cases hv : kb.del_key k with
    | ok kb2 =>
      rw [show applyOp kb (KOp.del k)
          = (match kb.del_key k with
             | Except.ok kb2 => kb2
             | Except.error _ => kb) from rfl, hv]
      exact del_key_KInv kb k kb2 hI hv
    | error e =>
      rw [show applyOp kb (KOp.del k)
          = (match kb.del_key k with
             | Except.ok kb2 => kb2
             | Except.error _ => kb) from rfl, hv]
      exact hI

theorem applyOps_KInv :
    ∀ (ops : List KOp) (kb : Keyboard), KInv kb → KInv (applyOps kb ops) := by
  intro ops
  induction ops with
  | nil => intro kb hI; exact hI
  | cons op rest ih =>
    intro kb hI
    exact ih (applyOp kb op) (applyOp_KInv kb op hI)

theorem get_weight_bridge (kb : Keyboard) (hdom : ∀ k,
      (kb.keys.lookup k).isSome = true → (kb.keysWeight.lookup k).isSome = true)
    (a b : Char) (ha : (kb.keys.lookup a).isSome = true) :
    ((kb.keysWeight.lookup a).getD []).lookup b = wGet kb.keysWeight a b := by
  obtain ⟨i, hi⟩ := Option.isSome_iff_exists.mp (hdom a ha)
  unfold wGet
  rw [hi]
  rfl

theorem get_weight_symm_of_KInv (kb : Keyboard) (hI : KInv kb) (k1 k2 : Char)
    (dw : Nat) : kb.get_weight k1 k2 dw = kb.get_weight k2 k1 dw := by
  obtain ⟨hknd, hwnd, hinner, hsymm, hdiag, hrefs, hdom⟩ := hI
  unfold Keyboard.get_weight Keyboard.has_key
  by_cases h1 : (kb.keys.lookup k1).isSome = true
  · by_cases h2 : (kb.keys.lookup k2).isSome = true
    · rw [if_pos h1, if_pos h2,
        get_weight_bridge kb hdom k1 k2 h1, get_weight_bridge kb hdom k2 k1 h2,
        hsymm k1 k2]
    · rw [if_pos h1, if_neg h2, get_weight_bridge kb hdom k1 k2 h1]
      have hz : wGet kb.keysWeight k1 k2 = none := by
        match hv : wGet kb.keysWeight k1 k2 with
        | none => rfl
        | some v => exact absurd ((hrefs k1 k2 (by rw [hv]; rfl)).2) h2
      rw [hz]
      rfl
  · by_cases h2 : (kb.keys.lookup k2).isSome = true
    · rw [if_neg h1, if_pos h2, get_weight_bridge kb hdom k2 k1 h2]
      have hz : wGet kb.keysWeight k2 k1 = none := by
        match hv : wGet kb.keysWeight k2 k1 with
        | none => rfl
        | some v => exact absurd ((hrefs k2 k1 (by rw [hv]; rfl)).2) h1
      rw [hz]
      rfl
    · rw [if_neg h1, if_neg h2]

theorem get_weight_diag_of_KInv (kb : Keyboard) (hI : KInv kb) (k : Char)
    (dw : Nat) (hk : kb.has_key k = true) : kb.get_weight k k dw = 0 := by
  obtain ⟨hknd, hwnd, hinner, hsymm, hdiag, hrefs, hdom⟩ := hI
  unfold Keyboard.has_key at hk
  unfold Keyboard.get_weight Keyboard.has_key
  rw [if_pos hk, get_weight_bridge kb hdom k k hk, hdiag k (hdom k hk)]
  rfl

/-- Claim C8: for every keyboard built from any key-coordinate mapping
(modelled as a duplicate-free association list, as Python dict keys are
unique) and mutated by any sequence of `add_key`, `update_key` and
`del_key` operations (each raised `ValueError` leaving the keyboard
unchanged), the resolved cost is symmetric — `get_weight k1 k2 dw =
get_weight k2 k1 dw` for all characters and any common default weight —
and `get_weight k k dw = 0` for every key `k` present in the keyboard. -/
theorem claim_C8 (init : List (Char × (ℚ × ℚ)))
    (hnd : (init.map Prod.fst).Nodup) (ops : List KOp) (k1 k2 : Char) (dw : Nat) :
    (applyOps (Keyboard.init init) ops).get_weight k1 k2 dw
      = (applyOps (Keyboard.init init) ops).get_weight k2 k1 dw ∧
    ((applyOps (Keyboard.init init) ops).has_key k1 = true →
      (applyOps (Keyboard.init init) ops).get_weight k1 k1 dw = 0) := by
  have hI := applyOps_KInv ops (Keyboard.init init) (KInv_init init hnd)
  exact ⟨get_weight_symm_of_KInv _ hI k1 k2 dw,
    fun hk => get_weight_diag_of_KInv _ hI k1 dw hk⟩

/-- Witness for C8: a concrete three-key keyboard mutated by an add, an
update and a delete. -/
theorem claim_C8_witness :
    (([('a', ((0 : ℚ), (0 : ℚ))), ('b', (1, 0)), ('c', (5, 5))].map
      Prod.fst).Nodup) ∧
    ((applyOps (Keyboard.init [('a', ((0 : ℚ), (0 : ℚ))), ('b', (1, 0)),
        ('c', (5, 5))]) [KOp.add 'd' (1, 1), KOp.upd 'b' (9, 9),
        KOp.del 'a']).get_weight 'b' 'd' 2
      = (applyOps (Keyboard.init [('a', ((0 : ℚ), (0 : ℚ))), ('b', (1, 0)),
        ('c', (5, 5))]) [KOp.add 'd' (1, 1), KOp.upd 'b' (9, 9),
        KOp.del 'a']).get_weight 'd' 'b' 2 ∧
    ((applyOps (Keyboard.init [('a', ((0 : ℚ), (0 : ℚ))), ('b', (1, 0)),
        ('c', (5, 5))]) [KOp.add 'd' (1, 1), KOp.upd 'b' (9, 9),
        KOp.del 'a']).has_key 'b' = true →
      (applyOps (Keyboard.init [('a', ((0 : ℚ), (0 : ℚ))), ('b', (1, 0)),
        ('c', (5, 5))]) [KOp.add 'd' (1, 1), KOp.upd 'b' (9, 9),
        KOp.del 'a']).get_weight 'b' 'b' 2 = 0)) :=
  ⟨by decide,
    claim_C8 [('a', ((0 : ℚ), (0 : ℚ))), ('b', (1, 0)), ('c', (5, 5))]
      (by decide) [KOp.add 'd' (1, 1), KOp.upd 'b' (9, 9), KOp.del 'a'] 'b' 'd' 2⟩

end BK
